import Mathlib

/-!
# Pathname: lexical path operations and filesystem wrappers

A shallow embedding of `pathname.go`, `pathname_unix.go` and
`pathname_windows.go`.

Go strings are modelled as `List Char`, the characters of a string of valid
UTF-8.  The lexical routines (`path.Clean`, `filepath.Join`, `filepath.Dir`,
`filepath.Base`, `filepath.Ext`, `filepath.Split`) only compare bytes against
the ASCII characters `/` and `.` and cut the string there, so for them
scanning characters and scanning bytes agree.  `filepath.Match` steps through
a name byte by byte and decodes a character where it stands, so it is
modelled on the bytes of the UTF-8 encoding (`utf8`, `decodeRune`).

The routines of the Go standard library that the wrappers call (`path.Clean`,
`filepath.Join`, `filepath.Dir`, `filepath.Base`, `filepath.Ext`,
`filepath.Match`, `filepath.Glob`, in their Unix form, separator `/`, no
volume names) are not part of the repository sources; they are written out
here after the library algorithms, loop by loop.

Where a claim speaks of a notion that the specification words without an
algorithm (the lexically cleaned form of a path, the extension of a name, a
name matching a shell pattern), the notion is defined a second time, after
those words (`specClean`, `fromLastDot`, `PatMatch`), and the code is proved
against that definition.
-/

set_option autoImplicit false

namespace Pathname

/-- A Go string: the sequence of its characters. -/
abbrev Str := List Char

/-- The message of a Go `error`. -/
abbrev Msg := String

/-! ## `path.Clean` -/

/-- The loop state of `path.Clean`: `out` is the written part `buf[:w]` of the
output buffer (so `w = out.length`), `dotdot` the index where `..` must stop. -/
structure CleanState where
  out : Str
  dotdot : Nat
deriving DecidableEq, Repr

/-- The scan `for out.w > dotdot && out.index(out.w) != '/' { out.w-- }` of
`path.Clean`, run on the write index `w`; `buf` holds the bytes written so far,
which is where `out.index` reads. -/
def backtrackLoop (buf : Str) (dotdot : Nat) : Nat → Nat
  | 0 => 0
  | w + 1 =>
    if dotdot < w + 1 ∧ buf.getD (w + 1) '/' ≠ '/' then backtrackLoop buf dotdot w
    else w + 1

/-- The condition `rooted && out.w != 1 || !rooted && out.w != 0` under which
`path.Clean` writes a separator before copying a path element. -/
def needSlash (rooted : Bool) (w : Nat) : Bool :=
  (rooted && w != 1) || (!rooted && w != 0)

/-- The test `path[r] != '/'` of the copy loop of `path.Clean`. -/
def notSep (c : Char) : Bool := decide (c ≠ '/')

/-- The output after the `..` branch of `path.Clean` that cannot backtrack and
is not rooted: `if out.w > 0 { out.append('/') }; out.append('.'); out.append('.')`. -/
def appendDotDot (out : Str) : Str :=
  (if 0 < out.length then out ++ ['/'] else out) ++ ['.', '.']

/-- The output after the default branch of `path.Clean`: a separator if needed,
then the copied path element `e`. -/
def appendElem (rooted : Bool) (out e : Str) : Str :=
  (if needSlash rooted out.length then out ++ ['/'] else out) ++ e

/-- The main loop `for r < n { switch ... }` of `path.Clean`.  `rest` is the
unread input `path[r:]`; every round consumes at least one character, so the
first argument (the number of rounds allowed) never runs out when it is at
least `rest.length`. -/
def cleanLoop (rooted : Bool) : Nat → Str → CleanState → CleanState
  | 0, _, st => st
  | _ + 1, [], st => st
  | fuel + 1, c :: t, st =>
    if c = '/' then
      -- empty path element
      cleanLoop rooted fuel t st
    else if c = '.' ∧ (t = [] ∨ t.head? = some '/') then
      -- . element
      cleanLoop rooted fuel t st
    else if c = '.' ∧ t.head? = some '.' ∧ (t.tail = [] ∨ t.tail.head? = some '/') then
      -- .. element: remove to last /
      if st.dotdot < st.out.length then
        -- can backtrack
        cleanLoop rooted fuel t.tail
          ⟨st.out.take (backtrackLoop st.out st.dotdot (st.out.length - 1)), st.dotdot⟩
      else if rooted = false then
        -- cannot backtrack, but not rooted, so append .. element
        cleanLoop rooted fuel t.tail ⟨appendDotDot st.out, (appendDotDot st.out).length⟩
      else
        cleanLoop rooted fuel t.tail st
    else
      -- real path element: add slash if needed, copy element
      cleanLoop rooted fuel ((c :: t).dropWhile notSep)
        ⟨appendElem rooted st.out ((c :: t).takeWhile notSep), st.dotdot⟩

/-- The state in which `path.Clean` enters its loop: for a rooted path the
leading `/` is already written and `r = dotdot = 1`. -/
def cleanInit (rooted : Bool) : CleanState :=
  if rooted then ⟨['/'], 1⟩ else ⟨[], 0⟩

/-- The function `path.Clean` with an explicit bound on the number of loop
rounds. -/
def cleanFuel (fuel : Nat) (path : Str) : Str :=
  if path = [] then ['.']
  else
    let rooted : Bool := path.head? = some '/'
    let st := cleanLoop rooted fuel (if rooted then path.tail else path) (cleanInit rooted)
    if st.out.length = 0 then ['.'] else st.out

/-- The function `path.Clean` (on Unix `filepath.Clean` is the same function). -/
def Clean (path : Str) : Str := cleanFuel path.length path

/-! ## `filepath.Join`, `filepath.Dir`, `filepath.Base`, `filepath.Ext` -/

/-- The function `filepath.Join` for two elements: empty leading elements are
skipped, the remaining ones are joined with `/` and cleaned. -/
def Join (a b : Str) : Str :=
  if a ≠ [] then Clean (a ++ '/' :: b)
  else if b ≠ [] then Clean b
  else []

/-- The scan `i := len(path) - 1; for i >= 0 && path[i] != '/' { i-- }` that
`filepath.Dir` and `filepath.Base` share.  The argument and the result are
`i + 1`. -/
def scanBack (path : Str) : Nat → Nat
  | 0 => 0
  | i + 1 => if path.getD i '/' ≠ '/' then scanBack path i else i + 1

/-- The function `filepath.Dir`: `Clean(path[:i+1])` for the last separator `i`. -/
def Dir (path : Str) : Str :=
  Clean (path.take (scanBack path path.length))

/-- The loop `for len(path) > 0 && path[len(path)-1] == '/' { path = path[:len(path)-1] }`
of `filepath.Base`; the result is the length of what is left. -/
def stripTrailing (path : Str) : Nat → Nat
  | 0 => 0
  | n + 1 => if path.getD n '.' = '/' then stripTrailing path n else n + 1

/-- The function `filepath.Base`. -/
def Base (path : Str) : Str :=
  if path = [] then ['.']
  else
    let p1 := path.take (stripTrailing path path.length)
    let p2 := p1.drop (scanBack p1 p1.length)
    if p2 = [] then ['/'] else p2

/-- The loop of `filepath.Ext`,
`for i := len(path) - 1; i >= 0 && path[i] != '/'; i-- { if path[i] == '.' { return path[i:] } }`;
the argument is `i + 1`. -/
def extLoop (path : Str) : Nat → Str
  | 0 => []
  | i + 1 =>
    if path.getD i '/' ≠ '/' then
      if path.getD i '/' = '.' then path.drop i else extLoop path i
    else []

/-- The function `filepath.Ext`. -/
def Ext (path : Str) : Str := extLoop path path.length

end Pathname

/-- The type `Pathname` of `pathname.go`: a wrapped path string. -/
structure Pathname where
  filePath : Pathname.Str
deriving DecidableEq, Repr

namespace Pathname

/-- `New` of `pathname.go`: wraps the cleaned path. -/
def New (pathString : Str) : Pathname := ⟨Clean pathString⟩

/-- `Raw` of `pathname.go`: wraps the string without any modification. -/
def Raw (pathString : Str) : Pathname := ⟨pathString⟩

/-- `Pathname.String` of `pathname.go`. -/
def String (o : Pathname) : Str := o.filePath

/-- `Pathname.Append` of `pathname.go`. -/
def Append (o : Pathname) (path : Str) : Pathname := Raw (Join o.filePath path)

/-- `Pathname.Parent` of `pathname.go`. -/
def Parent (o : Pathname) : Pathname := Raw (Dir o.filePath)

/-- `Pathname.Basename` of `pathname.go`. -/
def Basename (o : Pathname) : Str := Base o.filePath

/-- `Pathname.Extension` of `pathname.go`. -/
def Extension (o : Pathname) : Str := Ext o.filePath

/-- The loop of `path.Clean` run to completion on the unread input `rest`. -/
def run (rooted : Bool) (rest : Str) (st : CleanState) : CleanState :=
  cleanLoop rooted rest.length rest st

/-! ## The shape of cleaned paths -/

/-- The path elements `e₁, …, eₙ` written out as `/e₁/e₂/…/eₙ`. -/
def slashJoin : List Str → Str
  | [] => []
  | e :: es => '/' :: e ++ slashJoin es

/-- An ordinary path element: non-empty, without separator, neither `.` nor `..`. -/
def NormalSeg (e : Str) : Prop :=
  e ≠ [] ∧ (∀ c ∈ e, c ≠ '/') ∧ e ≠ ['.'] ∧ e ≠ ['.', '.']

instance (e : Str) : Decidable (NormalSeg e) := by
  unfold NormalSeg
  infer_instance

/-- The path with elements `es`: `/e₁/…/eₙ` when rooted (`/` alone for no
element), `e₁/…/eₙ` otherwise (empty for no element). -/
def rep (rooted : Bool) (es : List Str) : Str :=
  if rooted then (if es = [] then ['/'] else slashJoin es) else (slashJoin es).tail

/-- The invariant of the loop of `path.Clean`: the output is a path of `k`
leading `..` elements (none when rooted) followed by ordinary elements, and
`dotdot` is the length of the part made of the `..` elements. -/
def CleanInv (rooted : Bool) (st : CleanState) : Prop :=
  ∃ (k : Nat) (es : List Str), (∀ e ∈ es, NormalSeg e) ∧ (rooted = true → k = 0) ∧
    st.out = rep rooted (List.replicate k ['.', '.'] ++ es) ∧
    st.dotdot = (rep rooted (List.replicate k ['.', '.'])).length

/-- The separator-delimited segments of a path. -/
def segments (p : Str) : List Str := p.splitOn '/'

/-- The shape of a cleaned path: `.`, or a path of leading `..` elements (none
when rooted) followed by ordinary elements. -/
def Canon (rooted : Bool) (k : Nat) (es : List Str) (p : Str) : Prop :=
  (∀ e ∈ es, NormalSeg e) ∧ (rooted = true → k = 0) ∧
    p = (if rep rooted (List.replicate k ['.', '.'] ++ es) = [] then ['.']
         else rep rooted (List.replicate k ['.', '.'] ++ es))

/-- Two adjacent characters are not both separators. -/
def NoDouble (a b : Char) : Prop := ¬ (a = '/' ∧ b = '/')

/-- The substring of `b` from its last `.` onward, including the dot, and the
empty string when `b` contains no `.`: the extension as the specification
words it. -/
def fromLastDot : Str → Str
  | [] => []
  | c :: t => if '.' ∈ t then fromLastDot t else if c = '.' then c :: t else []

/-- One path element taken in by lexical cleaning, the specification's rules
applied to the elements kept so far: an empty element (between two adjacent
separators, or after a trailing one) and a `.` element are dropped; a `..`
element removes the ordinary element before it, is dropped at the start of a
rooted path, and is kept at the start of a relative path or after another
kept `..`; any other element is kept. -/
def cleanStep (rooted : Bool) (stack : List Str) (e : Str) : List Str :=
  if e = [] ∨ e = ['.'] then stack
  else if e = ['.', '.'] then
    if stack = [] then (if rooted then [] else [e])
    else if stack.getLast? = some ['.', '.'] then stack ++ [e]
    else stack.dropLast
  else stack ++ [e]

/-- The lexically cleaned form of a path as the specification words it: the
path is cut at its separators, the elements are taken in from left to right by
`cleanStep`, and the elements kept are written with one separator between
them, after a leading separator when the path is rooted; a relative path with
no element left is `.`. -/
def specClean (s : Str) : Str :=
  let es := (segments s).foldl (cleanStep (s.head? = some '/')) []
  if s.head? = some '/' then '/' :: ['/'].intercalate es
  else if es = [] then ['.'] else ['/'].intercalate es

/-- The state of the loop of `path.Clean` holds the path whose elements are
`M`: leading `..` elements (none when rooted) followed by ordinary elements,
with `dotdot` the length of the part made of the `..` elements. -/
def StackRep (rooted : Bool) (M : List Str) (st : CleanState) : Prop :=
  ∃ (k : Nat) (es : List Str), M = List.replicate k ['.', '.'] ++ es ∧ (∀ e ∈ es, NormalSeg e) ∧
    (rooted = true → k = 0) ∧ st.out = rep rooted M ∧
    st.dotdot = (rep rooted (List.replicate k ['.', '.'])).length

/-! ## Files, processes and the operating system -/

/-- The bit `fs.ModeDir` of a file mode: is a directory. -/
def ModeDir : Nat := 2 ^ 31

/-- The bit `fs.ModeSymlink`: symbolic link. -/
def ModeSymlink : Nat := 2 ^ 27

/-- The bit `fs.ModeDevice`: device file. -/
def ModeDevice : Nat := 2 ^ 26

/-- The bit `fs.ModeNamedPipe`: named pipe. -/
def ModeNamedPipe : Nat := 2 ^ 25

/-- The bit `fs.ModeSocket`: Unix domain socket. -/
def ModeSocket : Nat := 2 ^ 24

/-- The bit `fs.ModeCharDevice`: Unix character device. -/
def ModeCharDevice : Nat := 2 ^ 21

/-- The bit `fs.ModeIrregular`: non-regular file, nothing else is known. -/
def ModeIrregular : Nat := 2 ^ 19

/-- The mask `fs.ModeType` for the type bits; for regular files none is set. -/
def ModeType : Nat :=
  ModeDir ||| ModeSymlink ||| ModeNamedPipe ||| ModeSocket ||| ModeDevice ||| ModeCharDevice |||
    ModeIrregular

/-- The mask `fs.ModePerm`: the Unix permission bits. -/
def ModePerm : Nat := 0o777

/-- What the wrappers read of an `fs.FileInfo`: the mode word `Mode()`. -/
structure FileInfo where
  mode : Nat
deriving DecidableEq, Repr

/-- The method `FileInfo.IsDir`, that is `Mode()&ModeDir != 0`. -/
def FileInfo.IsDir (fi : FileInfo) : Bool := fi.mode &&& ModeDir != 0

/-- The method `FileMode.IsRegular`, that is `Mode()&ModeType == 0`. -/
def FileInfo.IsRegular (fi : FileInfo) : Bool := fi.mode &&& ModeType == 0

/-- The method `FileMode.Perm`, that is `Mode() & ModePerm`. -/
def FileInfo.Perm (fi : FileInfo) : Nat := fi.mode &&& ModePerm

/-- How a child process ended: it could not be started, or it ran and `Wait`
returned `err` (`none` for exit status 0) after it wrote `out` to standard
error. -/
inductive Spawned where
  | notStarted (err : Msg)
  | exited (err : Option Msg) (out : Msg)
deriving DecidableEq, Repr

/-- The calls into the operating system that the wrappers make, over a state
`σ` of the filesystem and the process.  An error is its message.  The queries
(`stat`, `lstat`, `openRead`, `getwd`, `readDirNames`) return no new state. -/
structure OS (σ : Type) where
  /-- `os.Stat(name)`. -/
  stat : σ → Str → Except Msg FileInfo
  /-- `os.Lstat(name)`. -/
  lstat : σ → Str → Except Msg FileInfo
  /-- `os.Open(name)`: the error, if any. -/
  openRead : σ → Str → Option Msg
  /-- `os.OpenFile(name, flag, perm)`: the error, if any, and the new state. -/
  openFile : σ → Str → Nat → Nat → Option Msg × σ
  /-- `io.Copy(dst, src)` between the files opened at these paths. -/
  copy : σ → Str → Str → Option Msg × σ
  /-- Starting the program `argv` and waiting for it. -/
  spawn : σ → List Str → Spawned × σ
  /-- `os.Getwd()`: the path and the error, if any. -/
  getwd : σ → Str × Option Msg
  /-- `os.Chdir(dir)`. -/
  chdir : σ → Str → Except Msg σ
  /-- The names `Readdirnames(-1)` returns for the directory opened at a path. -/
  readDirNames : σ → Str → List Str

/-- The flag `os.O_RDWR`. -/
def O_RDWR : Nat := 0x2

/-- The flag `os.O_CREATE`. -/
def O_CREATE : Nat := 0x40

/-- The flag `os.O_TRUNC`. -/
def O_TRUNC : Nat := 0x200

/-- `Pathname.Exist` of `pathname.go`. -/
def Exist {σ : Type} (os : OS σ) (o : Pathname) (s : σ) : Bool :=
  match os.stat s o.filePath with
  | .ok _ => true
  | .error _ => false

/-- `Pathname.IsDirectory` of `pathname.go`. -/
def IsDirectory {σ : Type} (os : OS σ) (o : Pathname) (s : σ) : Bool :=
  match os.stat s o.filePath with
  | .error _ => false
  | .ok fileInfo => fileInfo.IsDir

/-- `Pathname.CopyFileTo` of `pathname.go`: the returned error (`none` for
`nil`) and the state afterwards. -/
def CopyFileTo {σ : Type} (os : OS σ) (o toPath : Pathname) (s : σ) : Option Msg × σ :=
  match os.stat s o.filePath with
  | .error err => (some err, s)
  | .ok fileInfo =>
    if !fileInfo.IsRegular then
      if fileInfo.IsDir then (some "source is dir (not a file)", s)
      else (some "source not a regular file", s)
    else if Exist os toPath s then (some "target already exist", s)
    else
      match os.openRead s o.filePath with
      | some err => (some err, s)
      | none =>
        match os.openFile s toPath.filePath (O_RDWR ||| O_CREATE ||| O_TRUNC) fileInfo.Perm with
        | (some err, s1) => (some err, s1)
        | (none, s1) => os.copy s1 toPath.filePath o.filePath

/-- An `exec.Cmd`: the program and its arguments, whether the process was
started (`c.Process != nil`), and the buffer set as `Stderr`. -/
structure Cmd where
  args : List Str
  started : Bool
  stderr : Msg
deriving DecidableEq, Repr

/-- `exec.Command(name, arg...)`. -/
def Command (args : List Str) : Cmd := ⟨args, false, ""⟩

/-- The method `(*exec.Cmd).Run`: `Start` then `Wait`.  `Start` refuses a
command whose process was already started with `exec: already started`. -/
def Cmd.Run {σ : Type} (os : OS σ) (c : Cmd) (s : σ) : Option Msg × Cmd × σ :=
  if c.started then (some "exec: already started", c, s)
  else
    match os.spawn s c.args with
    | (.notStarted err, s1) => (some err, c, s1)
    | (.exited err out, s1) => (err, { c with started := true, stderr := c.stderr ++ out }, s1)

/-- `Pathname.CopyDirTo` of `pathname_unix.go`. -/
def CopyDirToUnix {σ : Type} (os : OS σ) (o toPath : Pathname) (s : σ) : Option Msg × σ :=
  if !IsDirectory os o s then (some "source path not a directory", s)
  else if Exist os toPath s then (some "destination path already exist", s)
  else
    match (Command ["cp".toList, "-r".toList, o.filePath, toPath.filePath]).Run os s with
    | (some err, cmd, s1) => (some (err ++ ". " ++ cmd.stderr), s1)
    | (none, _, s1) => (none, s1)

/-- `Pathname.CopyDirTo` of `pathname_windows.go`. -/
def CopyDirToWindows {σ : Type} (os : OS σ) (o toPath : Pathname) (s : σ) : Option Msg × σ :=
  if !IsDirectory os o s then (some "source path not a directory", s)
  else if Exist os toPath s then (some "destination path already exist", s)
  else
    match (Command ["C:\\Windows\\System32\\cmd.exe".toList, "/C".toList, "xcopy".toList,
        o.filePath, toPath.filePath, "/E/H/C/I".toList]).Run os s with
    | (some err, cmd, s1) => (some (err ++ ". " ++ cmd.stderr), s1)
    | (none, cmd, s1) =>
      match cmd.Run os s1 with
      | (err, _, s2) => (err, s2)

/-- The two builds of the package. -/
inductive Platform where
  | unix
  | windows
deriving DecidableEq, Repr

/-- `Pathname.CopyDirTo` as the build for `pf` has it. -/
def CopyDirTo {σ : Type} (pf : Platform) (os : OS σ) (o toPath : Pathname) (s : σ) :
    Option Msg × σ :=
  match pf with
  | .unix => CopyDirToUnix os o toPath s
  | .windows => CopyDirToWindows os o toPath s

/-- `Pathname.CopyTo` of `pathname.go`. -/
def CopyTo {σ : Type} (pf : Platform) (os : OS σ) (o toPath : Pathname) (s : σ) :
    Option Msg × σ :=
  if IsDirectory os toPath s then CopyDirTo pf os o toPath s
  else CopyFileTo os o toPath s

/-- `Current` of `pathname.go`; the error of `os.Getwd` is dropped. -/
def Current {σ : Type} (os : OS σ) (s : σ) : Pathname := New (os.getwd s).1

/-- `Pathname.ChdirWithin` of `pathname.go`.  `block` is the callback, run on
the state; the result is the returned error, the state afterwards, and the
record of the calls of `block`: the argument and the state of each. -/
def ChdirWithin {σ : Type} (os : OS σ) (o : Pathname) (block : Pathname → σ → σ) (s : σ) :
    Option Msg × σ × List (Pathname × σ) :=
  let oldDir := Current os s
  match os.chdir s o.filePath with
  | .error err => (some err, s, [])
  | .ok s1 =>
    let s2 := block o s1
    match os.chdir s2 oldDir.filePath with
    | .error err => (some err, s2, [(o, s1)])
    | .ok s3 => (none, s3, [(o, s1)])

/-- The digits of `n` in lower-case hexadecimal, as the verb `%x` prints them. -/
def hexDigits (n : Nat) : Str := Nat.toDigits 16 n

/-- `fmt.Sprintf("%8x", n)` for `n ≥ 0`: the hexadecimal digits, padded with
spaces on the left to width 8. -/
def sprintf8x (n : Nat) : Str :=
  List.replicate (8 - (hexDigits n).length) ' ' ++ hexDigits n

/-- `Pathname.AppendRandom` of `pathname.go`.  `rand i` is the value the `i`-th
call of `rand.Int()` returns, and the first argument bounds the number of
attempts (`none` when all of them met an existing name). -/
def AppendRandom {σ : Type} (os : OS σ) (s : σ) (o : Pathname) (rand : Nat → Nat) :
    Nat → Nat → Option Pathname
  | 0, _ => none
  | fuel + 1, i =>
    if Exist os (o.Append (sprintf8x (rand i))) s then AppendRandom os s o rand fuel (i + 1)
    else some (o.Append (sprintf8x (rand i)))

/-- A hexadecimal digit `0-9`, `a-f`. -/
def isHexDigit (c : Char) : Bool :=
  ('0' ≤ c && c ≤ '9') || ('a' ≤ c && c ≤ 'f')

/-! ## `filepath.Match` and `filepath.Glob` -/

/-- The error `filepath.ErrBadPattern`. -/
def ErrBadPattern : Msg := "syntax error in pattern"

/-- The bytes of a Go string. -/
abbrev Bytes := List Nat

/-- The bytes that encode a character in UTF-8. -/
def utf8EncodeChar (c : Char) : Bytes :=
  if c.toNat < 0x80 then [c.toNat]
  else if c.toNat < 0x800 then [0xC0 + c.toNat / 0x40, 0x80 + c.toNat % 0x40]
  else if c.toNat < 0x10000 then
    [0xE0 + c.toNat / 0x1000, 0x80 + c.toNat / 0x40 % 0x40, 0x80 + c.toNat % 0x40]
  else
    [0xF0 + c.toNat / 0x40000, 0x80 + c.toNat / 0x1000 % 0x40, 0x80 + c.toNat / 0x40 % 0x40,
      0x80 + c.toNat % 0x40]

/-- The bytes of the Go string that holds the characters `s`. -/
def utf8 (s : Str) : Bytes := s.flatMap utf8EncodeChar

/-- The byte `/`, `filepath.Separator`. -/
abbrev Separator : Nat := 47

/-- The byte `*`. -/
abbrev byteStar : Nat := 42

/-- The byte `?`. -/
abbrev byteQuery : Nat := 63

/-- The byte `[`. -/
abbrev byteOpen : Nat := 91

/-- The byte `\`. -/
abbrev byteEscape : Nat := 92

/-- The byte `]`. -/
abbrev byteClose : Nat := 93

/-- The byte `^`. -/
abbrev byteCaret : Nat := 94

/-- The byte `-`. -/
abbrev byteDash : Nat := 45

/-- The rune `utf8.RuneError`. -/
abbrev RuneError : Nat := 0xFFFD

/-- The lowest second byte that `utf8.DecodeRuneInString` accepts after the
first byte `s0` (the table `acceptRanges`). -/
def acceptLo (s0 : Nat) : Nat :=
  if s0 = 0xE0 then 0xA0 else if s0 = 0xF0 then 0x90 else 0x80

/-- The highest second byte that `utf8.DecodeRuneInString` accepts after the
first byte `s0` (the table `acceptRanges`). -/
def acceptHi (s0 : Nat) : Nat :=
  if s0 = 0xED then 0x9F else if s0 = 0xF4 then 0x8F else 0xBF

/-- The function `utf8.DecodeRuneInString`: the rune at the beginning of `s` and
its width in bytes; `(RuneError, 0)` for the empty string and `(RuneError, 1)`
when the encoding is invalid. -/
def decodeRune (s : Bytes) : Nat × Nat :=
  match s with
  | [] => (RuneError, 0)
  | s0 :: t =>
    if s0 < 0x80 then (s0, 1)
    else if s0 < 0xC2 ∨ 0xF5 ≤ s0 then (RuneError, 1)
    else if s0 < 0xE0 then
      match t with
      | s1 :: _ =>
        if 0x80 ≤ s1 ∧ s1 ≤ 0xBF then (s0 % 0x20 * 0x40 + s1 % 0x40, 2) else (RuneError, 1)
      | [] => (RuneError, 1)
    else if s0 < 0xF0 then
      match t with
      | s1 :: s2 :: _ =>
        if acceptLo s0 ≤ s1 ∧ s1 ≤ acceptHi s0 ∧ 0x80 ≤ s2 ∧ s2 ≤ 0xBF then
          (s0 % 0x10 * 0x1000 + s1 % 0x40 * 0x40 + s2 % 0x40, 3)
        else (RuneError, 1)
      | _ => (RuneError, 1)
    else
      match t with
      | s1 :: s2 :: s3 :: _ =>
        if acceptLo s0 ≤ s1 ∧ s1 ≤ acceptHi s0 ∧ 0x80 ≤ s2 ∧ s2 ≤ 0xBF ∧ 0x80 ≤ s3 ∧ s3 ≤ 0xBF then
          (s0 % 0x08 * 0x40000 + s1 % 0x40 * 0x1000 + s2 % 0x40 * 0x40 + s3 % 0x40, 4)
        else (RuneError, 1)
      | _ => (RuneError, 1)

/-- The second loop of `scanChunk`: the index `i` at which the chunk ends, the
first `*` outside a character class; the byte after a `\` is skipped. -/
def chunkEnd : Bytes → Bool → Nat
  | [], _ => 0
  | c :: t, inrange =>
    if c = byteEscape then
      match t with
      | [] => 1
      | _ :: t2 => 2 + chunkEnd t2 inrange
    else if c = byteOpen then 1 + chunkEnd t true
    else if c = byteClose then 1 + chunkEnd t false
    else if c = byteStar then (if inrange = false then 0 else 1 + chunkEnd t inrange)
    else 1 + chunkEnd t inrange

/-- The function `scanChunk` of `filepath.Match`: whether the next segment of
the pattern is preceded by stars, the segment up to the next star, and the rest. -/
def scanChunk (pattern : Bytes) : Bool × Bytes × Bytes :=
  let p1 := pattern.dropWhile (fun c => decide (c = byteStar))
  (decide (pattern.head? = some byteStar), p1.take (chunkEnd p1 false),
    p1.drop (chunkEnd p1 false))

/-- The function `getEsc` of `filepath.Match`: a possibly escaped character of
a character class, and the chunk after it. -/
def getEsc (chunk : Bytes) : Except Msg (Nat × Bytes) :=
  match chunk with
  | [] => .error ErrBadPattern
  | c :: t =>
    if c = byteDash ∨ c = byteClose then .error ErrBadPattern
    else if (if c = byteEscape then t else c :: t) = [] then .error ErrBadPattern
    else if (decodeRune (if c = byteEscape then t else c :: t)).1 = RuneError ∧
        (decodeRune (if c = byteEscape then t else c :: t)).2 = 1 then .error ErrBadPattern
    else if (if c = byteEscape then t else c :: t).drop
        (decodeRune (if c = byteEscape then t else c :: t)).2 = [] then .error ErrBadPattern
    else .ok ((decodeRune (if c = byteEscape then t else c :: t)).1,
      (if c = byteEscape then t else c :: t).drop
        (decodeRune (if c = byteEscape then t else c :: t)).2)

/-- The loop of `matchChunk` that parses all ranges of a character class and
tests the rune `r` against them: whether one matched, and the chunk after
the closing bracket.  Every round consumes part of the chunk, so the rounds
allowed suffice when they are at least `chunk.length`. -/
def classRanges (r : Nat) : Nat → Bytes → Bool → Nat → Except Msg (Bool × Bytes)
  | 0, _, _, _ => .error ErrBadPattern
  | fuel + 1, chunk, matched, nrange =>
    if chunk.head? = some byteClose ∧ 0 < nrange then .ok (matched, chunk.tail)
    else
      match getEsc chunk with
      | .error err => .error err
      | .ok (lo, chunk1) =>
        if chunk1.head? = some byteDash then
          match getEsc chunk1.tail with
          | .error err => .error err
          | .ok (hi, chunk2) =>
            classRanges r fuel chunk2 (matched || (decide (lo ≤ r) && decide (r ≤ hi))) (nrange + 1)
        else
          classRanges r fuel chunk1 (matched || (decide (lo ≤ r) && decide (r ≤ lo))) (nrange + 1)

/-- The default case of `matchChunk`: the literal byte `lit` against the first
byte of `s`.  The result is the rest of `s` and the flag `failed`. -/
def matchLiteral (lit : Nat) (s : Bytes) (failed : Bool) : Bytes × Bool :=
  if failed then (s, true) else (s.tail, decide (s.head? ≠ some lit))

/-- The rune a class of `matchChunk` is tested against: the one decoded at the
beginning of `s`, or the zero rune once the match has failed. -/
def classRune (s : Bytes) (failed : Bool) : Nat :=
  if failed then 0 else (decodeRune s).1

/-- The string `s` of `matchChunk` after one rune was read, which happens only
while the match has not failed. -/
def afterRune (s : Bytes) (failed : Bool) : Bytes :=
  if failed then s else s.drop (decodeRune s).2

/-- The chunk after the `^` of a negated class, if there is one. -/
def classStart (chunk : Bytes) : Bytes :=
  if chunk.head? = some byteCaret then chunk.tail else chunk

/-- The loop of `matchChunk`: `failed` records that the match has failed, after
which the chunk is only checked for being well-formed.  The result is the rest
of `s` and whether the chunk matched.  The rounds allowed suffice when they are
at least `chunk.length`. -/
def matchChunkLoop : Nat → Bytes → Bytes → Bool → Except Msg (Bytes × Bool)
  | _, [], s, failed => if failed then .ok ([], false) else .ok (s, true)
  | 0, _ :: _, _, _ => .error ErrBadPattern
  | fuel + 1, c :: chunk1, s, failed0 =>
    let failed := failed0 || s.isEmpty
    if c = byteOpen then
      -- character class, possibly negated
      match classRanges (classRune s failed) fuel (classStart chunk1) false 0 with
      | .error err => .error err
      | .ok (matched, chunk3) =>
        matchChunkLoop fuel chunk3 (afterRune s failed)
          (failed || (matched == decide (chunk1.head? = some byteCaret)))
    else if c = byteQuery then
      matchChunkLoop fuel chunk1 (afterRune s failed) (failed || decide (s.head? = some Separator))
    else if c = byteEscape then
      match chunk1 with
      | [] => .error ErrBadPattern
      | c2 :: chunk2 =>
        matchChunkLoop fuel chunk2 (matchLiteral c2 s failed).1 (matchLiteral c2 s failed).2
    else
      matchChunkLoop fuel chunk1 (matchLiteral c s failed).1 (matchLiteral c s failed).2

/-- The function `matchChunk` of `filepath.Match`: whether `chunk` matches the
beginning of `s`, and the remainder of `s`. -/
def matchChunk (chunk s : Bytes) : Except Msg (Bytes × Bool) :=
  matchChunkLoop chunk.length chunk s false

/-- What the search of `Match` after a star comes to. -/
inductive StarResult where
  | found (t : Bytes)
  | bad (err : Msg)
  | notFound
deriving DecidableEq, Repr

/-- The loop `for i := 0; i < len(name) && name[i] != '/'; i++` of `Match`,
which looks for a match of the chunk after skipping `i + 1` bytes;
`lastChunk` says that the pattern is exhausted, when the name must be too. -/
def starLoop (chunk : Bytes) (lastChunk : Bool) : Bytes → StarResult
  | [] => .notFound
  | c :: rest =>
    if c = Separator then .notFound
    else
      match matchChunk chunk rest with
      | .error err => .bad err
      | .ok (t, true) =>
        if lastChunk ∧ t ≠ [] then starLoop chunk lastChunk rest else .found t
      | .ok (_, false) => starLoop chunk lastChunk rest

/-- The loop `Pattern:` of `filepath.Match`, on the bytes of the pattern and of
the name.  Every round takes a chunk off the pattern, so the rounds allowed
suffice when they are at least `pattern.length`. -/
def matchLoop : Nat → Bytes → Bytes → Bool × Option Msg
  | _, [], name => (name.isEmpty, none)
  | 0, _ :: _, _ => (false, some ErrBadPattern)
  | fuel + 1, c :: p, name =>
    let star := (scanChunk (c :: p)).1
    let chunk := (scanChunk (c :: p)).2.1
    let pattern := (scanChunk (c :: p)).2.2
    if star = true ∧ chunk = [] then
      -- trailing * matches rest of string unless it has a /
      (!name.contains Separator, none)
    else
      match matchChunk chunk name with
      | .error err => (false, some err)
      | .ok (t, ok) =>
        if ok = true ∧ (t = [] ∨ pattern ≠ []) then matchLoop fuel pattern t
        else if star then
          match starLoop chunk (decide (pattern = [])) name with
          | .found t1 => matchLoop fuel pattern t1
          | .bad err => (false, some err)
          | .notFound => (false, none)
        else (false, none)

/-- The function `filepath.Match` (Unix form: `\` escapes, the separator is
`/`), which works on the bytes of its arguments. -/
def Match (pattern name : Str) : Bool × Option Msg :=
  matchLoop (utf8 pattern).length (utf8 pattern) (utf8 name)

/-- The function `hasMeta` of `filepath.Glob` (Unix form): whether the path
contains one of the characters `*`, `?`, `[`, `\`. -/
def hasMeta (path : Str) : Bool :=
  path.any (fun c => decide (c = '*') || decide (c = '?') || decide (c = '[') || decide (c = '\\'))

/-- The function `filepath.Split`: the path up to and including the last
separator, and what follows it. -/
def Split (path : Str) : Str × Str :=
  (path.take (scanBack path path.length), path.drop (scanBack path path.length))

/-- The function `cleanGlobPath` of `filepath.Glob`. -/
def cleanGlobPath (path : Str) : Str :=
  if path = [] then ['.']
  else if path = ['/'] then path
  else path.take (path.length - 1)

/-- The order of `sort.Strings` on two strings: `a ≤ b`. -/
def strLe : Str → Str → Bool
  | [], _ => true
  | _ :: _, [] => false
  | a :: as, b :: bs => if a < b then true else if b < a then false else strLe as bs

/-- The function `sort.Strings`. -/
def sortStrings (names : List Str) : List Str :=
  names.insertionSort (fun a b => strLe a b = true)

/-- The loop `for _, n := range names` of `glob`: the names that match are
joined to the directory and appended to the matches. -/
def globNames (dir pattern : Str) : List Str → List Str → List Str × Option Msg
  | [], m => (m, none)
  | n :: ns, m =>
    match Match pattern n with
    | (_, some err) => (m, some err)
    | (matched, none) => globNames dir pattern ns (if matched then m ++ [Join dir n] else m)

/-- The function `glob` of `filepath.Glob`: the entries of `dir` that match
`pattern`, appended to `matches`; I/O errors are ignored. -/
def glob {σ : Type} (os : OS σ) (s : σ) (dir pattern : Str) (mtchs : List Str) :
    List Str × Option Msg :=
  match os.stat s dir with
  | .error _ => (mtchs, none)
  | .ok fi =>
    if fi.IsDir = false then (mtchs, none)
    else
      match os.openRead s dir with
      | some _ => (mtchs, none)
      | none => globNames dir pattern (sortStrings (os.readDirNames s dir)) mtchs

/-- The loop `for _, d := range m` of `globWithLimit`. -/
def globDirs {σ : Type} (os : OS σ) (s : σ) (file : Str) : List Str → List Str →
    List Str × Option Msg
  | [], mtchs => (mtchs, none)
  | d :: ds, mtchs =>
    match glob os s d file mtchs with
    | (m1, some err) => (m1, some err)
    | (m1, none) => globDirs os s file ds m1

/-- The function `globWithLimit` of `filepath.Glob`; the first argument is
`pathSeparatorsLimit - depth`. -/
def globWithLimit {σ : Type} (os : OS σ) (s : σ) : Nat → Str → List Str × Option Msg
  | 0, _ => ([], some ErrBadPattern)
  | left + 1, pattern =>
    match (Match pattern []).2 with
    | some err => ([], some err)
    | none =>
      if hasMeta pattern = false then
        match os.lstat s pattern with
        | .error _ => ([], none)
        | .ok _ => ([pattern], none)
      else if hasMeta (cleanGlobPath (Split pattern).1) = false then
        glob os s (cleanGlobPath (Split pattern).1) (Split pattern).2 []
      else if cleanGlobPath (Split pattern).1 = pattern then ([], some ErrBadPattern)
      else
        match globWithLimit os s left (cleanGlobPath (Split pattern).1) with
        | (_, some err) => ([], some err)
        | (m, none) => globDirs os s (Split pattern).2 m []

/-- The function `filepath.Glob`, with `pathSeparatorsLimit = 10000`. -/
def filepathGlob {σ : Type} (os : OS σ) (s : σ) (pattern : Str) : List Str × Option Msg :=
  globWithLimit os s 10000 pattern

/-- `Pathname.Glob` of `pathname.go`; the error of `filepath.Glob` is dropped. -/
def Glob {σ : Type} (os : OS σ) (s : σ) (o : Pathname) (pattern : Str) : List Pathname :=
  ((filepathGlob os s (Join o.filePath pattern)).1).map Raw

/-! ## A small operating system, for concrete runs -/

/-- A state of a small system: the entries that exist, each with its mode, and
the working directory. -/
structure Sim where
  files : List (Str × FileInfo)
  cwd : Str
deriving DecidableEq, Repr

/-- The mode of the entry at `p`, if there is one. -/
def Sim.find (s : Sim) (p : Str) : Option FileInfo := s.files.lookup p

/-- The system calls on `Sim`: paths are looked up as written, a file that is
opened for writing appears as a regular file, a copy command (`cp -r src dst`,
`cmd.exe /C xcopy src dst flags`) makes its destination a directory, and a
directory lists the entries whose parent path it is. -/
def simOS : OS Sim where
  stat s p :=
    match s.find p with
    | some fi => .ok fi
    | none => .error "no such file or directory"
  lstat s p :=
    match s.find p with
    | some fi => .ok fi
    | none => .error "no such file or directory"
  openRead s p :=
    match s.find p with
    | some _ => none
    | none => some "no such file or directory"
  openFile s p _ perm := (none, { s with files := (p, ⟨perm⟩) :: s.files })
  copy s _ _ := (none, s)
  spawn s argv :=
    match argv with
    | [_, _, _, dst] =>
      (.exited none "", { s with files := (dst, ⟨ModeDir ||| 0o755⟩) :: s.files })
    | [_, _, _, _, dst, _] =>
      (.exited none "", { s with files := (dst, ⟨ModeDir ||| 0o755⟩) :: s.files })
    | _ => (.notStarted "executable file not found", s)
  getwd s := (s.cwd, none)
  chdir s p :=
    match s.find p with
    | some fi => if fi.IsDir then .ok { s with cwd := p } else .error "not a directory"
    | none => .error "no such file or directory"
  readDirNames s p :=
    (s.files.filter (fun e => decide (Dir e.1 = p) && decide (e.1 ≠ p))).map (fun e => Base e.1)

/-- A state of the small system: the directories `/`, `/a` and `/b`, the
regular file `/a/f`, the device `/dev`; the working directory is `/a`. -/
def sim0 : Sim :=
  { files := [("/".toList, ⟨ModeDir ||| 0o755⟩), ("/a".toList, ⟨ModeDir ||| 0o755⟩),
              ("/b".toList, ⟨ModeDir ||| 0o755⟩), ("/a/f".toList, ⟨0o644⟩),
              ("/dev".toList, ⟨ModeDevice ||| 0o600⟩)],
    cwd := "/a".toList }

/-- The tree of the glob test, seen from its base directory: the files `1.txt`,
`sub/2` and `sub2/sub22/3.txt` and the directories that hold them. -/
def simTree : Sim :=
  { files := [(".".toList, ⟨ModeDir ||| 0o755⟩), ("sub2/sub22/3.txt".toList, ⟨0o644⟩),
              ("sub2".toList, ⟨ModeDir ||| 0o755⟩), ("sub/2".toList, ⟨0o644⟩),
              ("sub2/sub22".toList, ⟨ModeDir ||| 0o755⟩), ("1.txt".toList, ⟨0o644⟩),
              ("sub".toList, ⟨ModeDir ||| 0o755⟩)],
    cwd := ".".toList }

/-- A state of a process in a tree of directories: the directories that exist,
each by its absolute cleaned path, and a path that leads from the root to the
working directory. -/
structure Proc where
  dirs : List Str
  wd : Str
deriving DecidableEq, Repr

/-- The working directory of the process, as an absolute cleaned path. -/
def Proc.cwd (s : Proc) : Str := Clean ('/' :: s.wd)

/-- The directory that a path names for the process: the path itself, cleaned,
when it is absolute, and the path joined onto the working directory
otherwise. -/
def Proc.resolve (s : Proc) (p : Str) : Str :=
  if p.head? = some '/' then Clean p else Clean (s.cwd ++ '/' :: p)

/-- The system calls on `Proc`.  A path names a directory when it is not empty
and the directory it resolves to exists.  `chdir` enters that directory;
`getwd` fails when the working directory does not exist any more.  The tree
holds directories only and cannot be written to; no program can be run. -/
def procOS : OS Proc where
  stat s p :=
    if p ≠ [] ∧ s.resolve p ∈ s.dirs then .ok ⟨ModeDir ||| 0o755⟩
    else .error "no such file or directory"
  lstat s p :=
    if p ≠ [] ∧ s.resolve p ∈ s.dirs then .ok ⟨ModeDir ||| 0o755⟩
    else .error "no such file or directory"
  openRead s p :=
    if p ≠ [] ∧ s.resolve p ∈ s.dirs then none else some "no such file or directory"
  openFile s _ _ _ := (some "read-only file system", s)
  copy s _ _ := (some "bad file descriptor", s)
  spawn s _ := (.notStarted "executable file not found", s)
  getwd s := if s.cwd ∈ s.dirs then (s.cwd, none) else ([], some "no such file or directory")
  chdir s p :=
    if p ≠ [] ∧ s.resolve p ∈ s.dirs then .ok { s with wd := s.resolve p }
    else .error "no such file or directory"
  readDirNames s p :=
    (s.dirs.filter (fun d => decide (Dir d = s.resolve p) && decide (d ≠ s.resolve p))).map Base

/-- A process in the directory `/a` of a tree with the directories `/`, `/a`,
`/a/t` and `/b`. -/
def proc0 : Proc := { dirs := ["/".toList, "/a".toList, "/a/t".toList, "/b".toList], wd := "a".toList }

/-- A process whose working directory `/gone` has been removed. -/
def procGone : Proc := { dirs := ["/".toList, "/b".toList], wd := "gone".toList }

/-- A callback during which the directory `/a` is removed. -/
def removeDirA (_ : Pathname) (s : Proc) : Proc :=
  { s with dirs := s.dirs.filter (fun d => d ≠ "/a".toList) }

/-! ## Shell patterns, as the specification words them -/

/-- One character at the beginning of a byte string, as Go reads a string:
`GoChar n r n'` says that `n` begins with the character `r` and goes on with
`n'`.  Either `n` begins with the UTF-8 encoding of `r`, or no encoding of a
character begins `n` and its first byte alone is read as `U+FFFD`. -/
inductive GoChar : Bytes → Nat → Bytes → Prop
  | encoded (c : Char) (rest : Bytes) : GoChar (utf8EncodeChar c ++ rest) c.toNat rest
  | invalid (b : Nat) (rest : Bytes) :
      (∀ (c : Char) (rest' : Bytes), b :: rest ≠ utf8EncodeChar c ++ rest') →
      GoChar (b :: rest) RuneError rest

/-- A character of a character class, `c` or `\c`: `ClassChar t r t'` says that
the text `t` begins with the character `r`, written plainly (then it is neither
`-`, `]` nor `\`) or after a `\`, and goes on with `t'`. -/
inductive ClassChar : Bytes → Nat → Bytes → Prop
  | plain (c : Char) (t : Bytes) :
      c ≠ '-' → c ≠ ']' → c ≠ '\\' → ClassChar (utf8EncodeChar c ++ t) c.toNat t
  | escaped (c : Char) (t : Bytes) :
      ClassChar (byteEscape :: (utf8EncodeChar c ++ t)) c.toNat t

/-- A range of a character class, `c` or `lo-hi`: `ClassRange t lo hi t'` says
that the text `t` begins with the range from `lo` to `hi` and goes on with `t'`. -/
inductive ClassRange : Bytes → Nat → Nat → Bytes → Prop
  | single (t : Bytes) (c : Nat) (t' : Bytes) :
      ClassChar t c t' → t'.head? ≠ some byteDash → ClassRange t c c t'
  | pair (t : Bytes) (lo : Nat) (t1 : Bytes) (hi : Nat) (t' : Bytes) :
      ClassChar t lo (byteDash :: t1) → ClassChar t1 hi t' → ClassRange t lo hi t'

/-- The ranges of a character class up to its closing bracket:
`ClassBody r t b t'` says that the text `t` is one or more ranges, then `]`,
then `t'`, and that `b` tells whether the character `r` lies in one of the
ranges. -/
inductive ClassBody (r : Nat) : Bytes → Bool → Bytes → Prop
  | last (t : Bytes) (lo hi : Nat) (t' : Bytes) :
      ClassRange t lo hi (byteClose :: t') →
      ClassBody r t (decide (lo ≤ r) && decide (r ≤ hi)) t'
  | more (t : Bytes) (lo hi : Nat) (t1 : Bytes) (b : Bool) (t' : Bytes) :
      ClassRange t lo hi t1 → ClassBody r t1 b t' →
      ClassBody r t ((decide (lo ≤ r) && decide (r ≤ hi)) || b) t'

/-- Shell-style matching as the specification words it: `PatMatch p n` says
that the name `n` matches the pattern `p`.  A `*` matches any sequence of
bytes other than the separator; `?` matches any one character other than the
separator; a class `[...]` matches one character other than the separator
that lies in one of its ranges, and a class `[^...]` one that lies in none;
`\c` matches the byte `c`; any other byte matches itself. -/
inductive PatMatch : Bytes → Bytes → Prop
  | done : PatMatch [] []
  | starNone (p n : Bytes) : PatMatch p n → PatMatch (byteStar :: p) n
  | starByte (p : Bytes) (b : Nat) (n : Bytes) :
      b ≠ Separator → PatMatch (byteStar :: p) n → PatMatch (byteStar :: p) (b :: n)
  | query (p n : Bytes) (r : Nat) (n' : Bytes) :
      n.head? ≠ some Separator → GoChar n r n' → PatMatch p n' →
      PatMatch (byteQuery :: p) n
  | cls (t p n : Bytes) (r : Nat) (n' : Bytes) :
      n.head? ≠ some Separator → GoChar n r n' → t.head? ≠ some byteCaret →
      ClassBody r t true p → PatMatch p n' → PatMatch (byteOpen :: t) n
  | clsNot (t p n : Bytes) (r : Nat) (n' : Bytes) :
      n.head? ≠ some Separator → GoChar n r n' →
      ClassBody r t false p → PatMatch p n' → PatMatch (byteOpen :: byteCaret :: t) n
  | escaped (c : Nat) (p n : Bytes) : PatMatch p n → PatMatch (byteEscape :: c :: p) (c :: n)
  | literal (c : Nat) (p n : Bytes) :
      c ≠ byteStar → c ≠ byteQuery → c ≠ byteOpen → c ≠ byteEscape →
      PatMatch p n → PatMatch (c :: p) (c :: n)

/-- The segment `x` matches the pattern segment `ps`, as the specification
words shell patterns. -/
def SegMatch (ps x : Str) : Prop := PatMatch (utf8 ps) (utf8 x)

end Pathname

/-! ## Lemmas -/

namespace Pathname

theorem length_dropWhile_cons_le (c : Char) (t : Str) (h : c ≠ '/') :
    ((c :: t).dropWhile notSep).length ≤ t.length := by
  have : (c :: t).dropWhile notSep = t.dropWhile notSep := by
    simp [List.dropWhile_cons, notSep, h]
  rw [this]
  exact (List.dropWhile_sublist _).length_le

theorem cleanLoop_fuel_succ (rooted : Bool) : ∀ (fuel : Nat) (rest : Str) (st : CleanState),
    rest.length ≤ fuel → cleanLoop rooted (fuel + 1) rest st = cleanLoop rooted fuel rest st := by
  intro fuel
  induction fuel with
  | zero =>
    intro rest st h
    have : rest = [] := List.length_eq_zero.mp (Nat.le_zero.mp h)
    subst this
    simp [cleanLoop]
  | succ f ih =>
    intro rest st h
    cases rest with
    | nil => simp [cleanLoop]
    | cons c t =>
      have ht : t.length ≤ f := by simpa using h
      have htt : t.tail.length ≤ f := by
        have := List.length_tail t
        omega
      rw [cleanLoop, cleanLoop]
      split_ifs with h1 h2 h3 h4 h5
      · exact ih t st ht
      · exact ih t st ht
      · exact ih _ _ htt
      · exact ih _ _ htt
      · exact ih _ _ htt
      · exact ih _ _ (le_trans (length_dropWhile_cons_le c t h1) ht)

theorem cleanLoop_eq_run (rooted : Bool) (fuel : Nat) (rest : Str) (st : CleanState)
    (h : rest.length ≤ fuel) : cleanLoop rooted fuel rest st = run rooted rest st := by
  induction fuel with
  | zero =>
    have : rest = [] := List.length_eq_zero.mp (Nat.le_zero.mp h)
    subst this
    rfl
  | succ f ih =>
    rcases Nat.lt_or_ge rest.length (f + 1) with hlt | hge
    · rw [cleanLoop_fuel_succ rooted f rest st (by omega)]
      exact ih (by omega)
    · have : rest.length = f + 1 := by omega
      rw [run, this]

theorem run_nil (rooted : Bool) (st : CleanState) : run rooted [] st = st := rfl

theorem run_cons (rooted : Bool) (c : Char) (t : Str) (st : CleanState) :
    run rooted (c :: t) st =
      if c = '/' then run rooted t st
      else if c = '.' ∧ (t = [] ∨ t.head? = some '/') then run rooted t st
      else if c = '.' ∧ t.head? = some '.' ∧ (t.tail = [] ∨ t.tail.head? = some '/') then
        if st.dotdot < st.out.length then
          run rooted t.tail
            ⟨st.out.take (backtrackLoop st.out st.dotdot (st.out.length - 1)), st.dotdot⟩
        else if rooted = false then
          run rooted t.tail ⟨appendDotDot st.out, (appendDotDot st.out).length⟩
        else run rooted t.tail st
      else
        run rooted ((c :: t).dropWhile notSep)
          ⟨appendElem rooted st.out ((c :: t).takeWhile notSep), st.dotdot⟩ := by
  have htt : t.tail.length ≤ t.length := by
    have := List.length_tail t
    omega
  rw [run, List.length_cons, cleanLoop]
  split_ifs with h1 h2 h3 h4 h5
  · rfl
  · rfl
  · exact cleanLoop_eq_run _ _ _ _ htt
  · exact cleanLoop_eq_run _ _ _ _ htt
  · exact cleanLoop_eq_run _ _ _ _ htt
  · exact cleanLoop_eq_run _ _ _ _ (length_dropWhile_cons_le c t h1)

theorem takeWhile_append_sep (x y : Str) :
    (x ++ '/' :: y).takeWhile notSep = x.takeWhile notSep := by
  induction x with
  | nil => simp [notSep]
  | cons a t ih =>
    by_cases h : notSep a = true
    · simp [List.takeWhile_cons, h, ih]
    · simp [List.takeWhile_cons, h]

theorem dropWhile_append_sep (x y : Str) :
    (x ++ '/' :: y).dropWhile notSep = x.dropWhile notSep ++ '/' :: y := by
  induction x with
  | nil => simp [notSep]
  | cons a t ih =>
    by_cases h : notSep a = true
    · simp [List.dropWhile_cons, h, ih]
    · simp [List.dropWhile_cons, h]

theorem run_append_slash_aux (rooted : Bool) (y : Str) :
    ∀ (n : Nat) (x : Str) (st : CleanState), x.length ≤ n →
      run rooted (x ++ '/' :: y) st = run rooted y (run rooted x st) := by
  intro n
  induction n with
  | zero =>
    intro x st h
    have : x = [] := List.length_eq_zero.mp (Nat.le_zero.mp h)
    subst this
    simp [run_cons, run_nil]
  | succ n ih =>
    intro x st h
    cases x with
    | nil => simp [run_cons, run_nil]
    | cons c t =>
      have ht : t.length ≤ n := by simpa using h
      have htt : t.tail.length ≤ n := by
        have := List.length_tail t
        omega
      have e2 : (t ++ '/' :: y = [] ∨ (t ++ '/' :: y).head? = some '/') ↔
          (t = [] ∨ t.head? = some '/') := by
        cases t <;> simp
      have e3 : ((t ++ '/' :: y).head? = some '.' ∧
            ((t ++ '/' :: y).tail = [] ∨ (t ++ '/' :: y).tail.head? = some '/')) ↔
          (t.head? = some '.' ∧ (t.tail = [] ∨ t.tail.head? = some '/')) := by
        cases t with
        | nil => simp
        | cons a t2 => cases t2 <;> simp
      rw [List.cons_append, run_cons, run_cons rooted c t]
      by_cases h1 : c = '/'
      · rw [if_pos h1, if_pos h1]
        exact ih t st ht
      rw [if_neg h1, if_neg h1]
      by_cases h2 : c = '.' ∧ (t = [] ∨ t.head? = some '/')
      · rw [if_pos h2, if_pos (⟨h2.1, e2.mpr h2.2⟩)]
        exact ih t st ht
      rw [if_neg h2, if_neg (fun h => h2 ⟨h.1, e2.mp h.2⟩)]
      by_cases h3 : c = '.' ∧ t.head? = some '.' ∧ (t.tail = [] ∨ t.tail.head? = some '/')
      · rw [if_pos h3, if_pos (⟨h3.1, e3.mpr h3.2⟩)]
        have hne : t ≠ [] := by
          intro h0
          rw [h0] at h3
          simp at h3
        have etail : (t ++ '/' :: y).tail = t.tail ++ '/' :: y := by
          cases t with
          | nil => exact absurd rfl hne
          | cons a t2 => rfl
        rw [etail]
        split_ifs
        · exact ih _ _ htt
        · exact ih _ _ htt
        · exact ih _ _ htt
      rw [if_neg h3, if_neg (fun h => h3 ⟨h.1, e3.mp h.2⟩)]
      rw [← List.cons_append, takeWhile_append_sep, dropWhile_append_sep]
      exact ih _ _ (le_trans (length_dropWhile_cons_le c t h1) ht)

theorem run_append_slash (rooted : Bool) (x y : Str) (st : CleanState) :
    run rooted (x ++ '/' :: y) st = run rooted y (run rooted x st) :=
  run_append_slash_aux rooted y x.length x st le_rfl

theorem slashJoin_append (A B : List Str) : slashJoin (A ++ B) = slashJoin A ++ slashJoin B := by
  induction A with
  | nil => rfl
  | cons e A ih => simp [slashJoin, ih]

theorem slashJoin_snoc (A : List Str) (e : Str) : slashJoin (A ++ [e]) = slashJoin A ++ '/' :: e := by
  simp [slashJoin_append, slashJoin]

theorem slashJoin_eq_nil {A : List Str} : slashJoin A = [] ↔ A = [] := by
  cases A <;> simp [slashJoin]

theorem slashJoin_length_ge {A : List Str} (hA : ∀ e ∈ A, e ≠ []) (hne : A ≠ []) :
    2 ≤ (slashJoin A).length := by
  cases A with
  | nil => exact absurd rfl hne
  | cons e A =>
    have : e ≠ [] := hA e (List.mem_cons_self _ _)
    have : 0 < e.length := List.length_pos.mpr this
    simp [slashJoin]
    omega

theorem needSlash_rep (rooted : Bool) {M : List Str} (hM : ∀ e ∈ M, e ≠ []) :
    needSlash rooted (rep rooted M).length = true ↔ M ≠ [] := by
  cases rooted with
  | true =>
    by_cases h : M = []
    · simp [needSlash, rep, h]
    · have := slashJoin_length_ge hM h
      simp [needSlash, rep, h]
      omega
  | false =>
    by_cases h : M = []
    · simp [needSlash, rep, h, slashJoin]
    · have := slashJoin_length_ge hM h
      simp [needSlash, rep, h]
      omega

theorem rep_snoc (rooted : Bool) {M : List Str} (hM : ∀ e ∈ M, e ≠ []) (e : Str) :
    rep rooted (M ++ [e]) = appendElem rooted (rep rooted M) e := by
  unfold appendElem
  by_cases h : M = []
  · have hn : ¬ needSlash rooted (rep rooted M).length = true := by
      rw [needSlash_rep rooted hM]; simpa using h
    rw [if_neg hn]
    subst h
    cases rooted <;> simp [rep, slashJoin]
  · have hn : needSlash rooted (rep rooted M).length = true := (needSlash_rep rooted hM).mpr h
    rw [if_pos hn]
    have h2 := slashJoin_length_ge hM h
    cases rooted with
    | true => simp [rep, h, slashJoin_snoc]
    | false =>
      simp only [rep, slashJoin_snoc, Bool.false_eq_true, if_false]
      cases hs : slashJoin M with
      | nil => rw [hs] at h2; simp at h2
      | cons a t => simp

theorem appendDotDot_eq (out : Str) : appendDotDot out = appendElem false out ['.', '.'] := by
  unfold appendDotDot appendElem needSlash
  by_cases h : out.length = 0
  · simp [h]
  · have : 0 < out.length := Nat.pos_of_ne_zero h
    simp [h, this]

theorem backtrackLoop_eq (buf : Str) (dd m : Nat) (hdd : dd ≤ m)
    (hstop : m = dd ∨ buf.getD m '/' = '/') :
    ∀ w, m ≤ w → (∀ i, m < i → i ≤ w → buf.getD i '/' ≠ '/') → backtrackLoop buf dd w = m := by
  intro w
  induction w with
  | zero =>
    intro hw _
    have : m = 0 := by omega
    rw [this]; rfl
  | succ w ih =>
    intro hw hall
    rcases Nat.lt_or_ge m (w + 1) with hlt | hge
    · have h1 : dd < w + 1 := by omega
      have h2 : buf.getD (w + 1) '/' ≠ '/' := hall (w + 1) hlt le_rfl
      rw [backtrackLoop, if_pos ⟨h1, h2⟩]
      exact ih (by omega) (fun i hi hiw => hall i hi (by omega))
    · have hm : m = w + 1 := by omega
      subst hm
      rw [backtrackLoop, if_neg]
      rintro ⟨h1, h2⟩
      rcases hstop with h | h
      · omega
      · exact h2 h

theorem getD_ne_sep {e : Str} (he : ∀ c ∈ e, c ≠ '/') {j : Nat} (hj : j < e.length) :
    e.getD j '/' ≠ '/' := by
  rw [List.getD_eq_getElem _ _ hj]
  exact he _ (List.getElem_mem _)

theorem rep_length_le (rooted : Bool) (A B : List Str) :
    (rep rooted A).length ≤ (rep rooted (A ++ B)).length := by
  cases rooted with
  | true =>
    by_cases hA : A = []
    · subst hA
      cases B with
      | nil => simp
      | cons e B => simp [rep, slashJoin]
    · simp [rep, hA, slashJoin_append]
  | false =>
    simp [rep, slashJoin_append]
    omega

/-- Backtracking over the last element of a path. -/
theorem backtrack_rep (rooted : Bool) (R M : List Str) (e : Str) (hM : ∀ x ∈ R ++ M, x ≠ [])
    (hR : rooted = true → R = []) (he : e ≠ []) (hs : ∀ c ∈ e, c ≠ '/') :
    (rep rooted (R ++ M ++ [e])).take
      (backtrackLoop (rep rooted (R ++ M ++ [e])) (rep rooted R).length
        ((rep rooted (R ++ M ++ [e])).length - 1)) = rep rooted (R ++ M) := by
  have hlen : 0 < e.length := List.length_pos.mpr he
  have hle := rep_length_le rooted R M
  rw [rep_snoc rooted hM e]
  set A := rep rooted (R ++ M) with hA
  have key : backtrackLoop (appendElem rooted A e) (rep rooted R).length
      ((appendElem rooted A e).length - 1) = A.length := by
    by_cases hn : needSlash rooted A.length = true
    · have hout : appendElem rooted A e = A ++ '/' :: e := by
        simp [appendElem, hn]
      rw [hout]
      apply backtrackLoop_eq _ _ _ hle
      · right
        rw [List.getD_append_right _ _ _ _ le_rfl]
        simp
      · simp
      · intro i hi hiw
        rw [List.getD_append_right _ _ _ _ (le_of_lt hi)]
        obtain ⟨j, hj⟩ : ∃ j, i - A.length = j + 1 := ⟨i - A.length - 1, by omega⟩
        rw [hj, List.getD_cons_succ]
        apply getD_ne_sep hs
        simp at hiw
        omega
    · have hout : appendElem rooted A e = A ++ e := by
        simp [appendElem, hn]
      rw [hout]
      apply backtrackLoop_eq _ _ _ hle
      · left
        cases rooted with
        | true =>
          have h1 : A.length = 1 := by simpa [needSlash] using hn
          have h2 : R = [] := hR rfl
          rw [h1, h2]
          simp [rep]
        | false =>
          have h1 : A.length = 0 := by simpa [needSlash] using hn
          omega
      · simp; omega
      · intro i hi hiw
        rw [List.getD_append_right _ _ _ _ (le_of_lt hi)]
        apply getD_ne_sep hs
        simp at hiw
        omega
  rw [key]
  unfold appendElem
  split_ifs <;> simp

theorem rep_length_lt (rooted : Bool) (A B : List Str) (hA : ∀ x ∈ A, x ≠ [])
    (hB : ∀ x ∈ B, x ≠ []) (hne : B ≠ []) :
    (rep rooted A).length < (rep rooted (A ++ B)).length := by
  obtain ⟨B', e, rfl⟩ : ∃ B' e, B = B' ++ [e] := by
    rcases List.eq_nil_or_concat B with h | ⟨B', e, h⟩
    · exact absurd h hne
    · exact ⟨B', e, by simpa using h⟩
  have he : e ≠ [] := hB e (by simp)
  have hlen : 0 < e.length := List.length_pos.mpr he
  have h1 := rep_length_le rooted A B'
  have hAB : ∀ x ∈ A ++ B', x ≠ [] := by
    intro x hx
    rcases List.mem_append.mp hx with h | h
    · exact hA x h
    · exact hB x (by simp [h])
  rw [← List.append_assoc, rep_snoc rooted hAB e]
  unfold appendElem
  split_ifs <;> simp <;> omega

theorem takeWhile_notSep_not_mem (x : Str) : ∀ c ∈ x.takeWhile notSep, c ≠ '/' := by
  intro c hc
  have := List.mem_takeWhile_imp hc
  simpa [notSep] using this

theorem normalSeg_takeWhile (c : Char) (t : Str) (h1 : c ≠ '/')
    (h2 : ¬ (c = '.' ∧ (t = [] ∨ t.head? = some '/')))
    (h3 : ¬ (c = '.' ∧ t.head? = some '.' ∧ (t.tail = [] ∨ t.tail.head? = some '/'))) :
    NormalSeg ((c :: t).takeWhile notSep) := by
  have hc : notSep c = true := by simp [notSep, h1]
  have e1 : (c :: t).takeWhile notSep = c :: t.takeWhile notSep := by
    simp [List.takeWhile_cons, hc]
  refine ⟨by simp [e1], takeWhile_notSep_not_mem _, ?_, ?_⟩
  · rw [e1]
    intro h
    simp only [List.cons.injEq] at h
    apply h2
    refine ⟨h.1, ?_⟩
    cases t with
    | nil => left; rfl
    | cons a t2 =>
      right
      by_cases ha : notSep a = true
      · simp [List.takeWhile_cons, ha] at h
      · simpa [notSep] using ha
  · rw [e1]
    intro h
    simp only [List.cons.injEq] at h
    apply h3
    refine ⟨h.1, ?_⟩
    cases t with
    | nil => simp at h
    | cons a t2 =>
      by_cases ha : notSep a = true
      · simp only [List.takeWhile_cons, ha, if_true, List.cons.injEq] at h
        refine ⟨by simp [h.2.1], ?_⟩
        cases t2 with
        | nil => left; rfl
        | cons b t3 =>
          right
          by_cases hb : notSep b = true
          · simp [List.takeWhile_cons, hb] at h
          · simpa [notSep] using hb
      · simp [List.takeWhile_cons, ha] at h

theorem dots_ne_nil_of_mem {k : Nat} {es : List Str} (hes : ∀ e ∈ es, NormalSeg e) :
    ∀ x ∈ List.replicate k ['.', '.'] ++ es, x ≠ [] := by
  intro x hx
  rcases List.mem_append.mp hx with h | h
  · rw [(List.mem_replicate.mp h).2]; simp
  · exact (hes x h).1

theorem cleanInv_run_aux (rooted : Bool) :
    ∀ (n : Nat) (rest : Str) (st : CleanState), rest.length ≤ n →
      CleanInv rooted st → CleanInv rooted (run rooted rest st) := by
  intro n
  induction n with
  | zero =>
    intro rest st h hinv
    have : rest = [] := List.length_eq_zero.mp (Nat.le_zero.mp h)
    subst this
    exact hinv
  | succ n ih =>
    intro rest st h hinv
    cases rest with
    | nil => exact hinv
    | cons c t =>
      have ht : t.length ≤ n := by simpa using h
      have htt : t.tail.length ≤ n := by
        have := List.length_tail t
        omega
      rw [run_cons]
      by_cases h1 : c = '/'
      · rw [if_pos h1]; exact ih t st ht hinv
      rw [if_neg h1]
      by_cases h2 : c = '.' ∧ (t = [] ∨ t.head? = some '/')
      · rw [if_pos h2]; exact ih t st ht hinv
      rw [if_neg h2]
      obtain ⟨k, es, hes, hk, hout, hdd⟩ := hinv
      have hne := dots_ne_nil_of_mem (k := k) hes
      by_cases h3 : c = '.' ∧ t.head? = some '.' ∧ (t.tail = [] ∨ t.tail.head? = some '/')
      · rw [if_pos h3]
        by_cases h4 : st.dotdot < st.out.length
        · rw [if_pos h4]
          apply ih _ _ htt
          have hes_ne : es ≠ [] := by
            intro h0
            rw [hout, hdd, h0] at h4
            simp at h4
          obtain ⟨es', e, rfl⟩ : ∃ es' e, es = es' ++ [e] := by
            rcases List.eq_nil_or_concat es with h | ⟨B', e, h⟩
            · exact absurd h hes_ne
            · exact ⟨B', e, by simpa using h⟩
          have hes' : ∀ x ∈ es', NormalSeg x := fun x hx => hes x (by simp [hx])
          have he : NormalSeg e := hes e (by simp)
          refine ⟨k, es', hes', hk, ?_, hdd⟩
          show st.out.take (backtrackLoop st.out st.dotdot (st.out.length - 1)) = _
          rw [hout, hdd, ← List.append_assoc]
          apply backtrack_rep rooted _ _ e (dots_ne_nil_of_mem hes') _ he.1 he.2.1
          intro hr
          rw [hk hr]; rfl
        · rw [if_neg h4]
          have hes_nil : es = [] := by
            by_contra h0
            have := rep_length_lt rooted (List.replicate k ['.', '.']) es
              (fun x hx => by rw [(List.mem_replicate.mp hx).2]; simp) (fun x hx => (hes x hx).1) h0
            rw [← hout, ← hdd] at this
            exact h4 this
          subst hes_nil
          by_cases h5 : rooted = false
          · rw [if_pos h5]
            apply ih _ _ htt
            subst h5
            refine ⟨k + 1, [], by simp, by simp, ?_, ?_⟩
            · show appendDotDot st.out = _
              rw [appendDotDot_eq, hout, List.append_nil, List.append_nil, List.replicate_succ',
                rep_snoc false (fun x hx => by rw [(List.mem_replicate.mp hx).2]; simp)]
            · show (appendDotDot st.out).length = _
              rw [appendDotDot_eq, hout, List.append_nil, List.replicate_succ',
                rep_snoc false (fun x hx => by rw [(List.mem_replicate.mp hx).2]; simp)]
          · rw [if_neg h5]
            exact ih _ _ htt ⟨k, [], hes, hk, hout, hdd⟩
      · rw [if_neg h3]
        apply ih _ _ (le_trans (length_dropWhile_cons_le c t h1) ht)
        have hseg := normalSeg_takeWhile c t h1 h2 h3
        refine ⟨k, es ++ [(c :: t).takeWhile notSep], ?_, hk, ?_, hdd⟩
        · intro x hx
          rcases List.mem_append.mp hx with h | h
          · exact hes x h
          · rw [List.mem_singleton.mp h]; exact hseg
        · show appendElem rooted st.out _ = _
          rw [hout, ← List.append_assoc, rep_snoc rooted hne]

theorem cleanInv_run (rooted : Bool) (rest : Str) (st : CleanState) (h : CleanInv rooted st) :
    CleanInv rooted (run rooted rest st) :=
  cleanInv_run_aux rooted rest.length rest st le_rfl h

theorem cleanInv_init (rooted : Bool) : CleanInv rooted (cleanInit rooted) := by
  refine ⟨0, [], by simp, fun _ => rfl, ?_, ?_⟩ <;> cases rooted <;> simp [cleanInit, rep, slashJoin]

theorem cleanFuel_eq (fuel : Nat) (s : Str) (h : s.length ≤ fuel) :
    cleanFuel fuel s =
      if s = [] then ['.']
      else if (run (decide (s.head? = some '/'))
          (if decide (s.head? = some '/') = true then s.tail else s)
          (cleanInit (decide (s.head? = some '/')))).out.length = 0 then ['.']
        else (run (decide (s.head? = some '/'))
          (if decide (s.head? = some '/') = true then s.tail else s)
          (cleanInit (decide (s.head? = some '/')))).out := by
  unfold cleanFuel
  by_cases hs : s = []
  · simp [hs]
  · rw [if_neg hs, if_neg hs]
    have hl : (if decide (s.head? = some '/') = true then s.tail else s).length ≤ fuel := by
      split_ifs
      · have := List.length_tail s
        omega
      · exact h
    simp only [cleanLoop_eq_run _ _ _ _ hl]

theorem cleanFuel_eq_Clean (fuel : Nat) (s : Str) (h : s.length ≤ fuel) :
    cleanFuel fuel s = Clean s := by
  rw [Clean, cleanFuel_eq fuel s h, cleanFuel_eq s.length s le_rfl]

theorem Clean_rooted (t : Str) :
    Clean ('/' :: t) =
      if (run true t (cleanInit true)).out.length = 0 then ['.']
      else (run true t (cleanInit true)).out := by
  rw [Clean, cleanFuel_eq _ _ le_rfl]
  simp

theorem Clean_unrooted (s : Str) (hs : s ≠ []) (h : s.head? ≠ some '/') :
    Clean s =
      if (run false s (cleanInit false)).out.length = 0 then ['.']
      else (run false s (cleanInit false)).out := by
  rw [Clean, cleanFuel_eq _ _ le_rfl]
  simp [hs, h]

theorem Clean_nil : Clean [] = ['.'] := rfl

theorem canon_of_inv {rooted : Bool} {st : CleanState} (h : CleanInv rooted st) :
    ∃ k es, Canon rooted k es (if st.out.length = 0 then ['.'] else st.out) := by
  obtain ⟨k, es, hes, hk, hout, _⟩ := h
  refine ⟨k, es, hes, hk, ?_⟩
  rw [hout]
  simp only [List.length_eq_zero]

theorem Clean_canon (s : Str) : ∃ rooted k es, Canon rooted k es (Clean s) := by
  cases s with
  | nil => exact ⟨false, 0, [], by simp, by simp, by simp [Clean_nil, rep, slashJoin]⟩
  | cons c t =>
    by_cases hc : c = '/'
    · subst hc
      rw [Clean_rooted]
      obtain ⟨k, es, h⟩ := canon_of_inv (cleanInv_run true t _ (cleanInv_init true))
      exact ⟨true, k, es, h⟩
    · rw [Clean_unrooted (c :: t) (by simp) (by simpa using hc)]
      obtain ⟨k, es, h⟩ := canon_of_inv (cleanInv_run false (c :: t) _ (cleanInv_init false))
      exact ⟨false, k, es, h⟩

theorem splitOn_append_slashJoin (M : List Str) (hM : ∀ e ∈ M, ∀ c ∈ e, c ≠ '/') :
    ∀ e : Str, (∀ c ∈ e, c ≠ '/') → (e ++ slashJoin M).splitOn '/' = e :: M := by
  induction M with
  | nil =>
    intro e he
    simp only [slashJoin, List.append_nil, List.splitOn]
    exact List.splitOnP_eq_single (fun x => x == '/') e (fun x hx => by simpa using he x hx)
  | cons e' M ih =>
    intro e he
    simp only [slashJoin, List.splitOn, List.cons_append]
    rw [List.splitOnP_first (fun x => x == '/') e (fun x hx => by simpa using he x hx) '/' (by simp)]
    have := ih (fun x hx => hM x (List.mem_cons_of_mem _ hx)) e' (hM e' (List.mem_cons_self _ _))
    simp only [List.splitOn] at this
    rw [this]

theorem chain_of_no_sep {e : Str} (he : ∀ c ∈ e, c ≠ '/') : List.Chain' NoDouble e := by
  induction e with
  | nil => exact List.chain'_nil
  | cons a t ih =>
    rw [List.chain'_cons']
    refine ⟨?_, ih (fun c hc => he c (List.mem_cons_of_mem _ hc))⟩
    intro y _ h
    exact he a (List.mem_cons_self _ _) h.1

theorem chain_append_slash_seg {X e : Str} (hX : List.Chain' NoDouble X)
    (hl : X.getLast? ≠ some '/') (he : e ≠ []) (hs : ∀ c ∈ e, c ≠ '/') :
    List.Chain' NoDouble (X ++ '/' :: e) ∧ (X ++ '/' :: e).getLast? ≠ some '/' := by
  constructor
  · rw [List.chain'_append]
    refine ⟨hX, ?_, ?_⟩
    · rw [List.chain'_cons']
      refine ⟨?_, chain_of_no_sep hs⟩
      intro y hy h
      have : y ∈ e := List.mem_of_mem_head? hy
      exact hs y this h.2
    · intro x hx y hy h
      apply hl
      rw [Option.mem_def] at hx
      rw [hx, h.1]
  · intro h
    have h2 := List.mem_of_getLast?_eq_some h
    obtain ⟨ys, hys⟩ := List.getLast?_eq_some_iff.mp h
    have : e.getLast? = some '/' := by
      obtain ⟨a, t, rfl⟩ := List.exists_cons_of_ne_nil he
      have h3 : (X ++ '/' :: a :: t).getLast? = (a :: t).getLast? := by
        rw [List.getLast?_append]
        simp [List.getLast?_cons_cons]
        cases hh : (a :: t).getLast? with
        | none => simp at hh
        | some v => simp
      rw [← h3]; exact h
    exact hs _ (List.mem_of_getLast?_eq_some this) rfl

theorem slashJoin_chain (M : List Str) (hM : ∀ e ∈ M, e ≠ [] ∧ ∀ c ∈ e, c ≠ '/') :
    List.Chain' NoDouble (slashJoin M) ∧ (slashJoin M).getLast? ≠ some '/' := by
  induction M using List.reverseRecOn with
  | nil => simp [slashJoin]
  | append_singleton M e ih =>
    have h1 := ih (fun x hx => hM x (by simp [hx]))
    have h2 := hM e (by simp)
    rw [slashJoin_snoc]
    exact chain_append_slash_seg h1.1 h1.2 h2.1 h2.2

theorem canon_elems {k : Nat} {es : List Str} (hes : ∀ e ∈ es, NormalSeg e) :
    ∀ x ∈ List.replicate k ['.', '.'] ++ es, x ≠ [] ∧ (∀ c ∈ x, c ≠ '/') ∧ x ≠ ['.'] := by
  intro x hx
  rcases List.mem_append.mp hx with h | h
  · rw [(List.mem_replicate.mp h).2]
    refine ⟨by simp, ?_, by simp⟩
    intro c hc
    simp at hc
    rw [hc]; decide
  · exact ⟨(hes x h).1, (hes x h).2.1, (hes x h).2.2.1⟩

theorem canon_cases {rooted : Bool} {k : Nat} {es : List Str} {p : Str}
    (h : Canon rooted k es p) :
    (rooted = true ∧ p = ['/']) ∨
    (rooted = true ∧ p = slashJoin es ∧ es ≠ []) ∨
    (rooted = false ∧ p = ['.']) ∨
    (rooted = false ∧ ∃ e M, List.replicate k ['.', '.'] ++ es = e :: M ∧ p = e ++ slashJoin M) := by
  obtain ⟨hes, hk, hp⟩ := h
  cases rooted with
  | true =>
    have hk0 : k = 0 := hk rfl
    subst hk0
    by_cases h0 : es = []
    · left; subst h0; simp [hp, rep]
    · right; left
      have : slashJoin es ≠ [] := fun h => h0 (slashJoin_eq_nil.mp h)
      simp [hp, rep, h0, this]
  | false =>
    right; right
    cases hM : List.replicate k ['.', '.'] ++ es with
    | nil => left; simp [hp, hM, rep, slashJoin]
    | cons e M =>
      right
      have he := (canon_elems hes e (by rw [hM]; exact List.mem_cons_self _ _)).1
      refine ⟨rfl, e, M, rfl, ?_⟩
      rw [hp, hM]
      simp [rep, slashJoin, he]

theorem canon_ne_nil {rooted : Bool} {k : Nat} {es : List Str} {p : Str}
    (h : Canon rooted k es p) : p ≠ [] := by
  have hes := h.1
  rcases canon_cases h with ⟨_, hp⟩ | ⟨_, hp, h0⟩ | ⟨_, hp⟩ | ⟨_, e, M, hM, hp⟩
  · simp [hp]
  · rw [hp]; exact fun h => h0 (slashJoin_eq_nil.mp h)
  · simp [hp]
  · have he := (canon_elems hes e (by rw [hM]; exact List.mem_cons_self _ _)).1
    simp [hp, he]

theorem canon_chain {rooted : Bool} {k : Nat} {es : List Str} {p : Str}
    (h : Canon rooted k es p) :
    List.Chain' NoDouble p ∧ (p.getLast? = some '/' → p = ['/']) := by
  have hes := h.1
  rcases canon_cases h with ⟨_, hp⟩ | ⟨_, hp, h0⟩ | ⟨_, hp⟩ | ⟨_, e, M, hM, hp⟩
  · simp [hp]
  · have := slashJoin_chain es (fun x hx => ⟨(hes x hx).1, (hes x hx).2.1⟩)
    rw [hp]
    exact ⟨this.1, fun h => absurd h this.2⟩
  · subst hp
    exact ⟨List.chain'_singleton _, by decide⟩
  · have hall := canon_elems (k := k) hes
    rw [hM] at hall
    have := slashJoin_chain (e :: M) (fun x hx => ⟨(hall x hx).1, (hall x hx).2.1⟩)
    have he := (hall e (List.mem_cons_self _ _)).1
    have e1 : slashJoin (e :: M) = '/' :: p := by rw [hp]; simp [slashJoin]
    rw [e1] at this
    refine ⟨by simpa using this.1.tail, ?_⟩
    intro hl
    exfalso
    apply this.2
    have hpne : p ≠ [] := by simp [hp, he]
    obtain ⟨a, t, hat⟩ := List.exists_cons_of_ne_nil hpne
    rw [hat, List.getLast?_cons_cons, ← hat]
    exact hl

theorem canon_segments {rooted : Bool} {k : Nat} {es : List Str} {p : Str}
    (h : Canon rooted k es p) (hdot : ['.'] ∈ segments p) : p = ['.'] := by
  have hes := h.1
  have hall := canon_elems (k := k) hes
  rcases canon_cases h with ⟨_, hp⟩ | ⟨_, hp, h0⟩ | ⟨_, hp⟩ | ⟨_, e, M, hM, hp⟩
  · subst hp
    revert hdot
    decide
  · exfalso
    have := splitOn_append_slashJoin es (fun x hx => (hes x hx).2.1) [] (by simp)
    rw [List.nil_append] at this
    rw [segments, hp, this] at hdot
    rcases List.mem_cons.mp hdot with h1 | h1
    · simp at h1
    · exact (hes _ h1).2.2.1 rfl
  · exact hp
  · exfalso
    rw [hM] at hall
    have := splitOn_append_slashJoin M
      (fun x hx => (hall x (List.mem_cons_of_mem _ hx)).2.1) e (hall e (List.mem_cons_self _ _)).2.1
    rw [segments, hp, this] at hdot
    exact (hall _ hdot).2.2 rfl

theorem no_double_of_chain {p : Str} (h : List.Chain' NoDouble p) : ¬ (['/', '/'] <:+: p) := by
  intro hin
  have := h.infix hin
  simp [NoDouble] at this

theorem run_slash (rooted : Bool) (t : Str) (st : CleanState) :
    run rooted ('/' :: t) st = run rooted t st := by
  rw [run_cons, if_pos rfl]

theorem Clean_cons_append_slash (c : Char) (t y : Str) :
    Clean (c :: t ++ '/' :: y) =
      if (run (decide (c = '/')) y (run (decide (c = '/')) (if c = '/' then t else c :: t)
            (cleanInit (decide (c = '/'))))).out.length = 0 then ['.']
      else (run (decide (c = '/')) y (run (decide (c = '/')) (if c = '/' then t else c :: t)
            (cleanInit (decide (c = '/'))))).out := by
  by_cases hc : c = '/'
  · subst hc
    rw [List.cons_append, Clean_rooted, run_append_slash]
    simp
  · rw [Clean_unrooted _ (by simp) (by simpa using hc), run_append_slash]
    simp [hc]

theorem Clean_double_slash (a s : Str) (ha : a ≠ []) :
    Clean (a ++ '/' :: '/' :: s) = Clean (a ++ '/' :: s) := by
  obtain ⟨c, t, rfl⟩ := List.exists_cons_of_ne_nil ha
  rw [Clean_cons_append_slash, Clean_cons_append_slash, run_slash]

theorem Join_of_ne_nil (a b : Str) (ha : a ≠ []) : Join a b = Clean (a ++ '/' :: b) := by
  simp [Join, ha]

theorem run_slashJoin_tail (rooted : Bool) :
    ∀ (M : List Str) (st : CleanState),
      run rooted (slashJoin M).tail st = M.foldl (fun st e => run rooted e st) st := by
  intro M
  induction M with
  | nil => intro st; rfl
  | cons e M ih =>
    intro st
    cases M with
    | nil => simp [slashJoin]
    | cons e' M' =>
      have : (slashJoin (e :: e' :: M')).tail = e ++ '/' :: (slashJoin (e' :: M')).tail := by
        simp [slashJoin]
      rw [this, run_append_slash, ih]
      rfl

theorem run_normalSeg (rooted : Bool) (e : Str) (he : NormalSeg e) (st : CleanState) :
    run rooted e st = ⟨appendElem rooted st.out e, st.dotdot⟩ := by
  obtain ⟨hne, hs, hd, hdd⟩ := he
  obtain ⟨c, t, rfl⟩ := List.exists_cons_of_ne_nil hne
  have hc : c ≠ '/' := hs c (List.mem_cons_self _ _)
  have ht : ∀ x ∈ t, x ≠ '/' := fun x hx => hs x (List.mem_cons_of_mem _ hx)
  have h2 : ¬ (c = '.' ∧ (t = [] ∨ t.head? = some '/')) := by
    rintro ⟨h1, h2 | h2⟩
    · exact hd (by rw [h1, h2])
    · exact ht _ (List.mem_of_mem_head? h2) rfl
  have h3 : ¬ (c = '.' ∧ t.head? = some '.' ∧ (t.tail = [] ∨ t.tail.head? = some '/')) := by
    rintro ⟨h1, h2, h3 | h3⟩
    · apply hdd
      cases t with
      | nil => simp at h2
      | cons a t2 =>
        simp at h2 h3
        rw [h1, h2, h3]
    · have : '/' ∈ t.tail := List.mem_of_mem_head? h3
      exact ht _ (List.mem_of_mem_tail this) rfl
  have hall : ∀ x ∈ c :: t, notSep x = true := fun x hx => by simpa [notSep] using hs x hx
  rw [run_cons, if_neg hc, if_neg h2, if_neg h3]
  rw [List.takeWhile_eq_self_iff.mpr hall, List.dropWhile_eq_nil_iff.mpr hall, run_nil]

theorem run_dotdot_unrooted (out : Str) :
    run false ['.', '.'] ⟨out, out.length⟩ = ⟨appendDotDot out, (appendDotDot out).length⟩ := by
  rw [run_cons]
  simp [run_nil]

theorem foldl_run_dots (k : Nat) :
    (List.replicate k ['.', '.']).foldl (fun st e => run false e st) (cleanInit false) =
      ⟨rep false (List.replicate k ['.', '.']), (rep false (List.replicate k ['.', '.'])).length⟩ := by
  induction k with
  | zero => simp [cleanInit, rep, slashJoin]
  | succ k ih =>
    rw [List.replicate_succ', List.foldl_append, ih]
    simp only [List.foldl_cons, List.foldl_nil]
    rw [run_dotdot_unrooted, appendDotDot_eq,
      rep_snoc false (fun x hx => by rw [(List.mem_replicate.mp hx).2]; simp)]

theorem foldl_run_normal (rooted : Bool) (dd : Nat) :
    ∀ (es R : List Str), (∀ e ∈ es, NormalSeg e) → (∀ x ∈ R, x ≠ []) →
      es.foldl (fun st e => run rooted e st) ⟨rep rooted R, dd⟩ = ⟨rep rooted (R ++ es), dd⟩ := by
  intro es
  induction es with
  | nil => intro R _ _; simp
  | cons e es ih =>
    intro R hes hR
    have he := hes e (List.mem_cons_self _ _)
    rw [List.foldl_cons, run_normalSeg rooted e he]
    simp only
    rw [← rep_snoc rooted hR, ih (R ++ [e]) (fun x hx => hes x (List.mem_cons_of_mem _ hx))]
    · simp
    · intro x hx
      rcases List.mem_append.mp hx with h | h
      · exact hR x h
      · rw [List.mem_singleton.mp h]; exact he.1

theorem run_dot (rooted : Bool) (st : CleanState) : run rooted ['.'] st = st := by
  rw [run_cons]
  simp [run_nil]

/-- Running the loop of `path.Clean` over a cleaned path rebuilds that path. -/
theorem run_canon {rooted : Bool} {k : Nat} {es : List Str} {p : Str}
    (h : Canon rooted k es p) :
    run rooted (if rooted = true then p.tail else p) (cleanInit rooted) =
      ⟨rep rooted (List.replicate k ['.', '.'] ++ es),
        (rep rooted (List.replicate k ['.', '.'])).length⟩ := by
  have hes := h.1
  have hk := h.2.1
  rcases canon_cases h with ⟨hr, hp⟩ | ⟨hr, hp, h0⟩ | ⟨hr, hp⟩ | ⟨hr, e, M, hM, hp⟩
  · subst hr
    have hk0 : k = 0 := hk rfl
    subst hk0
    have hes0 : es = [] := by
      have := h.2.2
      by_contra h0
      have h1 : slashJoin es ≠ [] := fun h => h0 (slashJoin_eq_nil.mp h)
      have h2 := slashJoin_length_ge (fun x hx => (hes x hx).1) h0
      rw [hp] at this
      simp [rep, h0, h1] at this
      rw [← this] at h2
      simp at h2
    subst hes0
    simp [hp, run_nil, cleanInit, rep]
  · subst hr
    have hk0 : k = 0 := hk rfl
    subst hk0
    simp only [if_true, hp, run_slashJoin_tail, List.replicate_zero, List.nil_append]
    have := foldl_run_normal true 1 es [] hes (by simp)
    simpa [cleanInit, rep] using this
  · subst hr
    have hM : List.replicate k ['.', '.'] ++ es = [] := by
      have := h.2.2
      by_contra h0
      obtain ⟨e, M, hM⟩ := List.exists_cons_of_ne_nil h0
      have he := (canon_elems hes e (by rw [hM]; exact List.mem_cons_self _ _))
      rw [hp, hM] at this
      simp [rep, slashJoin, he.1] at this
      have h3 := this
      cases e with
      | nil => exact he.1 rfl
      | cons a t =>
        simp at h3
        exact he.2.2 (by rw [← h3.1, ← h3.2.1])
    have hk0 : k = 0 := by
      cases k with
      | zero => rfl
      | succ k => simp [List.replicate_succ] at hM
    subst hk0
    have hes0 : es = [] := by simpa using hM
    subst hes0
    simp [hp, run_dot, cleanInit, rep, slashJoin]
  · subst hr
    have hall := canon_elems (k := k) hes
    have he := (hall e (by rw [hM]; exact List.mem_cons_self _ _)).1
    have hp' : p = (slashJoin (List.replicate k ['.', '.'] ++ es)).tail := by
      rw [hp, hM]; simp [slashJoin]
    simp only [Bool.false_eq_true, if_false]
    rw [hp', run_slashJoin_tail, List.foldl_append, foldl_run_dots,
      foldl_run_normal false _ es _ hes
        (fun x hx => by rw [(List.mem_replicate.mp hx).2]; simp)]

theorem canon_head {rooted : Bool} {k : Nat} {es : List Str} {p : Str}
    (h : Canon rooted k es p) :
    ∃ c t, p = c :: t ∧ decide (c = '/') = rooted := by
  have hes := h.1
  rcases canon_cases h with ⟨hr, hp⟩ | ⟨hr, hp, h0⟩ | ⟨hr, hp⟩ | ⟨hr, e, M, hM, hp⟩
  · exact ⟨'/', [], hp, by simp [hr]⟩
  · obtain ⟨e, M, rfl⟩ := List.exists_cons_of_ne_nil h0
    exact ⟨'/', e ++ slashJoin M, by simp [hp, slashJoin], by simp [hr]⟩
  · exact ⟨'.', [], hp, by simp [hr]⟩
  · have he := canon_elems hes e (by rw [hM]; exact List.mem_cons_self _ _)
    obtain ⟨c, t, rfl⟩ := List.exists_cons_of_ne_nil he.1
    refine ⟨c, t ++ slashJoin M, by simp [hp], ?_⟩
    have : c ≠ '/' := he.2.1 c (List.mem_cons_self _ _)
    simp [hr, this]

theorem Clean_canon_append {rooted : Bool} {k : Nat} {es : List Str} {p : Str}
    (h : Canon rooted k es p) (y : Str) :
    Clean (p ++ '/' :: y) =
      if (run rooted y ⟨rep rooted (List.replicate k ['.', '.'] ++ es),
            (rep rooted (List.replicate k ['.', '.'])).length⟩).out.length = 0 then ['.']
      else (run rooted y ⟨rep rooted (List.replicate k ['.', '.'] ++ es),
            (rep rooted (List.replicate k ['.', '.'])).length⟩).out := by
  obtain ⟨c, t, hp, hc⟩ := canon_head h
  have hrun := run_canon h
  have hin : (if c = '/' then t else c :: t) = (if rooted = true then p.tail else p) := by
    rw [← hc, hp]
    by_cases h1 : c = '/' <;> simp [h1]
  rw [hp, Clean_cons_append_slash, hc, hin, hrun]

/-- A cleaned path followed by a separator cleans to itself. -/
theorem Clean_canon_slash {rooted : Bool} {k : Nat} {es : List Str} {p : Str}
    (h : Canon rooted k es p) : Clean (p ++ ['/']) = p := by
  rw [Clean_canon_append h [], run_nil, h.2.2]
  simp only [List.length_eq_zero]

/-- Joining an ordinary element onto a cleaned path appends it. -/
theorem Clean_canon_elem {rooted : Bool} {k : Nat} {es : List Str} {p : Str}
    (h : Canon rooted k es p) (n : Str) (hn : NormalSeg n) :
    Clean (p ++ '/' :: n) = rep rooted (List.replicate k ['.', '.'] ++ es ++ [n]) ∧
    Canon rooted k (es ++ [n]) (Clean (p ++ '/' :: n)) := by
  have hne := dots_ne_nil_of_mem (k := k) h.1
  have hrep : rep rooted (List.replicate k ['.', '.'] ++ es ++ [n]) ≠ [] := by
    have := rep_length_lt rooted (List.replicate k ['.', '.'] ++ es) [n] hne
      (fun x hx => by rw [List.mem_singleton.mp hx]; exact hn.1) (by simp)
    intro h0
    rw [h0] at this
    simp at this
  have e1 : Clean (p ++ '/' :: n) = rep rooted (List.replicate k ['.', '.'] ++ es ++ [n]) := by
    rw [Clean_canon_append h n, run_normalSeg rooted n hn]
    simp only
    rw [← rep_snoc rooted hne, if_neg]
    rw [List.length_eq_zero]
    exact hrep
  refine ⟨e1, ?_, h.2.1, ?_⟩
  · intro x hx
    rcases List.mem_append.mp hx with h1 | h1
    · exact h.1 x h1
    · rw [List.mem_singleton.mp h1]; exact hn
  · rw [e1, ← List.append_assoc, if_neg hrep]

theorem scanBack_append_left (X Y : Str) :
    ∀ i, i ≤ X.length → scanBack (X ++ Y) i = scanBack X i := by
  intro i
  induction i with
  | zero => intro _; rfl
  | succ i ih =>
    intro hi
    have hlt : i < X.length := hi
    rw [scanBack, scanBack, List.getD_append _ _ _ _ hlt, ih (le_of_lt hlt)]

theorem scanBack_skip (X n : Str) (hn : ∀ c ∈ n, c ≠ '/') :
    ∀ j, j ≤ n.length → scanBack (X ++ n) (X.length + j) = scanBack (X ++ n) X.length := by
  intro j
  induction j with
  | zero => intro _; rfl
  | succ j ih =>
    intro hj
    have hlt : j < n.length := hj
    rw [← Nat.add_assoc, scanBack, if_pos, ih (le_of_lt hlt)]
    rw [List.getD_append_right _ _ _ _ (Nat.le_add_right _ _), Nat.add_sub_cancel_left]
    exact getD_ne_sep hn hlt

theorem scanBack_end_slash (Y : Str) : scanBack (Y ++ ['/']) (Y.length + 1) = Y.length + 1 := by
  rw [scanBack, if_neg]
  rw [List.getD_append_right _ _ _ _ le_rfl]
  simp

theorem scanBack_elem (X n : Str) (hn : ∀ c ∈ n, c ≠ '/')
    (hX : X = [] ∨ ∃ Y, X = Y ++ ['/']) :
    scanBack (X ++ n) (X ++ n).length = X.length := by
  rw [List.length_append, scanBack_skip X n hn n.length le_rfl, scanBack_append_left X n _ le_rfl]
  rcases hX with h | ⟨Y, h⟩
  · subst h; rfl
  · subst h
    rw [List.length_append]
    exact scanBack_end_slash Y

theorem stripTrailing_of_last (X : Str) (c : Char) (hc : c ≠ '/') :
    stripTrailing (X ++ [c]) (X ++ [c]).length = (X ++ [c]).length := by
  rw [List.length_append, List.length_singleton, stripTrailing, if_neg]
  rw [List.getD_append_right _ _ _ _ le_rfl]
  simpa using hc

theorem Dir_elem (X n : Str) (hn : ∀ c ∈ n, c ≠ '/') (hX : X = [] ∨ ∃ Y, X = Y ++ ['/']) :
    Dir (X ++ n) = Clean X := by
  rw [Dir, scanBack_elem X n hn hX, List.take_left']
  rfl

theorem Base_elem (X n : Str) (hne : n ≠ []) (hn : ∀ c ∈ n, c ≠ '/')
    (hX : X = [] ∨ ∃ Y, X = Y ++ ['/']) : Base (X ++ n) = n := by
  obtain ⟨n', c, rfl⟩ : ∃ n' c, n = n' ++ [c] := by
    rcases List.eq_nil_or_concat n with h | ⟨L, b, h⟩
    · exact absurd h hne
    · exact ⟨L, b, by simpa using h⟩
  have hc : c ≠ '/' := hn c (by simp)
  have hq : X ++ (n' ++ [c]) ≠ [] := by simp
  have hstrip : stripTrailing (X ++ (n' ++ [c])) (X ++ (n' ++ [c])).length
      = (X ++ (n' ++ [c])).length := by
    rw [← List.append_assoc]
    exact stripTrailing_of_last (X ++ n') c hc
  unfold Base
  rw [if_neg hq]
  simp only [hstrip, List.take_length]
  rw [scanBack_elem X (n' ++ [c]) hn hX, List.drop_left']
  · simp
  · rfl

/-- The parent and the last element of a cleaned path joined with an ordinary element. -/
theorem Dir_Base_canon_elem {rooted : Bool} {k : Nat} {es : List Str} {p : Str}
    (h : Canon rooted k es p) (n : Str) (hn : NormalSeg n) :
    Dir (Clean (p ++ '/' :: n)) = p ∧ Base (Clean (p ++ '/' :: n)) = n := by
  have hne := dots_ne_nil_of_mem (k := k) h.1
  rw [(Clean_canon_elem h n hn).1, rep_snoc rooted hne]
  unfold appendElem
  by_cases hM : List.replicate k ['.', '.'] ++ es = []
  · have hns : ¬ needSlash rooted (rep rooted (List.replicate k ['.', '.'] ++ es)).length = true := by
      rw [needSlash_rep rooted hne]; simpa using hM
    rw [if_neg hns]
    have hp := h.2.2
    rw [hM] at hp ⊢
    cases rooted with
    | true =>
      have e1 : rep true [] = ['/'] := rfl
      rw [e1] at hp ⊢
      refine ⟨?_, Base_elem ['/'] n hn.1 hn.2.1 (Or.inr ⟨[], rfl⟩)⟩
      rw [Dir_elem ['/'] n hn.2.1 (Or.inr ⟨[], rfl⟩), hp]
      decide
    | false =>
      have e1 : rep false [] = [] := rfl
      rw [e1] at hp ⊢
      refine ⟨?_, Base_elem [] n hn.1 hn.2.1 (Or.inl rfl)⟩
      rw [Dir_elem [] n hn.2.1 (Or.inl rfl), hp]
      decide
  · have hns : needSlash rooted (rep rooted (List.replicate k ['.', '.'] ++ es)).length = true :=
      (needSlash_rep rooted hne).mpr hM
    rw [if_pos hns]
    have hX : rep rooted (List.replicate k ['.', '.'] ++ es) ++ ['/'] = [] ∨
        ∃ Y, rep rooted (List.replicate k ['.', '.'] ++ es) ++ ['/'] = Y ++ ['/'] :=
      Or.inr ⟨_, rfl⟩
    refine ⟨?_, Base_elem _ n hn.1 hn.2.1 hX⟩
    rw [Dir_elem _ n hn.2.1 hX]
    have hrep : rep rooted (List.replicate k ['.', '.'] ++ es) ≠ [] := by
      have := rep_length_lt rooted [] (List.replicate k ['.', '.'] ++ es) (by simp) hne hM
      intro h0
      rw [List.nil_append, h0] at this
      simp at this
    have hp : p = rep rooted (List.replicate k ['.', '.'] ++ es) := by
      rw [h.2.2, if_neg hrep]
    rw [← hp]
    exact Clean_canon_slash h

theorem fromLastDot_of_not_mem (b : Str) (h : '.' ∉ b) : fromLastDot b = [] := by
  induction b with
  | nil => rfl
  | cons c t ih =>
    have h1 : '.' ∉ t := fun h2 => h (List.mem_cons_of_mem _ h2)
    have h2 : c ≠ '.' := fun h2 => h (by rw [h2]; exact List.mem_cons_self _ _)
    rw [fromLastDot, if_neg h1, if_neg h2]

theorem fromLastDot_append_dot (a b : Str) (h : '.' ∉ b) :
    fromLastDot (a ++ '.' :: b) = '.' :: b := by
  induction a with
  | nil => simp [fromLastDot, h]
  | cons c t ih =>
    have : '.' ∈ t ++ '.' :: b := by simp
    rw [List.cons_append, fromLastDot, if_pos this, ih]

theorem exists_last_dot (n : Str) (h : '.' ∈ n) : ∃ a b, n = a ++ '.' :: b ∧ '.' ∉ b := by
  induction n with
  | nil => simp at h
  | cons c t ih =>
    by_cases ht : '.' ∈ t
    · obtain ⟨a, b, hab, hb⟩ := ih ht
      exact ⟨c :: a, b, by rw [hab]; rfl, hb⟩
    · rcases List.mem_cons.mp h with h1 | h1
      · exact ⟨[], t, by rw [← h1]; rfl, ht⟩
      · exact absurd h1 ht

theorem fromLastDot_eq_nil_iff (b : Str) : fromLastDot b = [] ↔ '.' ∉ b := by
  constructor
  · intro h hm
    obtain ⟨a, b', hab, hb⟩ := exists_last_dot b hm
    rw [hab, fromLastDot_append_dot a b' hb] at h
    simp at h
  · exact fromLastDot_of_not_mem b

theorem extLoop_skip (X n : Str) (hs : ∀ c ∈ n, c ≠ '/') (hd : '.' ∉ n) :
    ∀ j, j ≤ n.length → ∀ Z, extLoop (X ++ n ++ Z) (X.length + j) = extLoop (X ++ n ++ Z) X.length := by
  intro j
  induction j with
  | zero => intro _ _; rfl
  | succ j ih =>
    intro hj Z
    have hlt : j < n.length := hj
    have hget : (X ++ n ++ Z).getD (X.length + j) '/' = n[j] := by
      rw [List.append_assoc, List.getD_append_right _ _ _ _ (Nat.le_add_right _ _),
        Nat.add_sub_cancel_left, List.getD_append _ _ _ _ hlt, List.getD_eq_getElem _ _ hlt]
    have hmem : n[j] ∈ n := List.getElem_mem _
    rw [← Nat.add_assoc, extLoop, hget, if_pos (hs _ hmem), if_neg, ih (le_of_lt hlt)]
    intro h
    exact hd (h ▸ hmem)

theorem extLoop_boundary (X Z : Str) (hX : X = [] ∨ ∃ Y, X = Y ++ ['/']) :
    extLoop (X ++ Z) X.length = [] := by
  rcases hX with h | ⟨Y, h⟩
  · subst h; rfl
  · subst h
    rw [List.length_append, List.length_singleton, extLoop, if_neg]
    rw [List.append_assoc, List.getD_append_right _ _ _ _ le_rfl]
    simp

theorem Ext_elem_no_dot (X n : Str) (hs : ∀ c ∈ n, c ≠ '/') (hd : '.' ∉ n)
    (hX : X = [] ∨ ∃ Y, X = Y ++ ['/']) : Ext (X ++ n) = [] := by
  have := extLoop_skip X n hs hd n.length le_rfl []
  rw [List.append_nil] at this
  rw [Ext, List.length_append, this]
  exact extLoop_boundary X n hX

theorem Ext_elem_dot (X a b : Str) (hs : ∀ c ∈ b, c ≠ '/') (hd : '.' ∉ b) :
    Ext (X ++ (a ++ '.' :: b)) = '.' :: b := by
  have e1 : X ++ (a ++ '.' :: b) = (X ++ a ++ ['.']) ++ b ++ [] := by simp
  have := extLoop_skip (X ++ a ++ ['.']) b hs hd b.length le_rfl []
  rw [Ext, e1]
  simp only [List.length_append, List.length_nil, Nat.add_zero] at this ⊢
  rw [this]
  have e2 : (X.length + a.length + [('.' : Char)].length) = (X.length + a.length) + 1 := rfl
  rw [e2, extLoop]
  have hget : (X ++ a ++ ['.'] ++ b ++ []).getD (X.length + a.length) '/' = '.' := by
    have : X ++ a ++ ['.'] ++ b ++ [] = (X ++ a) ++ ('.' :: b) := by simp
    rw [this, List.getD_append_right _ _ _ _ (by simp)]
    simp
  rw [hget, if_pos (by decide), if_pos rfl]
  have : X ++ a ++ ['.'] ++ b ++ [] = (X ++ a) ++ ('.' :: b) := by simp
  rw [this, List.drop_left']
  simp

theorem Ext_elem (X n : Str) (hs : ∀ c ∈ n, c ≠ '/') (hX : X = [] ∨ ∃ Y, X = Y ++ ['/']) :
    Ext (X ++ n) = fromLastDot n := by
  by_cases hd : '.' ∈ n
  · obtain ⟨a, b, hab, hb⟩ := exists_last_dot n hd
    rw [hab, fromLastDot_append_dot a b hb]
    apply Ext_elem_dot X a b _ hb
    intro c hc
    exact hs c (by rw [hab]; simp [hc])
  · rw [Ext_elem_no_dot X n hs hd hX, fromLastDot_of_not_mem n hd]

theorem exists_last_elem (path : Str) :
    ∃ X n, path = X ++ n ∧ (∀ c ∈ n, c ≠ '/') ∧ (X = [] ∨ ∃ Y, X = Y ++ ['/']) := by
  induction path using List.reverseRecOn with
  | nil => exact ⟨[], [], rfl, by simp, Or.inl rfl⟩
  | append_singleton l c ih =>
    by_cases hc : c = '/'
    · exact ⟨l ++ [c], [], by simp, by simp, Or.inr ⟨l, by rw [hc]⟩⟩
    · obtain ⟨X, n, hl, hn, hX⟩ := ih
      refine ⟨X, n ++ [c], by rw [hl]; simp, ?_, hX⟩
      intro x hx
      rcases List.mem_append.mp hx with h | h
      · exact hn x h
      · rw [List.mem_singleton.mp h]; exact hc

/-- On a non-empty path without trailing separator the extension is the part of
the last element from its last dot onward. -/
theorem Ext_eq_fromLastDot_Base (path : Str) (hne : path ≠ [])
    (hlast : path.getLast? ≠ some '/') : Ext path = fromLastDot (Base path) := by
  obtain ⟨X, n, hp, hn, hX⟩ := exists_last_elem path
  have hnne : n ≠ [] := by
    intro h0
    subst h0
    rw [List.append_nil] at hp
    rcases hX with h | ⟨Y, h⟩
    · exact hne (hp.trans h)
    · apply hlast
      rw [hp, h]
      simp
  rw [hp, Ext_elem X n hn hX, Base_elem X n hnne hn hX]

theorem and_modeDir_eq_zero_of_type {m : Nat} (h : m &&& ModeType = 0) : m &&& ModeDir = 0 := by
  have h31 : (m &&& ModeType).testBit 31 = false := by rw [h]; simp
  rw [Nat.testBit_and] at h31
  have ht : ModeType.testBit 31 = true := by decide
  rw [ht, Bool.and_true] at h31
  apply Nat.eq_of_testBit_eq
  intro i
  rw [Nat.testBit_and, ModeDir, Nat.testBit_two_pow, Nat.zero_testBit]
  by_cases hi : 31 = i
  · subst hi; simp [h31]
  · simp [hi]

/-- A directory is not a regular file. -/
theorem isRegular_false_of_isDir {fi : FileInfo} (h : fi.IsDir = true) : fi.IsRegular = false := by
  unfold FileInfo.IsDir at h
  unfold FileInfo.IsRegular
  by_contra hr
  have hz : fi.mode &&& ModeType = 0 := by simpa using hr
  have := and_modeDir_eq_zero_of_type hz
  simp [this] at h

theorem exist_of_isDirectory {σ : Type} (os : OS σ) (o : Pathname) (s : σ)
    (h : IsDirectory os o s = true) : Exist os o s = true := by
  unfold IsDirectory at h
  unfold Exist
  cases hs : os.stat s o.filePath with
  | error e => rw [hs] at h; simp at h
  | ok fi => rfl

theorem copyFileTo_source_dir {σ : Type} (os : OS σ) (o toPath : Pathname) (s : σ)
    (fi : FileInfo) (hs : os.stat s o.filePath = .ok fi) (hd : fi.IsDir = true) :
    CopyFileTo os o toPath s = (some "source is dir (not a file)", s) := by
  unfold CopyFileTo
  rw [hs]
  simp [isRegular_false_of_isDir hd, hd]

theorem copyFileTo_source_irregular {σ : Type} (os : OS σ) (o toPath : Pathname) (s : σ)
    (fi : FileInfo) (hs : os.stat s o.filePath = .ok fi) (hr : fi.IsRegular = false)
    (hd : fi.IsDir = false) :
    CopyFileTo os o toPath s = (some "source not a regular file", s) := by
  unfold CopyFileTo
  rw [hs]
  simp [hr, hd]

theorem copyFileTo_target_exists {σ : Type} (os : OS σ) (o toPath : Pathname) (s : σ)
    (fi : FileInfo) (hs : os.stat s o.filePath = .ok fi) (hr : fi.IsRegular = true)
    (ht : Exist os toPath s = true) :
    CopyFileTo os o toPath s = (some "target already exist", s) := by
  unfold CopyFileTo
  rw [hs]
  simp [hr, ht]

theorem copyFileTo_ok {σ : Type} (os : OS σ) (o toPath : Pathname) (s s' : σ)
    (h : CopyFileTo os o toPath s = (none, s')) :
    (∃ fi, os.stat s o.filePath = .ok fi ∧ fi.IsRegular = true) ∧ Exist os toPath s = false := by
  unfold CopyFileTo at h
  cases hs : os.stat s o.filePath with
  | error e => rw [hs] at h; simp at h
  | ok fi =>
    rw [hs] at h
    simp only at h
    by_cases hr : fi.IsRegular = true
    · refine ⟨⟨fi, rfl, hr⟩, ?_⟩
      by_contra ht
      have ht' : Exist os toPath s = true := by simpa using ht
      simp [hr, ht'] at h
    · have hr' : fi.IsRegular = false := by simpa using hr
      by_cases hd : fi.IsDir = true
      · simp [hr', hd] at h
      · simp [hr', hd] at h

theorem cmd_run_fresh {σ : Type} (os : OS σ) (args : List Str) (s s1 : σ) (out : Msg)
    (h : os.spawn s args = (.exited none out, s1)) :
    (Command args).Run os s = (none, ⟨args, true, "" ++ out⟩, s1) := by
  simp [Cmd.Run, Command, h]

theorem cmd_run_started {σ : Type} (os : OS σ) (c : Cmd) (s : σ) (h : c.started = true) :
    c.Run os s = (some "exec: already started", c, s) := by
  simp [Cmd.Run, h]

theorem copyDirTo_not_dir {σ : Type} (pf : Platform) (os : OS σ) (o toPath : Pathname) (s : σ)
    (h : IsDirectory os o s = false) :
    CopyDirTo pf os o toPath s = (some "source path not a directory", s) := by
  cases pf <;> simp [CopyDirTo, CopyDirToUnix, CopyDirToWindows, h]

theorem copyDirTo_target_exists {σ : Type} (pf : Platform) (os : OS σ) (o toPath : Pathname)
    (s : σ) (h : IsDirectory os o s = true) (ht : Exist os toPath s = true) :
    CopyDirTo pf os o toPath s = (some "destination path already exist", s) := by
  cases pf <;> simp [CopyDirTo, CopyDirToUnix, CopyDirToWindows, h, ht]

theorem copyTo_target_dir {σ : Type} (pf : Platform) (os : OS σ) (o toPath : Pathname) (s : σ)
    (h : IsDirectory os toPath s = true) :
    ∃ err, CopyTo pf os o toPath s = (some err, s) := by
  unfold CopyTo
  rw [if_pos h]
  cases ho : IsDirectory os o s with
  | false => exact ⟨_, copyDirTo_not_dir pf os o toPath s ho⟩
  | true => exact ⟨_, copyDirTo_target_exists pf os o toPath s ho (exist_of_isDirectory os _ s h)⟩

theorem copyTo_source_dir {σ : Type} (pf : Platform) (os : OS σ) (o toPath : Pathname) (s : σ)
    (h : IsDirectory os o s = true) :
    ∃ err, CopyTo pf os o toPath s = (some err, s) := by
  cases ht : IsDirectory os toPath s with
  | true => exact copyTo_target_dir pf os o toPath s ht
  | false =>
    unfold CopyTo
    rw [ht]
    simp only [Bool.false_eq_true, if_false]
    unfold IsDirectory at h
    cases hs : os.stat s o.filePath with
    | error e => rw [hs] at h; simp at h
    | ok fi =>
      rw [hs] at h
      exact ⟨_, copyFileTo_source_dir os o toPath s fi hs h⟩

/-- No character of `e` is one of `*`, `?`, `[`, `\`. -/
theorem hasMeta_false_iff (e : Str) :
    hasMeta e = false ↔ ∀ c ∈ e, c ≠ '*' ∧ c ≠ '?' ∧ c ≠ '[' ∧ c ≠ '\\' := by
  unfold hasMeta
  rw [List.any_eq_false]
  constructor
  · intro h c hc
    have := h c hc
    simp only [Bool.or_eq_true, decide_eq_true_eq, not_or] at this
    exact ⟨this.1.1.1, this.1.1.2, this.1.2, this.2⟩
  · intro h c hc
    have := h c hc
    simp only [Bool.or_eq_true, decide_eq_true_eq, not_or]
    exact ⟨⟨⟨this.1, this.2.1⟩, this.2.2.1⟩, this.2.2.2⟩

/-! ### Decoding -/

theorem decodeRune_size_pos (s : Bytes) (h : s ≠ []) : 1 ≤ (decodeRune s).2 := by
  cases s with
  | nil => exact absurd rfl h
  | cons s0 t =>
    unfold decodeRune
    simp only
    split_ifs
    · simp
    · simp
    · cases t with
      | nil => simp
      | cons s1 t1 => simp only; split_ifs <;> simp
    · rcases t with _ | ⟨s1, _ | ⟨s2, t2⟩⟩
      · simp
      · simp
      · simp only; split_ifs <;> simp
    · rcases t with _ | ⟨s1, _ | ⟨s2, _ | ⟨s3, t3⟩⟩⟩
      · simp
      · simp
      · simp
      · simp only; split_ifs <;> simp

/-! ### Encoding -/

theorem char_valid (c : Char) : c.toNat < 0xD800 ∨ (0xDFFF < c.toNat ∧ c.toNat < 0x110000) :=
  c.valid

theorem exists_char (r : Nat) (h : r < 0xD800 ∨ (0xDFFF < r ∧ r < 0x110000)) :
    ∃ c : Char, c.toNat = r :=
  ⟨Char.ofNatAux r h, rfl⟩

theorem utf8EncodeChar_ne_nil (c : Char) : utf8EncodeChar c ≠ [] := by
  unfold utf8EncodeChar
  split_ifs <;> simp

/-- The decoder reads back what the encoder wrote. -/
theorem decodeRune_utf8EncodeChar (c : Char) (rest : Bytes) :
    decodeRune (utf8EncodeChar c ++ rest) = (c.toNat, (utf8EncodeChar c).length) := by
  have hv := char_valid c
  unfold utf8EncodeChar
  generalize c.toNat = n at hv ⊢
  by_cases h1 : n < 0x80
  · simp [h1, decodeRune]
  by_cases h2 : n < 0x800
  · simp only [if_neg h1, if_pos h2, List.cons_append, List.nil_append, decodeRune,
      List.length_cons, List.length_nil]
    rw [if_neg (by omega), if_neg (by omega), if_pos (by omega), if_pos (by omega)]
    simp only [Prod.mk.injEq, and_true]
    omega
  by_cases h3 : n < 0x10000
  · simp only [if_neg h1, if_neg h2, if_pos h3, List.cons_append, List.nil_append, decodeRune,
      List.length_cons, List.length_nil]
    rw [if_neg (by omega), if_neg (by omega), if_neg (by omega), if_pos (by omega),
      if_pos (by unfold acceptLo acceptHi; split_ifs <;> omega)]
    simp only [Prod.mk.injEq, and_true]
    omega
  · simp only [if_neg h1, if_neg h2, if_neg h3, List.cons_append, List.nil_append, decodeRune,
      List.length_cons, List.length_nil]
    rw [if_neg (by omega), if_neg (by omega), if_neg (by omega), if_neg (by omega),
      if_pos (by unfold acceptLo acceptHi; split_ifs <;> omega)]
    simp only [Prod.mk.injEq, and_true]
    omega

/-- Whatever the decoder reads as a valid character is the encoding of that
character. -/
theorem decodeRune_encoded (b : Nat) (t : Bytes)
    (h : ¬ ((decodeRune (b :: t)).1 = RuneError ∧ (decodeRune (b :: t)).2 = 1)) :
    ∃ c : Char, c.toNat = (decodeRune (b :: t)).1 ∧
      b :: t = utf8EncodeChar c ++ (b :: t).drop (decodeRune (b :: t)).2 := by
  by_cases c1 : b < 0x80
  · obtain ⟨c, hc⟩ := exists_char b (by omega)
    have hd : decodeRune (b :: t) = (b, 1) := by simp [decodeRune, c1]
    refine ⟨c, by rw [hd, hc], ?_⟩
    rw [hd]
    unfold utf8EncodeChar
    rw [hc, if_pos c1]
    rfl
  by_cases c2 : b < 0xC2 ∨ 0xF5 ≤ b
  · exfalso; apply h; simp [decodeRune, c1, c2]
  by_cases c3 : b < 0xE0
  · cases t with
    | nil => exfalso; apply h; simp [decodeRune, c1, c2, c3]
    | cons s1 t1 =>
      by_cases c4 : 0x80 ≤ s1 ∧ s1 ≤ 0xBF
      · have hd : decodeRune (b :: s1 :: t1) = (b % 0x20 * 0x40 + s1 % 0x40, 2) := by
          simp [decodeRune, c1, c2, c3, c4]
        obtain ⟨c, hc⟩ := exists_char (b % 0x20 * 0x40 + s1 % 0x40) (by omega)
        refine ⟨c, by rw [hd, hc], ?_⟩
        rw [hd]
        unfold utf8EncodeChar
        rw [hc, if_neg (by omega), if_pos (by omega)]
        simp only [List.cons_append, List.nil_append, List.drop_succ_cons, List.drop_zero,
          List.cons.injEq, and_true]
        omega
      · exfalso; apply h; simp [decodeRune, c1, c2, c3, c4]
  by_cases c5 : b < 0xF0
  · rcases t with _ | ⟨s1, _ | ⟨s2, t2⟩⟩
    · exfalso; apply h; simp [decodeRune, c1, c2, c3, c5]
    · exfalso; apply h; simp [decodeRune, c1, c2, c3, c5]
    · by_cases c4 : acceptLo b ≤ s1 ∧ s1 ≤ acceptHi b ∧ 0x80 ≤ s2 ∧ s2 ≤ 0xBF
      · have hd : decodeRune (b :: s1 :: s2 :: t2) =
            (b % 0x10 * 0x1000 + s1 % 0x40 * 0x40 + s2 % 0x40, 3) := by
          simp [decodeRune, c1, c2, c3, c5, c4]
        have c4' : (if b = 0xE0 then 0xA0 else 0x80) ≤ s1 ∧
            s1 ≤ (if b = 0xED then 0x9F else 0xBF) := by
          unfold acceptLo acceptHi at c4
          constructor
          · have := c4.1; split_ifs at this ⊢ <;> omega
          · have := c4.2.1; split_ifs at this ⊢ <;> omega
        obtain ⟨c, hc⟩ := exists_char (b % 0x10 * 0x1000 + s1 % 0x40 * 0x40 + s2 % 0x40)
          (by split_ifs at c4' <;> omega)
        refine ⟨c, by rw [hd, hc], ?_⟩
        rw [hd]
        unfold utf8EncodeChar
        rw [hc, if_neg (by split_ifs at c4' <;> omega), if_neg (by split_ifs at c4' <;> omega),
          if_pos (by omega)]
        simp only [List.cons_append, List.nil_append, List.drop_succ_cons, List.drop_zero,
          List.cons.injEq, and_true]
        split_ifs at c4' <;> omega
      · exfalso; apply h; simp [decodeRune, c1, c2, c3, c5, c4]
  · rcases t with _ | ⟨s1, _ | ⟨s2, _ | ⟨s3, t3⟩⟩⟩
    · exfalso; apply h; simp [decodeRune, c1, c2, c3, c5]
    · exfalso; apply h; simp [decodeRune, c1, c2, c3, c5]
    · exfalso; apply h; simp [decodeRune, c1, c2, c3, c5]
    · by_cases c4 : acceptLo b ≤ s1 ∧ s1 ≤ acceptHi b ∧ 0x80 ≤ s2 ∧ s2 ≤ 0xBF ∧
          0x80 ≤ s3 ∧ s3 ≤ 0xBF
      · have hd : decodeRune (b :: s1 :: s2 :: s3 :: t3) =
            (b % 0x08 * 0x40000 + s1 % 0x40 * 0x1000 + s2 % 0x40 * 0x40 + s3 % 0x40, 4) := by
          simp [decodeRune, c1, c2, c3, c5, c4]
        have c4' : (if b = 0xF0 then 0x90 else 0x80) ≤ s1 ∧
            s1 ≤ (if b = 0xF4 then 0x8F else 0xBF) := by
          unfold acceptLo acceptHi at c4
          constructor
          · have := c4.1; split_ifs at this ⊢ <;> omega
          · have := c4.2.1; split_ifs at this ⊢ <;> omega
        obtain ⟨c, hc⟩ := exists_char
          (b % 0x08 * 0x40000 + s1 % 0x40 * 0x1000 + s2 % 0x40 * 0x40 + s3 % 0x40)
          (by split_ifs at c4' <;> omega)
        refine ⟨c, by rw [hd, hc], ?_⟩
        rw [hd]
        unfold utf8EncodeChar
        rw [hc, if_neg (by split_ifs at c4' <;> omega), if_neg (by split_ifs at c4' <;> omega),
          if_neg (by split_ifs at c4' <;> omega)]
        simp only [List.cons_append, List.nil_append, List.drop_succ_cons, List.drop_zero,
          List.cons.injEq, and_true]
        split_ifs at c4' <;> omega
      · exfalso; apply h; simp [decodeRune, c1, c2, c3, c5, c4]

/-- Where the decoder reports an invalid byte, no encoding of a character
begins. -/
theorem decodeRune_invalid (b : Nat) (t : Bytes)
    (h : (decodeRune (b :: t)).1 = RuneError ∧ (decodeRune (b :: t)).2 = 1) :
    ∀ (c : Char) (rest : Bytes), b :: t ≠ utf8EncodeChar c ++ rest := by
  intro c rest h0
  rw [h0, decodeRune_utf8EncodeChar] at h
  simp only at h
  obtain ⟨h1, h2⟩ := h
  unfold utf8EncodeChar at h2
  split_ifs at h2 with h3
  · unfold RuneError at h1; omega
  all_goals simp at h2

/-- The decoder reads one character at the beginning of a byte string. -/
theorem goChar_decodeRune (b : Nat) (t : Bytes) :
    GoChar (b :: t) (decodeRune (b :: t)).1 ((b :: t).drop (decodeRune (b :: t)).2) := by
  by_cases h : (decodeRune (b :: t)).1 = RuneError ∧ (decodeRune (b :: t)).2 = 1
  · rw [h.1, h.2]
    exact GoChar.invalid b t (decodeRune_invalid b t h)
  · obtain ⟨c, hc, heq⟩ := decodeRune_encoded b t h
    have h1 := GoChar.encoded c ((b :: t).drop (decodeRune (b :: t)).2)
    rw [← heq, hc] at h1
    exact h1

/-! ### Character classes -/

theorem classChar_append {t : Bytes} {r : Nat} {t' : Bytes} (h : ClassChar t r t') (p : Bytes) :
    ClassChar (t ++ p) r (t' ++ p) :=
  match h with
  | .plain c t0 h1 h2 h3 => by
    rw [List.append_assoc]
    exact ClassChar.plain c (t0 ++ p) h1 h2 h3
  | .escaped c t0 => by
    rw [List.cons_append, List.append_assoc]
    exact ClassChar.escaped c (t0 ++ p)

theorem classChar_ne_nil {t : Bytes} {r : Nat} {t' : Bytes} (h : ClassChar t r t') : t ≠ [] :=
  match h with
  | .plain c _ _ _ _ => by simp [utf8EncodeChar_ne_nil]
  | .escaped _ _ => by simp

theorem classRange_ne_nil {t : Bytes} {lo hi : Nat} {t' : Bytes} (h : ClassRange t lo hi t') :
    t ≠ [] :=
  match h with
  | .single _ _ _ h1 _ => classChar_ne_nil h1
  | .pair _ _ _ _ _ h1 _ => classChar_ne_nil h1

theorem classRange_append {t : Bytes} {lo hi : Nat} {t' : Bytes} (h : ClassRange t lo hi t')
    (ht' : t' ≠ []) (p : Bytes) : ClassRange (t ++ p) lo hi (t' ++ p) :=
  match h with
  | .single _ _ _ h1 h2 =>
    ClassRange.single _ _ _ (classChar_append h1 p) (by
      obtain ⟨a, u, rfl⟩ := List.exists_cons_of_ne_nil ht'
      simpa using h2)
  | .pair _ _ t1 _ _ h1 h2 =>
    ClassRange.pair _ _ (t1 ++ p) _ _ (by simpa using classChar_append h1 p) (classChar_append h2 p)

theorem classBody_ne_nil {r : Nat} {t : Bytes} {b : Bool} {t' : Bytes}
    (h : ClassBody r t b t') : t ≠ [] :=
  match h with
  | .last _ _ _ _ h1 => classRange_ne_nil h1
  | .more _ _ _ _ _ _ h1 _ => classRange_ne_nil h1

theorem classBody_append {r : Nat} {t : Bytes} {b : Bool} {t' : Bytes}
    (h : ClassBody r t b t') (p : Bytes) : ClassBody r (t ++ p) b (t' ++ p) := by
  induction h with
  | last t lo hi t' h1 =>
    exact ClassBody.last _ lo hi _ (by simpa using classRange_append h1 (List.cons_ne_nil _ _) p)
  | more t lo hi t1 b t' h1 h2 ih =>
    exact ClassBody.more _ lo hi _ b _ (classRange_append h1 (classBody_ne_nil h2) p) ih

theorem getEsc_eq (c : Nat) (t : Bytes) (r : Nat) (nchunk : Bytes)
    (h : getEsc (c :: t) = .ok (r, nchunk)) :
    c ≠ byteDash ∧ c ≠ byteClose ∧ (if c = byteEscape then t else c :: t) ≠ [] ∧
    ¬ ((decodeRune (if c = byteEscape then t else c :: t)).1 = RuneError ∧
      (decodeRune (if c = byteEscape then t else c :: t)).2 = 1) ∧
    nchunk ≠ [] ∧
    r = (decodeRune (if c = byteEscape then t else c :: t)).1 ∧
    nchunk = (if c = byteEscape then t else c :: t).drop
      (decodeRune (if c = byteEscape then t else c :: t)).2 := by
  unfold getEsc at h
  simp only at h
  generalize (if c = byteEscape then t else c :: t) = u at h ⊢
  by_cases h1 : c = byteDash ∨ c = byteClose
  · rw [if_pos h1] at h; simp at h
  rw [if_neg h1] at h
  by_cases h2 : u = []
  · rw [if_pos h2] at h; simp at h
  rw [if_neg h2] at h
  by_cases h3 : (decodeRune u).1 = RuneError ∧ (decodeRune u).2 = 1
  · rw [if_pos h3] at h; simp at h
  rw [if_neg h3] at h
  by_cases h4 : u.drop (decodeRune u).2 = []
  · rw [if_pos h4] at h; simp at h
  rw [if_neg h4] at h
  simp only [Except.ok.injEq, Prod.mk.injEq] at h
  refine ⟨fun h0 => h1 (Or.inl h0), fun h0 => h1 (Or.inr h0), h2, h3, ?_, h.1.symm, h.2.symm⟩
  rw [← h.2]; exact h4

theorem getEsc_length {chunk : Bytes} {r : Nat} {nchunk : Bytes}
    (h : getEsc chunk = .ok (r, nchunk)) : nchunk.length < chunk.length := by
  cases chunk with
  | nil => simp [getEsc] at h
  | cons c t =>
    obtain ⟨_, _, h2, _, _, _, h6⟩ := getEsc_eq c t r nchunk h
    rw [h6, List.length_drop]
    have hp := decodeRune_size_pos _ h2
    have hl : (if c = byteEscape then t else c :: t).length ≤ (c :: t).length := by
      split_ifs <;> simp
    have hpos : 0 < (if c = byteEscape then t else c :: t).length := List.length_pos.mpr h2
    omega

/-- What `getEsc` reads is a character of a class. -/
theorem getEsc_sound {chunk : Bytes} {r : Nat} {nchunk : Bytes}
    (h : getEsc chunk = .ok (r, nchunk)) : ClassChar chunk r nchunk := by
  cases chunk with
  | nil => simp [getEsc] at h
  | cons c t =>
    obtain ⟨h1, h2, h3, h4, _, h6, h7⟩ := getEsc_eq c t r nchunk h
    by_cases hc : c = byteEscape
    · simp only [if_pos hc] at h3 h4 h6 h7
      obtain ⟨b, t', rfl⟩ := List.exists_cons_of_ne_nil h3
      obtain ⟨ch, hch, heq⟩ := decodeRune_encoded b t' h4
      rw [hc, h6, h7, ← hch]
      have := ClassChar.escaped ch ((b :: t').drop (decodeRune (b :: t')).2)
      rw [← heq] at this
      exact this
    · simp only [if_neg hc] at h4 h6 h7
      obtain ⟨ch, hch, heq⟩ := decodeRune_encoded c t h4
      rw [h6, h7, ← hch]
      have e1 : utf8EncodeChar '-' = [byteDash] := by decide
      have e2 : utf8EncodeChar ']' = [byteClose] := by decide
      have e3 : utf8EncodeChar '\\' = [byteEscape] := by decide
      have := ClassChar.plain ch ((c :: t).drop (decodeRune (c :: t)).2)
        (fun h0 => by
          rw [h0, e1] at heq
          simp only [List.cons_append, List.nil_append, List.cons.injEq] at heq
          exact h1 heq.1)
        (fun h0 => by
          rw [h0, e2] at heq
          simp only [List.cons_append, List.nil_append, List.cons.injEq] at heq
          exact h2 heq.1)
        (fun h0 => by
          rw [h0, e3] at heq
          simp only [List.cons_append, List.nil_append, List.cons.injEq] at heq
          exact hc heq.1)
      rw [← heq] at this
      exact this

theorem classRanges_fuel (r : Nat) :
    ∀ (fuel : Nat) (chunk : Bytes) (m : Bool) (n : Nat), chunk.length ≤ fuel →
      classRanges r (fuel + 1) chunk m n = classRanges r fuel chunk m n := by
  intro fuel
  induction fuel with
  | zero =>
    intro chunk m n h
    have : chunk = [] := List.length_eq_zero.mp (Nat.le_zero.mp h)
    subst this
    simp [classRanges, getEsc]
  | succ f ih =>
    intro chunk m n h
    rw [classRanges, classRanges]
    by_cases h1 : chunk.head? = some byteClose ∧ 0 < n
    · rw [if_pos h1, if_pos h1]
    · rw [if_neg h1, if_neg h1]
      cases hg : getEsc chunk with
      | error e => rfl
      | ok v =>
        obtain ⟨lo, chunk1⟩ := v
        have hl := getEsc_length hg
        simp only
        by_cases h2 : chunk1.head? = some byteDash
        · rw [if_pos h2, if_pos h2]
          cases hg2 : getEsc chunk1.tail with
          | error e => rfl
          | ok v2 =>
            obtain ⟨hi, chunk2⟩ := v2
            have hl2 := getEsc_length hg2
            have : chunk1.tail.length ≤ chunk1.length := by simp
            exact ih chunk2 _ _ (by omega)
        · rw [if_neg h2, if_neg h2]
          exact ih chunk1 _ _ (by omega)

theorem classRanges_length (r : Nat) :
    ∀ (fuel : Nat) (chunk : Bytes) (m : Bool) (n : Nat) (b : Bool) (chunk3 : Bytes),
      classRanges r fuel chunk m n = .ok (b, chunk3) → chunk3.length ≤ chunk.length := by
  intro fuel
  induction fuel with
  | zero => intro chunk m n b chunk3 h; simp [classRanges] at h
  | succ f ih =>
    intro chunk m n b chunk3 h
    rw [classRanges] at h
    by_cases h1 : chunk.head? = some byteClose ∧ 0 < n
    · rw [if_pos h1] at h
      simp only [Except.ok.injEq, Prod.mk.injEq] at h
      rw [← h.2]
      simp
    · rw [if_neg h1] at h
      cases hg : getEsc chunk with
      | error e => rw [hg] at h; simp at h
      | ok v =>
        obtain ⟨lo, chunk1⟩ := v
        have hl := getEsc_length hg
        rw [hg] at h
        simp only at h
        by_cases h2 : chunk1.head? = some byteDash
        · rw [if_pos h2] at h
          cases hg2 : getEsc chunk1.tail with
          | error e => rw [hg2] at h; simp at h
          | ok v2 =>
            obtain ⟨hi, chunk2⟩ := v2
            have hl2 := getEsc_length hg2
            rw [hg2] at h
            have h3 := ih chunk2 _ _ b chunk3 h
            have : chunk1.tail.length ≤ chunk1.length := by simp
            omega
        · rw [if_neg h2] at h
          have h3 := ih chunk1 _ _ b chunk3 h
          omega

/-- What the loop over the ranges of a class reads is the body of a class, and
its result tells whether the rune lies in one of the ranges. -/
theorem classRanges_sound (r : Nat) :
    ∀ (fuel : Nat) (chunk : Bytes) (m : Bool) (n : Nat) (b : Bool) (chunk3 : Bytes),
      classRanges r fuel chunk m n = .ok (b, chunk3) →
      (0 < n ∧ chunk = byteClose :: chunk3 ∧ b = m) ∨
      ∃ b', ClassBody r chunk b' chunk3 ∧ b = (m || b') := by
  intro fuel
  induction fuel with
  | zero => intro chunk m n b chunk3 h; simp [classRanges] at h
  | succ f ih =>
    intro chunk m n b chunk3 h
    rw [classRanges] at h
    by_cases h1 : chunk.head? = some byteClose ∧ 0 < n
    · rw [if_pos h1] at h
      simp only [Except.ok.injEq, Prod.mk.injEq] at h
      left
      refine ⟨h1.2, ?_, h.1.symm⟩
      cases chunk with
      | nil => simp at h1
      | cons a u =>
        simp only [List.head?_cons, Option.some.injEq] at h1
        simp only [List.tail_cons] at h
        rw [h1.1, h.2]
    · rw [if_neg h1] at h
      right
      cases hg : getEsc chunk with
      | error e => rw [hg] at h; simp at h
      | ok v =>
        obtain ⟨lo, chunk1⟩ := v
        have hc1 := getEsc_sound hg
        rw [hg] at h
        simp only at h
        by_cases h2 : chunk1.head? = some byteDash
        · rw [if_pos h2] at h
          cases hg2 : getEsc chunk1.tail with
          | error e => rw [hg2] at h; simp at h
          | ok v2 =>
            obtain ⟨hi, chunk2⟩ := v2
            have hc2 := getEsc_sound hg2
            rw [hg2] at h
            simp only at h
            have hrange : ClassRange chunk lo hi chunk2 := by
              cases chunk1 with
              | nil => simp at h2
              | cons a u =>
                simp only [List.head?_cons, Option.some.injEq] at h2
                subst h2
                exact ClassRange.pair _ _ u _ _ hc1 hc2
            rcases ih chunk2 _ _ b chunk3 h with ⟨_, h4, h5⟩ | ⟨b', h4, h5⟩
            · rw [h4] at hrange
              exact ⟨_, ClassBody.last _ lo hi _ hrange, h5⟩
            · exact ⟨_, ClassBody.more _ lo hi _ b' _ hrange h4, by rw [h5, Bool.or_assoc]⟩
        · rw [if_neg h2] at h
          have hrange : ClassRange chunk lo lo chunk1 := ClassRange.single _ _ _ hc1 h2
          rcases ih chunk1 _ _ b chunk3 h with ⟨_, h4, h5⟩ | ⟨b', h4, h5⟩
          · rw [h4] at hrange
            exact ⟨_, ClassBody.last _ lo lo _ hrange, h5⟩
          · exact ⟨_, ClassBody.more _ lo lo _ b' _ hrange h4, by rw [h5, Bool.or_assoc]⟩

theorem classStart_length (chunk : Bytes) : (classStart chunk).length ≤ chunk.length := by
  unfold classStart
  split_ifs
  · simp
  · exact le_rfl

/-! ### The chunk matcher -/

theorem matchChunkLoop_cons (fuel : Nat) (c : Nat) (chunk1 s : Bytes) (failed0 : Bool) :
    matchChunkLoop (fuel + 1) (c :: chunk1) s failed0 =
      if c = byteOpen then
        match classRanges (classRune s (failed0 || s.isEmpty)) fuel (classStart chunk1) false 0 with
        | .error err => .error err
        | .ok (matched, chunk3) =>
          matchChunkLoop fuel chunk3 (afterRune s (failed0 || s.isEmpty))
            ((failed0 || s.isEmpty) || (matched == decide (chunk1.head? = some byteCaret)))
      else if c = byteQuery then
        matchChunkLoop fuel chunk1 (afterRune s (failed0 || s.isEmpty))
          ((failed0 || s.isEmpty) || decide (s.head? = some Separator))
      else if c = byteEscape then
        match chunk1 with
        | [] => .error ErrBadPattern
        | c2 :: chunk2 =>
          matchChunkLoop fuel chunk2 (matchLiteral c2 s (failed0 || s.isEmpty)).1
            (matchLiteral c2 s (failed0 || s.isEmpty)).2
      else
        matchChunkLoop fuel chunk1 (matchLiteral c s (failed0 || s.isEmpty)).1
          (matchLiteral c s (failed0 || s.isEmpty)).2 := by
  rw [matchChunkLoop.eq_def]
  rfl

theorem matchChunkLoop_nil (fuel : Nat) (s : Bytes) (failed : Bool) :
    matchChunkLoop fuel [] s failed = if failed then .ok ([], false) else .ok (s, true) := by
  cases fuel <;> simp only [matchChunkLoop]

/-- Once the match has failed the chunk does not match. -/
theorem matchChunkLoop_failed :
    ∀ (fuel : Nat) (chunk s rest : Bytes) (ok : Bool),
      matchChunkLoop fuel chunk s true = .ok (rest, ok) → ok = false := by
  intro fuel
  induction fuel with
  | zero =>
    intro chunk s rest ok h
    cases chunk with
    | nil => rw [matchChunkLoop_nil] at h; simp at h; exact h.2
    | cons c chunk1 => rw [matchChunkLoop] at h; simp at h
  | succ f ih =>
    intro chunk s rest ok h
    cases chunk with
    | nil => rw [matchChunkLoop_nil] at h; simp at h; exact h.2
    | cons c chunk1 =>
      rw [matchChunkLoop_cons] at h
      simp only [Bool.true_or, matchLiteral, if_true] at h
      by_cases hc1 : c = byteOpen
      · rw [if_pos hc1] at h
        cases hcr : classRanges (classRune s true) f (classStart chunk1) false 0 with
        | error e => rw [hcr] at h; simp at h
        | ok v =>
          obtain ⟨b, chunk3⟩ := v
          rw [hcr] at h
          exact ih _ _ _ _ h
      rw [if_neg hc1] at h
      by_cases hc2 : c = byteQuery
      · rw [if_pos hc2] at h
        exact ih _ _ _ _ h
      rw [if_neg hc2] at h
      by_cases hc3 : c = byteEscape
      · rw [if_pos hc3] at h
        cases chunk1 with
        | nil => simp at h
        | cons c2 chunk2 => exact ih _ _ _ _ h
      rw [if_neg hc3] at h
      exact ih _ _ _ _ h

theorem patMatch_starLiteral {p n : Bytes} (h : PatMatch p n) :
    PatMatch (byteStar :: p) (byteStar :: n) :=
  PatMatch.starByte p byteStar n (by decide) (PatMatch.starNone p n h)

theorem not_sep_drop {s : Bytes} (h : ∀ b ∈ s, b ≠ Separator) (k : Nat) :
    ∀ b ∈ s.drop k, b ≠ Separator :=
  fun b hb => h b (List.mem_of_mem_drop hb)

/-- A chunk that `matchChunk` finds at the beginning of a name without
separator matches there as the specification words it: whatever pattern
matches the rest of the name, the chunk followed by it matches the name. -/
theorem matchChunkLoop_sound :
    ∀ (fuel : Nat) (chunk s rest : Bytes), (∀ b ∈ s, b ≠ Separator) →
      matchChunkLoop fuel chunk s false = .ok (rest, true) →
      (∀ b ∈ rest, b ≠ Separator) ∧ ∀ p, PatMatch p rest → PatMatch (chunk ++ p) s := by
  intro fuel
  induction fuel with
  | zero =>
    intro chunk s rest hs h
    cases chunk with
    | nil =>
      rw [matchChunkLoop_nil] at h
      simp only [Bool.false_eq_true, if_false, Except.ok.injEq, Prod.mk.injEq, and_true] at h
      subst h
      exact ⟨hs, fun p hp => hp⟩
    | cons c chunk1 => rw [matchChunkLoop] at h; simp at h
  | succ f ih =>
    intro chunk s rest hs h
    cases chunk with
    | nil =>
      rw [matchChunkLoop_nil] at h
      simp only [Bool.false_eq_true, if_false, Except.ok.injEq, Prod.mk.injEq, and_true] at h
      subst h
      exact ⟨hs, fun p hp => hp⟩
    | cons c chunk1 =>
      rw [matchChunkLoop_cons] at h
      cases s with
      | nil =>
        exfalso
        simp only [List.isEmpty_nil, Bool.or_true, Bool.true_or, matchLiteral, if_true] at h
        by_cases hc1 : c = byteOpen
        · rw [if_pos hc1] at h
          cases hcr : classRanges (classRune [] true) f (classStart chunk1) false 0 with
          | error e => rw [hcr] at h; simp at h
          | ok v =>
            obtain ⟨b, chunk3⟩ := v
            rw [hcr] at h
            have := matchChunkLoop_failed _ _ _ _ _ h
            simp at this
        rw [if_neg hc1] at h
        by_cases hc2 : c = byteQuery
        · rw [if_pos hc2] at h
          have := matchChunkLoop_failed _ _ _ _ _ h
          simp at this
        rw [if_neg hc2] at h
        by_cases hc3 : c = byteEscape
        · rw [if_pos hc3] at h
          cases chunk1 with
          | nil => simp at h
          | cons c2 chunk2 =>
            have := matchChunkLoop_failed _ _ _ _ _ h
            simp at this
        rw [if_neg hc3] at h
        have := matchChunkLoop_failed _ _ _ _ _ h
        simp at this
      | cons b n =>
        have hb : b ≠ Separator := hs b (List.mem_cons_self _ _)
        have hn : ∀ x ∈ n, x ≠ Separator := fun x hx => hs x (List.mem_cons_of_mem _ hx)
        simp only [List.isEmpty_cons, Bool.or_false, Bool.false_or, matchLiteral,
          Bool.false_eq_true, if_false, classRune, afterRune, List.head?_cons, List.tail_cons] at h
        by_cases hc1 : c = byteOpen
        · rw [if_pos hc1] at h
          cases hcr : classRanges (decodeRune (b :: n)).1 f (classStart chunk1) false 0 with
          | error e => rw [hcr] at h; simp at h
          | ok v =>
            obtain ⟨matched, chunk3⟩ := v
            rw [hcr] at h
            simp only at h
            cases hm : (matched == decide (chunk1.head? = some byteCaret)) with
            | true =>
              rw [hm] at h
              have := matchChunkLoop_failed _ _ _ _ _ h
              simp at this
            | false =>
              rw [hm] at h
              have hne : matched ≠ decide (chunk1.head? = some byteCaret) := by
                intro h0
                rw [h0] at hm
                simp at hm
              obtain ⟨hr, hp⟩ := ih chunk3 _ rest (not_sep_drop hs _) h
              refine ⟨hr, fun p hp0 => ?_⟩
              rcases classRanges_sound _ _ _ _ _ _ _ hcr with ⟨h0, _, _⟩ | ⟨b', hbody, hb'⟩
              · omega
              · simp only [Bool.false_or] at hb'
                rw [← hb'] at hbody
                have hbody' := classBody_append hbody p
                have hch := goChar_decodeRune b n
                have hhead : (b :: n).head? ≠ some Separator := by simpa using hb
                rw [hc1, List.cons_append]
                by_cases hneg : chunk1.head? = some byteCaret
                · obtain ⟨u, rfl⟩ : ∃ u, chunk1 = byteCaret :: u := by
                    cases chunk1 with
                    | nil => simp at hneg
                    | cons a u =>
                      simp only [List.head?_cons, Option.some.injEq] at hneg
                      exact ⟨u, by rw [hneg]⟩
                  have hst : classStart (byteCaret :: u) = u := by simp [classStart]
                  rw [hst] at hbody'
                  have hm : matched = false := by
                    cases matched with
                    | false => rfl
                    | true => exact absurd (by simp) hne
                  rw [hm] at hbody'
                  exact PatMatch.clsNot (u ++ p) (chunk3 ++ p) (b :: n) _ _ hhead hch hbody'
                    (hp p hp0)
                · have hst : classStart chunk1 = chunk1 := by simp [classStart, hneg]
                  rw [hst] at hbody' hbody
                  have hcne : chunk1 ≠ [] := classBody_ne_nil hbody
                  have hm : matched = true := by
                    cases matched with
                    | true => rfl
                    | false => exact absurd (by simp [hneg]) hne
                  rw [hm] at hbody'
                  have hh : (chunk1 ++ p).head? ≠ some byteCaret := by
                    obtain ⟨a, u, rfl⟩ := List.exists_cons_of_ne_nil hcne
                    simpa using hneg
                  exact PatMatch.cls (chunk1 ++ p) (chunk3 ++ p) (b :: n) _ _ hhead hch hh hbody'
                    (hp p hp0)
        rw [if_neg hc1] at h
        by_cases hc2 : c = byteQuery
        · rw [if_pos hc2] at h
          have hd : decide (some b = some Separator) = false := by simpa using hb
          rw [hd] at h
          obtain ⟨hr, hp⟩ := ih chunk1 _ rest (not_sep_drop hs _) h
          refine ⟨hr, fun p hp0 => ?_⟩
          rw [hc2, List.cons_append]
          exact PatMatch.query _ (b :: n) _ _ (by simpa using hb) (goChar_decodeRune b n)
            (hp p hp0)
        rw [if_neg hc2] at h
        by_cases hc3 : c = byteEscape
        · rw [if_pos hc3] at h
          cases chunk1 with
          | nil => simp at h
          | cons c2 chunk2 =>
            simp only at h
            by_cases hbc : b = c2
            · subst hbc
              simp only [ne_eq, not_true_eq_false, decide_False] at h
              obtain ⟨hr, hp⟩ := ih chunk2 _ rest hn h
              refine ⟨hr, fun p hp0 => ?_⟩
              rw [hc3, List.cons_append, List.cons_append]
              exact PatMatch.escaped b _ n (hp p hp0)
            · exfalso
              have hd : decide (some b ≠ some c2) = true := by simpa using hbc
              rw [hd] at h
              have := matchChunkLoop_failed _ _ _ _ _ h
              simp at this
        rw [if_neg hc3] at h
        by_cases hbc : b = c
        · subst hbc
          simp only [ne_eq, not_true_eq_false, decide_False] at h
          obtain ⟨hr, hp⟩ := ih chunk1 _ rest hn h
          refine ⟨hr, fun p hp0 => ?_⟩
          rw [List.cons_append]
          by_cases hstar : b = byteStar
          · rw [hstar]
            exact patMatch_starLiteral (hp p hp0)
          · exact PatMatch.literal b _ n hstar hc2 hc1 hc3 (hp p hp0)
        · exfalso
          have hd : decide (some b ≠ some c) = true := by simpa using hbc
          rw [hd] at h
          have := matchChunkLoop_failed _ _ _ _ _ h
          simp at this

theorem matchChunk_sound (chunk s rest : Bytes) (hs : ∀ b ∈ s, b ≠ Separator)
    (h : matchChunk chunk s = .ok (rest, true)) :
    (∀ b ∈ rest, b ≠ Separator) ∧ ∀ p, PatMatch p rest → PatMatch (chunk ++ p) s :=
  matchChunkLoop_sound _ chunk s rest hs h

/-! ### The pattern loop -/

theorem patMatch_stars {q n : Bytes} (h : PatMatch q n) :
    ∀ (stars : Bytes), (∀ b ∈ stars, b = byteStar) → PatMatch (stars ++ q) n := by
  intro stars
  induction stars with
  | nil => intro _; exact h
  | cons b stars ih =>
    intro hs
    rw [List.cons_append, hs b (List.mem_cons_self _ _)]
    exact PatMatch.starNone _ _ (ih (fun x hx => hs x (List.mem_cons_of_mem _ hx)))

theorem patMatch_skip {p n : Bytes} (h : PatMatch (byteStar :: p) n) :
    ∀ (skipped : Bytes), (∀ b ∈ skipped, b ≠ Separator) →
      PatMatch (byteStar :: p) (skipped ++ n) := by
  intro skipped
  induction skipped with
  | nil => intro _; exact h
  | cons b skipped ih =>
    intro hs
    rw [List.cons_append]
    exact PatMatch.starByte _ b _ (hs b (List.mem_cons_self _ _))
      (ih (fun x hx => hs x (List.mem_cons_of_mem _ hx)))

theorem patMatch_moreStars {q n : Bytes} (h : PatMatch (byteStar :: q) n) :
    ∀ (stars : Bytes), (∀ b ∈ stars, b = byteStar) → PatMatch (byteStar :: (stars ++ q)) n := by
  intro stars
  induction stars with
  | nil => intro _; exact h
  | cons b stars ih =>
    intro hs
    rw [List.cons_append, hs b (List.mem_cons_self _ _)]
    exact PatMatch.starNone _ _ (ih (fun x hx => hs x (List.mem_cons_of_mem _ hx)))

/-- Stars alone match every name without separator. -/
theorem patMatch_onlyStars (stars name : Bytes) (hne : stars ≠ [])
    (hs : ∀ b ∈ stars, b = byteStar) (hn : ∀ b ∈ name, b ≠ Separator) :
    PatMatch stars name := by
  obtain ⟨b, stars', rfl⟩ := List.exists_cons_of_ne_nil hne
  have hb := hs b (List.mem_cons_self _ _)
  subst hb
  have h0 : PatMatch (byteStar :: stars') [] := by
    have := patMatch_stars PatMatch.done (byteStar :: stars') hs
    rwa [List.append_nil] at this
  have := patMatch_skip h0 name hn
  rwa [List.append_nil] at this

theorem chunkEnd_pos (c : Nat) (t : Bytes) (hc : c ≠ byteStar) (inr : Bool) :
    0 < chunkEnd (c :: t) inr := by
  rw [chunkEnd.eq_def]
  simp only
  split_ifs
  · cases t <;> simp
  · omega
  · omega
  · omega

theorem dropWhile_star_head (pattern : Bytes) :
    ∀ c t, pattern.dropWhile (fun c => decide (c = byteStar)) = c :: t → c ≠ byteStar := by
  intro c t h
  have := List.head_dropWhile_not (fun c => decide (c = byteStar)) pattern
    (by rw [h]; exact List.cons_ne_nil _ _)
  simp only [h, List.head_cons] at this
  simpa using this

/-- The pieces `scanChunk` cuts a pattern into: stars, the chunk, the rest. -/
theorem scanChunk_split (pattern : Bytes) :
    pattern = pattern.takeWhile (fun c => decide (c = byteStar)) ++
      ((scanChunk pattern).2.1 ++ (scanChunk pattern).2.2) ∧
    ((scanChunk pattern).1 = true →
      pattern.takeWhile (fun c => decide (c = byteStar)) =
        byteStar :: (pattern.takeWhile (fun c => decide (c = byteStar))).tail) ∧
    ((scanChunk pattern).2.1 = [] → (scanChunk pattern).2.2 = []) := by
  unfold scanChunk
  simp only [List.take_append_drop, List.takeWhile_append_dropWhile, true_and]
  constructor
  · intro h
    cases pattern with
    | nil => simp at h
    | cons c t =>
      simp only [List.head?_cons, decide_eq_true_eq, Option.some.injEq] at h
      subst h
      simp [List.takeWhile_cons]
  · intro h
    cases hp : pattern.dropWhile (fun c => decide (c = byteStar)) with
    | nil => simp
    | cons c t =>
      exfalso
      rw [hp] at h
      have hc := dropWhile_star_head pattern c t hp
      have := chunkEnd_pos c t hc false
      obtain ⟨k, hk⟩ : ∃ k, chunkEnd (c :: t) false = k + 1 := ⟨_, (Nat.succ_pred_eq_of_pos this).symm⟩
      rw [hk] at h
      simp at h

theorem scanChunk_rest_length (c : Nat) (p : Bytes) :
    (scanChunk (c :: p)).2.2.length ≤ p.length := by
  unfold scanChunk
  simp only
  by_cases hc : c = byteStar
  · have : (c :: p).dropWhile (fun c => decide (c = byteStar)) =
        p.dropWhile (fun c => decide (c = byteStar)) := by
      simp [List.dropWhile_cons, hc]
    rw [this, List.length_drop]
    have := (List.dropWhile_sublist (fun c => decide (c = byteStar)) (l := p)).length_le
    omega
  · have : (c :: p).dropWhile (fun c => decide (c = byteStar)) = c :: p := by
      simp [List.dropWhile_cons, hc]
    rw [this, List.length_drop]
    have := chunkEnd_pos c p hc false
    simp
    omega

/-- What the search after a star finds: the chunk matches after one or more
bytes of the name, none of them a separator, were skipped. -/
theorem starLoop_sound (chunk : Bytes) (lastChunk : Bool) :
    ∀ (name t : Bytes), (∀ b ∈ name, b ≠ Separator) →
      starLoop chunk lastChunk name = .found t →
      ∃ skipped rest, name = skipped ++ rest ∧ matchChunk chunk rest = .ok (t, true) := by
  intro name
  induction name with
  | nil => intro t _ h; simp [starLoop] at h
  | cons c rest ih =>
    intro t hs h
    have hc : c ≠ Separator := hs c (List.mem_cons_self _ _)
    have hr : ∀ b ∈ rest, b ≠ Separator := fun b hb => hs b (List.mem_cons_of_mem _ hb)
    rw [starLoop, if_neg hc] at h
    cases hm : matchChunk chunk rest with
    | error e => rw [hm] at h; simp at h
    | ok v =>
      obtain ⟨t', ok⟩ := v
      rw [hm] at h
      cases ok with
      | false =>
        simp only at h
        obtain ⟨sk, r', h1, h2⟩ := ih t hr h
        exact ⟨c :: sk, r', by rw [h1]; rfl, h2⟩
      | true =>
        simp only at h
        by_cases hl : lastChunk = true ∧ t' ≠ []
        · rw [if_pos hl] at h
          obtain ⟨sk, r', h1, h2⟩ := ih t hr h
          exact ⟨c :: sk, r', by rw [h1]; rfl, h2⟩
        · rw [if_neg hl] at h
          simp only [StarResult.found.injEq] at h
          subst h
          exact ⟨[c], rest, rfl, hm⟩

theorem matchLoop_cons (fuel : Nat) (c : Nat) (p name : Bytes) :
    matchLoop (fuel + 1) (c :: p) name =
      if (scanChunk (c :: p)).1 = true ∧ (scanChunk (c :: p)).2.1 = [] then
        (!name.contains Separator, none)
      else
        match matchChunk (scanChunk (c :: p)).2.1 name with
        | .error err => (false, some err)
        | .ok (t, ok) =>
          if ok = true ∧ (t = [] ∨ (scanChunk (c :: p)).2.2 ≠ []) then
            matchLoop fuel (scanChunk (c :: p)).2.2 t
          else if (scanChunk (c :: p)).1 then
            match starLoop (scanChunk (c :: p)).2.1 (decide ((scanChunk (c :: p)).2.2 = []))
                name with
            | .found t1 => matchLoop fuel (scanChunk (c :: p)).2.2 t1
            | .bad err => (false, some err)
            | .notFound => (false, none)
          else (false, none) := by
  rw [matchLoop]

/-- A name without separator that `filepath.Match` accepts matches the pattern
as the specification words it. -/
theorem matchLoop_sound :
    ∀ (fuel : Nat) (pattern name : Bytes), (∀ b ∈ name, b ≠ Separator) →
      matchLoop fuel pattern name = (true, none) → PatMatch pattern name := by
  intro fuel
  induction fuel with
  | zero =>
    intro pattern name hn h
    cases pattern with
    | nil =>
      rw [matchLoop] at h
      simp only [Prod.mk.injEq, List.isEmpty_iff, and_true] at h
      rw [h]
      exact PatMatch.done
    | cons c p => simp [matchLoop] at h
  | succ f ih =>
    intro pattern name hn h
    cases pattern with
    | nil =>
      rw [matchLoop] at h
      simp only [Prod.mk.injEq, List.isEmpty_iff, and_true] at h
      rw [h]
      exact PatMatch.done
    | cons c p =>
      rw [matchLoop_cons] at h
      obtain ⟨hsplit, hstar, hrest⟩ := scanChunk_split (c :: p)
      have hstars : ∀ b ∈ (c :: p).takeWhile (fun c => decide (c = byteStar)), b = byteStar := by
        intro b hb
        simpa using List.mem_takeWhile_imp hb
      generalize (c :: p).takeWhile (fun c => decide (c = byteStar)) = stars at hsplit hstar hstars
      generalize hsc : scanChunk (c :: p) = sc at h hsplit hstar hrest
      obtain ⟨star, chunk, rest⟩ := sc
      simp only at h hsplit hstar hrest
      rw [hsplit]
      by_cases h2 : star = true ∧ chunk = []
      · have hs1 := hstar h2.1
        rw [h2.2, hrest h2.2, List.append_nil, List.append_nil]
        exact patMatch_onlyStars stars name (by rw [hs1]; exact List.cons_ne_nil _ _) hstars hn
      rw [if_neg h2] at h
      cases hm : matchChunk chunk name with
      | error e => rw [hm] at h; simp at h
      | ok v =>
        obtain ⟨t, ok⟩ := v
        rw [hm] at h
        simp only at h
        by_cases h3 : ok = true ∧ (t = [] ∨ rest ≠ [])
        · rw [if_pos h3] at h
          rw [h3.1] at hm
          obtain ⟨ht, hp⟩ := matchChunk_sound chunk name t hn hm
          exact patMatch_stars (hp rest (ih rest t ht h)) stars hstars
        rw [if_neg h3] at h
        by_cases h4 : star = true
        · rw [if_pos h4] at h
          cases hsl : starLoop chunk (decide (rest = [])) name with
          | bad e => rw [hsl] at h; simp at h
          | notFound => rw [hsl] at h; simp at h
          | found t1 =>
            rw [hsl] at h
            simp only at h
            obtain ⟨skipped, rest', hname, hm'⟩ := starLoop_sound chunk _ name t1 hn hsl
            have hsk : ∀ b ∈ skipped, b ≠ Separator := fun b hb =>
              hn b (by rw [hname]; exact List.mem_append_left _ hb)
            have hr' : ∀ b ∈ rest', b ≠ Separator := fun b hb =>
              hn b (by rw [hname]; exact List.mem_append_right _ hb)
            obtain ⟨ht, hp⟩ := matchChunk_sound chunk rest' t1 hr' hm'
            have h5 : PatMatch (chunk ++ rest) rest' := hp rest (ih rest t1 ht h)
            have h6 : PatMatch (byteStar :: (chunk ++ rest)) name := by
              rw [hname]
              exact patMatch_skip (PatMatch.starNone _ _ h5) skipped hsk
            rw [hstar h4, List.cons_append]
            exact patMatch_moreStars h6 stars.tail (fun b hb => hstars b (List.mem_of_mem_tail hb))
        · rw [if_neg h4] at h
          simp at h

/-! ### The rounds allowed suffice -/

theorem matchChunkLoop_fuel :
    ∀ (fuel : Nat) (chunk s : Bytes) (failed : Bool), chunk.length ≤ fuel →
      matchChunkLoop (fuel + 1) chunk s failed = matchChunkLoop fuel chunk s failed := by
  intro fuel
  induction fuel with
  | zero =>
    intro chunk s failed h
    have : chunk = [] := List.length_eq_zero.mp (Nat.le_zero.mp h)
    subst this
    rw [matchChunkLoop_nil, matchChunkLoop_nil]
  | succ f ih =>
    intro chunk s failed h
    cases chunk with
    | nil => rw [matchChunkLoop_nil, matchChunkLoop_nil]
    | cons c chunk1 =>
      have h1 : chunk1.length ≤ f := by simpa using h
      rw [matchChunkLoop_cons, matchChunkLoop_cons f]
      by_cases hc1 : c = byteOpen
      · rw [if_pos hc1, if_pos hc1]
        have ht := classStart_length chunk1
        rw [classRanges_fuel _ f _ _ _ (by omega)]
        cases hcr : classRanges (classRune s (failed || s.isEmpty)) f (classStart chunk1) false 0 with
        | error e => rfl
        | ok v =>
          obtain ⟨b, chunk3⟩ := v
          have h3 := classRanges_length _ _ _ _ _ _ _ hcr
          exact ih _ _ _ (by omega)
      · rw [if_neg hc1, if_neg hc1]
        by_cases hc2 : c = byteQuery
        · rw [if_pos hc2, if_pos hc2]
          exact ih _ _ _ h1
        · rw [if_neg hc2, if_neg hc2]
          by_cases hc3 : c = byteEscape
          · rw [if_pos hc3, if_pos hc3]
            cases chunk1 with
            | nil => rfl
            | cons c2 chunk2 =>
              simp only
              exact ih _ _ _ (by simp at h1; omega)
          · rw [if_neg hc3, if_neg hc3]
            exact ih _ _ _ h1

theorem matchChunkLoop_eq (fuel : Nat) (chunk s : Bytes) (failed : Bool)
    (h : chunk.length ≤ fuel) :
    matchChunkLoop fuel chunk s failed = matchChunkLoop chunk.length chunk s failed := by
  induction fuel with
  | zero =>
    have : chunk = [] := List.length_eq_zero.mp (Nat.le_zero.mp h)
    subst this
    rfl
  | succ f ih =>
    rcases Nat.lt_or_ge chunk.length (f + 1) with hlt | hge
    · rw [matchChunkLoop_fuel f chunk s failed (by omega)]
      exact ih (by omega)
    · have : chunk.length = f + 1 := by omega
      rw [this]

theorem matchLoop_fuel :
    ∀ (fuel : Nat) (pattern name : Bytes), pattern.length ≤ fuel →
      matchLoop (fuel + 1) pattern name = matchLoop fuel pattern name := by
  intro fuel
  induction fuel with
  | zero =>
    intro pattern name h
    have : pattern = [] := List.length_eq_zero.mp (Nat.le_zero.mp h)
    subst this
    simp [matchLoop]
  | succ f ih =>
    intro pattern name h
    cases pattern with
    | nil => simp [matchLoop]
    | cons c p =>
      have h1 : p.length ≤ f := by simpa using h
      have hrest := le_trans (scanChunk_rest_length c p) h1
      rw [matchLoop_cons, matchLoop_cons f]
      by_cases h2 : (scanChunk (c :: p)).1 = true ∧ (scanChunk (c :: p)).2.1 = []
      · rw [if_pos h2, if_pos h2]
      · rw [if_neg h2, if_neg h2]
        cases matchChunk (scanChunk (c :: p)).2.1 name with
        | error e => rfl
        | ok v =>
          obtain ⟨t, ok⟩ := v
          simp only
          by_cases h3 : ok = true ∧ (t = [] ∨ (scanChunk (c :: p)).2.2 ≠ [])
          · rw [if_pos h3, if_pos h3]
            exact ih _ _ hrest
          · rw [if_neg h3, if_neg h3]
            by_cases h4 : (scanChunk (c :: p)).1 = true
            · rw [if_pos h4, if_pos h4]
              cases starLoop (scanChunk (c :: p)).2.1
                  (decide ((scanChunk (c :: p)).2.2 = [])) name with
              | found t1 => exact ih _ _ hrest
              | bad e => rfl
              | notFound => rfl
            · rw [if_neg h4, if_neg h4]

/-- The rounds `Match` allows its loop suffice: more give the same result. -/
theorem matchLoop_eq_Match (fuel : Nat) (pattern name : Str) (h : (utf8 pattern).length ≤ fuel) :
    matchLoop fuel (utf8 pattern) (utf8 name) = Match pattern name := by
  unfold Match
  generalize utf8 pattern = pat at h ⊢
  generalize utf8 name = nm
  induction fuel with
  | zero =>
    have : pat = [] := List.length_eq_zero.mp (Nat.le_zero.mp h)
    subst this
    rfl
  | succ f ih =>
    rcases Nat.lt_or_ge pat.length (f + 1) with hlt | hge
    · rw [matchLoop_fuel f pat nm (by omega)]
      exact ih (by omega)
    · have : pat.length = f + 1 := by omega
      rw [this]

/-! ### Bytes and characters -/

theorem utf8EncodeChar_byte (c : Char) :
    ∀ b ∈ utf8EncodeChar c, (b = c.toNat ∧ c.toNat < 0x80) ∨ 0x80 ≤ b := by
  intro b hb
  unfold utf8EncodeChar at hb
  split_ifs at hb with h1 h2 h3
  · left; simp at hb; exact ⟨hb, h1⟩
  · right; simp at hb; omega
  · right; simp at hb; omega
  · right; simp at hb; omega

theorem utf8_nil : utf8 [] = [] := rfl

theorem utf8_cons (c : Char) (t : Str) : utf8 (c :: t) = utf8EncodeChar c ++ utf8 t := by
  simp [utf8]

/-- An ASCII byte of the encoding of a string is one of its characters. -/
theorem utf8_byte (s : Str) :
    ∀ b ∈ utf8 s, b < 0x80 → ∃ c ∈ s, c.toNat = b := by
  induction s with
  | nil => intro b hb; simp [utf8] at hb
  | cons c t ih =>
    intro b hb hlt
    rw [utf8_cons] at hb
    rcases List.mem_append.mp hb with h | h
    · rcases utf8EncodeChar_byte c b h with ⟨h1, _⟩ | h1
      · exact ⟨c, List.mem_cons_self _ _, h1.symm⟩
      · omega
    · obtain ⟨c', hc', h2⟩ := ih b h hlt
      exact ⟨c', List.mem_cons_of_mem _ hc', h2⟩

theorem char_eq_of_toNat {c d : Char} (h : c.toNat = d.toNat) : c = d := by
  apply Char.ext
  apply UInt32.ext
  exact h

theorem utf8_no_sep (s : Str) (h : ∀ c ∈ s, c ≠ '/') : ∀ b ∈ utf8 s, b ≠ Separator := by
  intro b hb h0
  obtain ⟨c, hc, h1⟩ := utf8_byte s b hb (by rw [h0]; decide)
  apply h c hc
  apply char_eq_of_toNat
  rw [h1, h0]
  rfl

/-- A pattern without metacharacters matches itself. -/
theorem patMatch_self (bs : Bytes)
    (h : ∀ b ∈ bs, b ≠ byteStar ∧ b ≠ byteQuery ∧ b ≠ byteOpen ∧ b ≠ byteEscape) :
    PatMatch bs bs := by
  induction bs with
  | nil => exact PatMatch.done
  | cons b t ih =>
    obtain ⟨h1, h2, h3, h4⟩ := h b (List.mem_cons_self _ _)
    exact PatMatch.literal b t t h1 h2 h3 h4 (ih (fun x hx => h x (List.mem_cons_of_mem _ hx)))

/-- What `filepath.Match` accepts, of names without separator, matches as the
specification words it. -/
theorem Match_sound (pattern name : Str) (hn : ∀ c ∈ name, c ≠ '/')
    (h : Match pattern name = (true, none)) : PatMatch (utf8 pattern) (utf8 name) :=
  matchLoop_sound _ _ _ (utf8_no_sep name hn) h

theorem patMatch_star_aux {p n : Bytes} (h : PatMatch p n) :
    p = [byteStar] → ∀ b ∈ n, b ≠ Separator := by
  induction h with
  | done => intro h0; simp at h0
  | starNone p n h ih =>
    intro h0
    simp only [List.cons.injEq, true_and] at h0
    subst h0
    cases h
    simp
  | starByte p b n hb h ih =>
    intro h0 x hx
    rcases List.mem_cons.mp hx with h1 | h1
    · rw [h1]; exact hb
    · exact ih h0 x h1
  | query p n r n' _ _ _ _ => intro h0; simp at h0
  | cls t p n r n' _ _ _ _ _ _ => intro h0; simp at h0
  | clsNot t p n r n' _ _ _ _ _ => intro h0; simp at h0
  | escaped c p n _ _ => intro h0; simp at h0
  | literal c p n h1 _ _ _ _ _ =>
    intro h0
    simp only [List.cons.injEq] at h0
    exact absurd h0.1 h1

/-- A star alone matches exactly the names without separator. -/
theorem patMatch_star_iff (n : Bytes) : PatMatch [byteStar] n ↔ ∀ b ∈ n, b ≠ Separator :=
  ⟨fun h => patMatch_star_aux h rfl,
    fun h => patMatch_onlyStars [byteStar] n (List.cons_ne_nil _ _) (by simp) h⟩

theorem patMatch_literal_aux {p n : Bytes} (h : PatMatch p n) :
    (∀ b ∈ p, b ≠ byteStar ∧ b ≠ byteQuery ∧ b ≠ byteOpen ∧ b ≠ byteEscape) → n = p := by
  induction h with
  | done => intro _; rfl
  | starNone p n h ih => intro hm; exact absurd rfl (hm byteStar (List.mem_cons_self _ _)).1
  | starByte p b n hb h ih => intro hm; exact absurd rfl (hm byteStar (List.mem_cons_self _ _)).1
  | query p n r n' _ _ _ _ =>
    intro hm; exact absurd rfl (hm byteQuery (List.mem_cons_self _ _)).2.1
  | cls t p n r n' _ _ _ _ _ _ =>
    intro hm; exact absurd rfl (hm byteOpen (List.mem_cons_self _ _)).2.2.1
  | clsNot t p n r n' _ _ _ _ _ =>
    intro hm; exact absurd rfl (hm byteOpen (List.mem_cons_self _ _)).2.2.1
  | escaped c p n _ _ =>
    intro hm; exact absurd rfl (hm byteEscape (List.mem_cons_self _ _)).2.2.2
  | literal c p n _ _ _ _ h ih =>
    intro hm
    rw [ih (fun b hb => hm b (List.mem_cons_of_mem _ hb))]

/-- Two strings with the same bytes are the same string. -/
theorem utf8_injective : ∀ (x y : Str), utf8 x = utf8 y → x = y := by
  intro x
  induction x with
  | nil =>
    intro y h
    cases y with
    | nil => rfl
    | cons d u =>
      rw [utf8_nil, utf8_cons] at h
      have := utf8EncodeChar_ne_nil d
      cases he : utf8EncodeChar d with
      | nil => exact absurd he this
      | cons a l => rw [he] at h; simp at h
  | cons c t ih =>
    intro y h
    cases y with
    | nil =>
      rw [utf8_nil, utf8_cons] at h
      have := utf8EncodeChar_ne_nil c
      cases he : utf8EncodeChar c with
      | nil => exact absurd he this
      | cons a l => rw [he] at h; simp at h
    | cons d u =>
      rw [utf8_cons, utf8_cons] at h
      have h1 := decodeRune_utf8EncodeChar c (utf8 t)
      rw [h, decodeRune_utf8EncodeChar] at h1
      simp only [Prod.mk.injEq] at h1
      have hcd : c = d := (char_eq_of_toNat h1.1).symm
      subst hcd
      rw [ih u (List.append_cancel_left h)]

theorem segMatch_bytes_meta (x : Str) (h : hasMeta x = false) :
    ∀ b ∈ utf8 x, b ≠ byteStar ∧ b ≠ byteQuery ∧ b ≠ byteOpen ∧ b ≠ byteEscape := by
  have h' := (hasMeta_false_iff x).mp h
  intro b hb
  by_cases hlt : b < 0x80
  · obtain ⟨c, hc, hcb⟩ := utf8_byte x b hb hlt
    obtain ⟨h1, h2, h3, h4⟩ := h' c hc
    refine ⟨?_, ?_, ?_, ?_⟩ <;> intro h0 <;> rw [h0] at hcb
    · exact h1 (char_eq_of_toNat hcb)
    · exact h2 (char_eq_of_toNat hcb)
    · exact h3 (char_eq_of_toNat hcb)
    · exact h4 (char_eq_of_toNat hcb)
  · refine ⟨?_, ?_, ?_, ?_⟩ <;> intro h0 <;> rw [h0] at hlt <;> exact hlt (by decide)

/-- A pattern segment without metacharacters is matched by itself and by
nothing else. -/
theorem segMatch_literal_iff (ps x : Str) (h : hasMeta ps = false) :
    SegMatch ps x ↔ x = ps := by
  constructor
  · intro hm
    exact utf8_injective x ps (patMatch_literal_aux hm (segMatch_bytes_meta ps h))
  · intro hx
    rw [hx]
    exact patMatch_self _ (segMatch_bytes_meta ps h)

/-- A segment without metacharacters matches itself. -/
theorem segMatch_self (x : Str) (h : hasMeta x = false) : SegMatch x x :=
  patMatch_self _ (segMatch_bytes_meta x h)

theorem globNames_mem (dir pat : Str) :
    ∀ (names m : List Str) (r : Str), r ∈ (globNames dir pat names m).1 →
      r ∈ m ∨ ∃ n ∈ names, Match pat n = (true, none) ∧ r = Join dir n := by
  intro names
  induction names with
  | nil => intro m r h; exact Or.inl h
  | cons n ns ih =>
    intro m r h
    rw [globNames] at h
    cases hm : Match pat n with
    | mk matched err =>
      rw [hm] at h
      cases err with
      | some e => exact Or.inl h
      | none =>
        simp only at h
        rcases ih _ r h with h1 | ⟨n', hn', h2, h3⟩
        · cases matched with
          | false => exact Or.inl (by simpa using h1)
          | true =>
            simp only [if_true] at h1
            rcases List.mem_append.mp h1 with h4 | h4
            · exact Or.inl h4
            · right
              exact ⟨n, List.mem_cons_self _ _, hm, List.mem_singleton.mp h4⟩
        · exact Or.inr ⟨n', List.mem_cons_of_mem _ hn', h2, h3⟩

theorem mem_sortStrings {names : List Str} {n : Str} (h : n ∈ sortStrings names) : n ∈ names :=
  (List.perm_insertionSort _ names).mem_iff.mp h

theorem glob_mem {σ : Type} (os : OS σ) (s : σ) (dir pat : Str) (m : List Str) (r : Str)
    (h : r ∈ (glob os s dir pat m).1) :
    r ∈ m ∨ ∃ n ∈ os.readDirNames s dir, Match pat n = (true, none) ∧ r = Join dir n := by
  unfold glob at h
  cases hs : os.stat s dir with
  | error e => rw [hs] at h; exact Or.inl h
  | ok fi =>
    rw [hs] at h
    simp only at h
    by_cases hd : fi.IsDir = false
    · rw [if_pos hd] at h; exact Or.inl h
    · rw [if_neg hd] at h
      cases ho : os.openRead s dir with
      | some e => rw [ho] at h; exact Or.inl h
      | none =>
        rw [ho] at h
        rcases globNames_mem dir pat _ m r h with h1 | ⟨n, hn, h2, h3⟩
        · exact Or.inl h1
        · exact Or.inr ⟨n, mem_sortStrings hn, h2, h3⟩

theorem globDirs_mem {σ : Type} (os : OS σ) (s : σ) (file : Str) :
    ∀ (ds m : List Str) (r : Str), r ∈ (globDirs os s file ds m).1 →
      r ∈ m ∨ ∃ d ∈ ds, ∃ n ∈ os.readDirNames s d, Match file n = (true, none) ∧ r = Join d n := by
  intro ds
  induction ds with
  | nil => intro m r h; exact Or.inl h
  | cons d ds ih =>
    intro m r h
    rw [globDirs] at h
    cases hg : glob os s d file m with
    | mk m1 err =>
      rw [hg] at h
      have hm1 : ∀ x ∈ m1, x ∈ m ∨ ∃ n ∈ os.readDirNames s d,
          Match file n = (true, none) ∧ x = Join d n := by
        intro x hx
        exact glob_mem os s d file m x (by rw [hg]; exact hx)
      have hfrom : r ∈ m1 → r ∈ m ∨ ∃ d' ∈ d :: ds, ∃ n ∈ os.readDirNames s d',
          Match file n = (true, none) ∧ r = Join d' n := by
        intro hr
        rcases hm1 r hr with h1 | ⟨n, hn, h2, h3⟩
        · exact Or.inl h1
        · exact Or.inr ⟨d, List.mem_cons_self _ _, n, hn, h2, h3⟩
      cases err with
      | some e => exact hfrom h
      | none =>
        simp only at h
        rcases ih m1 r h with h1 | ⟨d', hd', n, hn, h2, h3⟩
        · exact hfrom h1
        · exact Or.inr ⟨d', List.mem_cons_of_mem _ hd', n, hn, h2, h3⟩

theorem rep_ne_nil_of_ne_nil (rooted : Bool) {M : List Str} (hM : ∀ x ∈ M, x ≠ []) (h : M ≠ []) :
    rep rooted M ≠ [] := by
  have := rep_length_lt rooted [] M (by simp) hM h
  intro h0
  rw [List.nil_append, h0] at this
  simp at this

/-- Splitting a cleaned path at its last separator gives its last element and,
once `cleanGlobPath` has run, the cleaned path of the elements before. -/
theorem split_canon_snoc {rooted : Bool} {k : Nat} {es : List Str} {e P : Str}
    (h : Canon rooted k (es ++ [e]) P) :
    (Split P).2 = e ∧ Canon rooted k es (cleanGlobPath (Split P).1) := by
  have hes : ∀ x ∈ es, NormalSeg x := fun x hx => h.1 x (by simp [hx])
  have he : NormalSeg e := h.1 e (by simp)
  have hne := dots_ne_nil_of_mem (k := k) hes
  have hP : P = appendElem rooted (rep rooted (List.replicate k ['.', '.'] ++ es)) e := by
    have h1 := h.2.2
    have h2 : rep rooted (List.replicate k ['.', '.'] ++ (es ++ [e])) ≠ [] :=
      rep_ne_nil_of_ne_nil rooted (dots_ne_nil_of_mem h.1) (by simp)
    rw [if_neg h2, ← List.append_assoc, rep_snoc rooted hne] at h1
    exact h1
  by_cases hM : List.replicate k ['.', '.'] ++ es = []
  · have hns : ¬ needSlash rooted (rep rooted (List.replicate k ['.', '.'] ++ es)).length = true := by
      rw [needSlash_rep rooted hne]; simpa using hM
    have hP' : P = rep rooted [] ++ e := by
      rw [hP]; unfold appendElem; rw [if_neg hns, hM]
    cases rooted with
    | true =>
      have e1 : rep true [] = ['/'] := rfl
      rw [e1] at hP'
      have hsb := scanBack_elem ['/'] e he.2.1 (Or.inr ⟨[], rfl⟩)
      rw [← hP'] at hsb
      have hs1 : (Split P).1 = ['/'] := by
        show P.take _ = _
        rw [hsb, hP']; rfl
      have hs2 : (Split P).2 = e := by
        show P.drop _ = _
        rw [hsb, hP']; rfl
      refine ⟨hs2, hes, h.2.1, ?_⟩
      rw [hs1, hM]
      rfl
    | false =>
      have e1 : rep false [] = [] := rfl
      rw [e1, List.nil_append] at hP'
      have hsb := scanBack_elem [] e he.2.1 (Or.inl rfl)
      rw [List.nil_append, ← hP'] at hsb
      have hs1 : (Split P).1 = [] := by
        show P.take _ = _
        rw [hsb]; rfl
      have hs2 : (Split P).2 = e := by
        show P.drop _ = _
        rw [hsb, hP']; rfl
      refine ⟨hs2, hes, h.2.1, ?_⟩
      rw [hs1, hM]
      rfl
  · have hns : needSlash rooted (rep rooted (List.replicate k ['.', '.'] ++ es)).length = true :=
      (needSlash_rep rooted hne).mpr hM
    have hrep := rep_ne_nil_of_ne_nil rooted hne hM
    have hP' : P = (rep rooted (List.replicate k ['.', '.'] ++ es) ++ ['/']) ++ e := by
      rw [hP]; unfold appendElem; rw [if_pos hns]
    have hsb := scanBack_elem (rep rooted (List.replicate k ['.', '.'] ++ es) ++ ['/']) e he.2.1
      (Or.inr ⟨_, rfl⟩)
    rw [← hP'] at hsb
    have hs1 : (Split P).1 = rep rooted (List.replicate k ['.', '.'] ++ es) ++ ['/'] := by
      show P.take _ = _
      rw [hsb, hP', List.take_left']
      rfl
    have hs2 : (Split P).2 = e := by
      show P.drop _ = _
      rw [hsb, hP', List.drop_left']
      rfl
    refine ⟨hs2, hes, h.2.1, ?_⟩
    rw [hs1, if_neg hrep]
    unfold cleanGlobPath
    have h1 : rep rooted (List.replicate k ['.', '.'] ++ es) ++ ['/'] ≠ [] := by simp
    have h2 : rep rooted (List.replicate k ['.', '.'] ++ es) ++ ['/'] ≠ ['/'] := by
      intro h0
      apply hrep
      have := congrArg List.length h0
      simp at this
      exact this
    rw [if_neg h1, if_neg h2]
    simp

theorem mem_slashJoin {M : List Str} {c : Char} (h : c ∈ slashJoin M) :
    c = '/' ∨ ∃ e ∈ M, c ∈ e := by
  induction M with
  | nil => simp [slashJoin] at h
  | cons e M ih =>
    simp only [slashJoin, List.cons_append, List.mem_cons, List.mem_append] at h
    rcases h with h | h | h
    · exact Or.inl h
    · exact Or.inr ⟨e, List.mem_cons_self _ _, h⟩
    · rcases ih h with h1 | ⟨e', he', h1⟩
      · exact Or.inl h1
      · exact Or.inr ⟨e', List.mem_cons_of_mem _ he', h1⟩

theorem mem_slashJoin_of_mem {M : List Str} {e : Str} {c : Char} (he : e ∈ M) (hc : c ∈ e) :
    c ∈ slashJoin M := by
  induction M with
  | nil => simp at he
  | cons e' M ih =>
    simp only [slashJoin, List.cons_append, List.mem_cons, List.mem_append]
    rcases List.mem_cons.mp he with h | h
    · subst h; exact Or.inr (Or.inl hc)
    · exact Or.inr (Or.inr (ih h))

theorem mem_rep {rooted : Bool} {M : List Str} {c : Char} (h : c ∈ rep rooted M) :
    c = '/' ∨ ∃ e ∈ M, c ∈ e := by
  unfold rep at h
  cases rooted with
  | true =>
    simp only [if_true] at h
    by_cases hM : M = []
    · rw [if_pos hM] at h
      exact Or.inl (by simpa using h)
    · rw [if_neg hM] at h
      exact mem_slashJoin h
  | false =>
    simp only [Bool.false_eq_true, if_false] at h
    exact mem_slashJoin (List.mem_of_mem_tail h)

theorem mem_rep_of_mem {rooted : Bool} {M : List Str} {e : Str} {c : Char}
    (hM : ∀ x ∈ M, ∀ y ∈ x, y ≠ '/') (he : e ∈ M) (hc : c ∈ e) : c ∈ rep rooted M := by
  have h1 : c ∈ slashJoin M := mem_slashJoin_of_mem he hc
  have hne : M ≠ [] := List.ne_nil_of_mem he
  unfold rep
  cases rooted with
  | true => simp only [if_true, if_neg hne]; exact h1
  | false =>
    simp only [Bool.false_eq_true, if_false]
    obtain ⟨e', M', rfl⟩ := List.exists_cons_of_ne_nil hne
    simp only [slashJoin, List.cons_append, List.tail_cons]
    simp only [slashJoin, List.cons_append, List.mem_cons] at h1
    rcases h1 with h2 | h2
    · exact absurd h2 (hM e he c hc)
    · exact h2

theorem canon_seg_chars {rooted : Bool} {k : Nat} {es : List Str} {p : Str}
    (h : Canon rooted k es p) {x : Str} (hx : x ∈ es) {c : Char} (hc : c ∈ x) : c ∈ p := by
  have hall := canon_elems (k := k) h.1
  have hne : List.replicate k ['.', '.'] ++ es ≠ [] := by
    intro h0
    have : x ∈ List.replicate k ['.', '.'] ++ es := List.mem_append_right _ hx
    rw [h0] at this
    simp at this
  have hrep := rep_ne_nil_of_ne_nil rooted (fun y hy => (hall y hy).1) hne
  rw [h.2.2, if_neg hrep]
  exact mem_rep_of_mem (fun y hy => (hall y hy).2.1) (List.mem_append_right _ hx) hc

theorem canon_meta_es_ne_nil {rooted : Bool} {k : Nat} {es : List Str} {p : Str}
    (h : Canon rooted k es p) (hm : hasMeta p = true) : es ≠ [] := by
  intro h0
  subst h0
  have hno : hasMeta p = false := by
    rw [hasMeta_false_iff]
    intro c hc
    have hc' : c = '/' ∨ c = '.' := by
      rw [h.2.2] at hc
      split_ifs at hc
      · right; simpa using hc
      · rcases mem_rep hc with h1 | ⟨e, he, h1⟩
        · exact Or.inl h1
        · right
          rw [List.append_nil] at he
          rw [(List.mem_replicate.mp he).2] at h1
          simpa using h1
    rcases hc' with h1 | h1 <;> subst h1 <;> decide
  rw [hno] at hm
  simp at hm

theorem segMatch_self_of_no_meta {es : List Str} (h : ∀ x ∈ es, hasMeta x = false) :
    List.Forall₂ SegMatch es es := by
  induction es with
  | nil => exact List.Forall₂.nil
  | cons x es ih =>
    exact List.Forall₂.cons (segMatch_self x (h x (List.mem_cons_self _ _)))
      (ih (fun y hy => h y (List.mem_cons_of_mem _ hy)))

theorem hasMeta_seg_false {rooted : Bool} {k : Nat} {es : List Str} {p : Str}
    (h : Canon rooted k es p) (hm : hasMeta p = false) : ∀ x ∈ es, hasMeta x = false := by
  intro x hx
  rw [hasMeta_false_iff] at hm ⊢
  intro c hc
  exact hm c (canon_seg_chars h hx hc)

/-- The step of `glob`: a name of the directory listing joined to a cleaned
directory path. -/
theorem join_canon_name {rooted : Bool} {k : Nat} {es : List Str} {d n : Str}
    (h : Canon rooted k es d) (hn : NormalSeg n) :
    Canon rooted k (es ++ [n]) (Join d n) := by
  rw [Join_of_ne_nil _ _ (canon_ne_nil h)]
  exact (Clean_canon_elem h n hn).2

theorem globWithLimit_shape {σ : Type} (os : OS σ) (s : σ)
    (hnames : ∀ dir, ∀ n ∈ os.readDirNames s dir, NormalSeg n) :
    ∀ (left : Nat) (rooted : Bool) (k : Nat) (es : List Str) (P : Str),
      Canon rooted k es P → hasMeta P = true →
      ∀ r ∈ (globWithLimit os s left P).1,
        ∃ es_r, Canon rooted k es_r r ∧ List.Forall₂ SegMatch es es_r := by
  intro left
  induction left with
  | zero =>
    intro rooted k es P _ _ r hr
    simp [globWithLimit] at hr
  | succ left ih =>
    intro rooted k es P hP hmeta r hr
    obtain ⟨es', e, rfl⟩ : ∃ es' e, es = es' ++ [e] := by
      rcases List.eq_nil_or_concat es with h | ⟨L, b, h⟩
      · exact absurd h (canon_meta_es_ne_nil hP hmeta)
      · exact ⟨L, b, by simpa using h⟩
    obtain ⟨hfile, hdir⟩ := split_canon_snoc hP
    rw [globWithLimit] at hr
    cases hwf : (Match P []).2 with
    | some err => rw [hwf] at hr; simp at hr
    | none =>
      rw [hwf] at hr
      simp only [hmeta, Bool.true_eq_false, if_false, hfile] at hr
      by_cases hdm : hasMeta (cleanGlobPath (Split P).1) = false
      · rw [if_pos hdm] at hr
        rcases glob_mem os s _ e [] r hr with h1 | ⟨n, hn, hmatch, hrn⟩
        · simp at h1
        · refine ⟨es' ++ [n], ?_, ?_⟩
          · rw [hrn]; exact join_canon_name hdir (hnames _ n hn)
          · exact List.rel_append (segMatch_self_of_no_meta (hasMeta_seg_false hdir hdm))
              (List.Forall₂.cons (Match_sound e n (hnames _ n hn).2.1 hmatch) List.Forall₂.nil)
      · rw [if_neg hdm] at hr
        have hdm' : hasMeta (cleanGlobPath (Split P).1) = true := by simpa using hdm
        by_cases heq : cleanGlobPath (Split P).1 = P
        · rw [if_pos heq] at hr; simp at hr
        · rw [if_neg heq] at hr
          cases hrec : globWithLimit os s left (cleanGlobPath (Split P).1) with
          | mk m err =>
            rw [hrec] at hr
            cases err with
            | some e' => simp at hr
            | none =>
              simp only at hr
              rcases globDirs_mem os s e m [] r hr with h1 | ⟨d, hd, n, hn, hmatch, hrn⟩
              · simp at h1
              · obtain ⟨es_d, hcd, hfd⟩ := ih rooted k es' _ hdir hdm' d (by rw [hrec]; exact hd)
                refine ⟨es_d ++ [n], ?_, ?_⟩
                · rw [hrn]; exact join_canon_name hcd (hnames _ n hn)
                · exact List.rel_append hfd
                    (List.Forall₂.cons (Match_sound e n (hnames _ n hn).2.1 hmatch) List.Forall₂.nil)

theorem mem_of_mem_splitOnP (p : Char → Bool) :
    ∀ (xs : Str) (seg : Str), seg ∈ xs.splitOnP p → ∀ c ∈ seg, c ∈ xs := by
  intro xs
  induction xs with
  | nil =>
    intro seg hseg c hc
    simp at hseg
    rw [hseg] at hc
    simp at hc
  | cons x xs ih =>
    intro seg hseg c hc
    rw [List.splitOnP_cons] at hseg
    by_cases hp : p x = true
    · rw [if_pos hp] at hseg
      rcases List.mem_cons.mp hseg with h | h
      · rw [h] at hc; simp at hc
      · exact List.mem_cons_of_mem _ (ih seg h c hc)
    · rw [if_neg hp] at hseg
      cases hsp : xs.splitOnP p with
      | nil => exact absurd hsp (List.splitOnP_ne_nil _ _)
      | cons hd tl =>
        rw [hsp] at hseg
        simp only [List.modifyHead_cons, List.mem_cons] at hseg
        rcases hseg with h | h
        · rw [h] at hc
          rcases List.mem_cons.mp hc with h1 | h1
          · rw [h1]; exact List.mem_cons_self _ _
          · exact List.mem_cons_of_mem _ (ih hd (by rw [hsp]; exact List.mem_cons_self _ _) c h1)
        · exact List.mem_cons_of_mem _ (ih seg (by rw [hsp]; exact List.mem_cons_of_mem _ h) c hc)

theorem segments_self_match (P : Str) (h : hasMeta P = false) :
    List.Forall₂ SegMatch (segments P) (segments P) := by
  apply segMatch_self_of_no_meta
  intro seg hseg
  rw [hasMeta_false_iff] at h ⊢
  intro c hc
  exact h c (mem_of_mem_splitOnP _ P seg hseg c hc)

theorem segments_canon {rooted : Bool} {k : Nat} {es : List Str} {p : Str}
    (h : Canon rooted k es p) (hes : es ≠ []) :
    segments p = (if rooted = true then [[]] else []) ++ (List.replicate k ['.', '.'] ++ es) := by
  have hE := h.1
  have hall := canon_elems (k := k) hE
  rcases canon_cases h with ⟨hr, hp⟩ | ⟨hr, hp, h0⟩ | ⟨hr, hp⟩ | ⟨hr, e, M, hM, hp⟩
  · exfalso
    subst hr
    have hk0 : k = 0 := h.2.1 rfl
    subst hk0
    have := h.2.2
    rw [hp, List.replicate_zero, List.nil_append, if_neg
      (rep_ne_nil_of_ne_nil true (fun x hx => (hE x hx).1) hes)] at this
    have h2 := slashJoin_length_ge (fun x hx => (hE x hx).1) hes
    simp only [rep, if_true, if_neg hes] at this
    rw [← this] at h2
    simp at h2
  · subst hr
    have hk0 : k = 0 := h.2.1 rfl
    subst hk0
    have := splitOn_append_slashJoin es (fun x hx => (hE x hx).2.1) [] (by simp)
    rw [List.nil_append] at this
    rw [segments, hp, this]
    simp
  · exfalso
    subst hr
    have := h.2.2
    have hne : List.replicate k ['.', '.'] ++ es ≠ [] := by simp [hes]
    rw [hp, if_neg (rep_ne_nil_of_ne_nil false (fun x hx => (hall x hx).1) hne)] at this
    obtain ⟨x, hx⟩ := List.exists_mem_of_ne_nil _ hes
    have hx1 := hE x hx
    obtain ⟨c, hc⟩ := List.exists_mem_of_ne_nil _ hx1.1
    have hmem : c ∈ rep false (List.replicate k ['.', '.'] ++ es) :=
      mem_rep_of_mem (fun y hy => (hall y hy).2.1) (List.mem_append_right _ hx) hc
    rw [← this] at hmem
    have hcd : c = '.' := by simpa using hmem
    -- the path `.` has one element, which would be `.`
    have hlen : (rep false (List.replicate k ['.', '.'] ++ es)).length = 1 := by
      rw [← this]; rfl
    have hk0 : k = 0 := by
      cases k with
      | zero => rfl
      | succ k =>
        exfalso
        have h1 := rep_length_le false [['.', '.']] (List.replicate k ['.', '.'] ++ es)
        rw [List.replicate_succ] at hlen
        have e2 : [['.', '.']] ++ (List.replicate k ['.', '.'] ++ es)
            = ['.', '.'] :: List.replicate k ['.', '.'] ++ es := by simp
        rw [e2, hlen] at h1
        simp [rep, slashJoin] at h1
    subst hk0
    rw [List.replicate_zero, List.nil_append] at this
    obtain ⟨e, M, rfl⟩ := List.exists_cons_of_ne_nil hes
    have he := hE e (List.mem_cons_self _ _)
    simp only [rep, Bool.false_eq_true, if_false, slashJoin, List.cons_append, List.tail_cons]
      at this
    have h3 := congrArg List.length this
    simp only [List.length_cons, List.length_nil, List.length_append] at h3
    have h4 : 0 < e.length := List.length_pos.mpr he.1
    have h5 : (slashJoin M).length = 0 := by omega
    have h6 : e.length = 1 := by omega
    have h7 : slashJoin M = [] := List.length_eq_zero.mp h5
    rw [h7, List.append_nil] at this
    exact he.2.2.1 this.symm
  · subst hr
    rw [hM] at hall
    have := splitOn_append_slashJoin M
      (fun x hx => (hall x (List.mem_cons_of_mem _ hx)).2.1) e (hall e (List.mem_cons_self _ _)).2.1
    rw [segments, hp, this, hM]
    simp

theorem Join_canon_or_nil (a b : Str) :
    Join a b = [] ∨ ∃ rooted k es, Canon rooted k es (Join a b) := by
  unfold Join
  by_cases ha : a ≠ []
  · rw [if_pos ha]; exact Or.inr (Clean_canon _)
  · rw [if_neg ha]
    by_cases hb : b ≠ []
    · rw [if_pos hb]; exact Or.inr (Clean_canon _)
    · rw [if_neg hb]; exact Or.inl rfl

theorem globWithLimit_no_meta {σ : Type} (os : OS σ) (s : σ) (left : Nat) (P : Str)
    (h : hasMeta P = false) : ∀ r ∈ (globWithLimit os s left P).1, r = P := by
  intro r hr
  cases left with
  | zero => simp [globWithLimit] at hr
  | succ left =>
    rw [globWithLimit] at hr
    cases hwf : (Match P []).2 with
    | some err => rw [hwf] at hr; simp at hr
    | none =>
      rw [hwf] at hr
      simp only [h, if_true] at hr
      cases hl : os.lstat s P with
      | error e => rw [hl] at hr; simp at hr
      | ok fi => rw [hl] at hr; simpa using hr

/-- Every path `filepath.Glob` returns for a cleaned pattern (or one without
metacharacters) has the segments of the pattern, each matched. -/
theorem filepathGlob_segments {σ : Type} (os : OS σ) (s : σ)
    (hnames : ∀ dir, ∀ n ∈ os.readDirNames s dir, NormalSeg n) (left : Nat) (P : Str)
    (hP : P = [] ∨ ∃ rooted k es, Canon rooted k es P) :
    ∀ r ∈ (globWithLimit os s left P).1, List.Forall₂ SegMatch (segments P) (segments r) := by
  intro r hr
  by_cases hm : hasMeta P = false
  · rw [globWithLimit_no_meta os s left P hm r hr]
    exact segments_self_match P hm
  · have hm' : hasMeta P = true := by simpa using hm
    rcases hP with h0 | ⟨rooted, k, es, hc⟩
    · subst h0
      exact absurd rfl hm
    · obtain ⟨es_r, hcr, hf⟩ := globWithLimit_shape os s hnames left rooted k es P hc hm' r hr
      have hes := canon_meta_es_ne_nil hc hm'
      have hes_r : es_r ≠ [] := by
        intro h0
        subst h0
        cases hf
        exact hes rfl
      rw [segments_canon hc hes, segments_canon hcr hes_r]
      apply List.rel_append
      · cases rooted
        · exact List.Forall₂.nil
        · exact List.Forall₂.cons PatMatch.done List.Forall₂.nil
      · apply List.rel_append _ hf
        apply segMatch_self_of_no_meta
        intro x hx
        rw [(List.mem_replicate.mp hx).2]
        rfl

theorem simTree_names : ∀ dir, ∀ n ∈ simOS.readDirNames simTree dir, NormalSeg n := by
  intro dir n hn
  have h2 : ∀ e ∈ simTree.files, Dir e.1 ≠ e.1 → NormalSeg (Base e.1) := by decide
  simp only [simOS, List.mem_map] at hn
  obtain ⟨a, ha, rfl⟩ := hn
  have ha' := List.mem_filter.mp ha
  apply h2 a ha'.1
  have h3 := ha'.2
  simp only [Bool.and_eq_true, decide_eq_true_eq] at h3
  rw [h3.1]
  exact fun h => h3.2 h.symm

theorem isHexDigit_digitChar (k : Nat) (h : k < 16) : isHexDigit (Nat.digitChar k) = true := by
  interval_cases k <;> decide

theorem toDigitsCore_hex :
    ∀ (fuel n : Nat) (ds : Str), (∀ c ∈ ds, isHexDigit c = true) →
      ∀ c ∈ Nat.toDigitsCore 16 fuel n ds, isHexDigit c = true := by
  intro fuel
  induction fuel with
  | zero => intro n ds h; simpa [Nat.toDigitsCore] using h
  | succ f ih =>
    intro n ds h
    have hd : ∀ c ∈ Nat.digitChar (n % 16) :: ds, isHexDigit c = true := by
      intro c hc
      rcases List.mem_cons.mp hc with h1 | h1
      · rw [h1]; exact isHexDigit_digitChar _ (Nat.mod_lt _ (by decide))
      · exact h c h1
    rw [Nat.toDigitsCore]
    split_ifs
    · exact hd
    · exact ih _ _ hd

theorem toDigitsCore_length :
    ∀ (j fuel n : Nat) (ds : Str), 16 ^ j ≤ n → n < fuel →
      ds.length + j + 1 ≤ (Nat.toDigitsCore 16 fuel n ds).length := by
  intro j
  induction j with
  | zero =>
    intro fuel n ds _ hf
    obtain ⟨f, rfl⟩ : ∃ f, fuel = f + 1 := ⟨fuel - 1, by omega⟩
    rw [Nat.toDigitsCore]
    split_ifs with h0
    · simp
    · have hmono : ∀ (f m : Nat) (es : Str), es.length ≤ (Nat.toDigitsCore 16 f m es).length := by
        intro f
        induction f with
        | zero => intro m es; simp [Nat.toDigitsCore]
        | succ f ihf =>
          intro m es
          rw [Nat.toDigitsCore]
          split_ifs
          · simp
          · have := ihf (m / 16) (Nat.digitChar (m % 16) :: es)
            simp at this
            omega
      have := hmono f (n / 16) (Nat.digitChar (n % 16) :: ds)
      simp at this ⊢
      omega
  | succ j ih =>
    intro fuel n ds hn hf
    obtain ⟨f, rfl⟩ : ∃ f, fuel = f + 1 := ⟨fuel - 1, by omega⟩
    have h16 : 16 ^ j ≤ n / 16 := by
      rw [Nat.le_div_iff_mul_le (by decide)]
      rw [pow_succ] at hn
      exact hn
    have hpos : 0 < 16 ^ j := Nat.pow_pos (by decide)
    have h0 : ¬ n / 16 = 0 := by omega
    have hlt : n / 16 < f := by
      have : n / 16 < n := Nat.div_lt_self (by omega) (by decide)
      omega
    rw [Nat.toDigitsCore]
    simp only [if_neg h0]
    have := ih f (n / 16) (Nat.digitChar (n % 16) :: ds) h16 hlt
    simp at this ⊢
    omega

/-- The hexadecimal digits of every number are hexadecimal digits. -/
theorem hexDigits_hex (n : Nat) : ∀ c ∈ hexDigits n, isHexDigit c = true :=
  toDigitsCore_hex (n + 1) n [] (by simp)

/-- A number of at least `16 ^ 7` has at least eight hexadecimal digits. -/
theorem hexDigits_length (n : Nat) (h : 16 ^ 7 ≤ n) : 8 ≤ (hexDigits n).length := by
  have := toDigitsCore_length 7 (n + 1) n [] h (by omega)
  simpa using this

theorem sprintf8x_large (n : Nat) (h : 16 ^ 7 ≤ n) : sprintf8x n = hexDigits n := by
  unfold sprintf8x
  have := hexDigits_length n h
  have h0 : 8 - (hexDigits n).length = 0 := by omega
  rw [h0]
  rfl

theorem toDigitsCore_length_le :
    ∀ (j fuel n : Nat) (ds : Str), n < 16 ^ (j + 1) →
      (Nat.toDigitsCore 16 fuel n ds).length ≤ ds.length + j + 1 := by
  intro j
  induction j with
  | zero =>
    intro fuel n ds hn
    cases fuel with
    | zero => simp [Nat.toDigitsCore]
    | succ f =>
      have h0 : n / 16 = 0 := by
        rw [Nat.div_eq_zero_iff (by decide)]
        simpa using hn
      rw [Nat.toDigitsCore]
      simp [h0]
  | succ j ih =>
    intro fuel n ds hn
    cases fuel with
    | zero => simp [Nat.toDigitsCore]; omega
    | succ f =>
      rw [Nat.toDigitsCore]
      split_ifs with h0
      · simp
      · have h16 : n / 16 < 16 ^ (j + 1) := by
          rw [Nat.div_lt_iff_lt_mul (by decide)]
          rw [pow_succ] at hn
          exact hn
        have := ih f (n / 16) (Nat.digitChar (n % 16) :: ds) h16
        simp at this ⊢
        omega

/-- A number below `16 ^ 7` is printed by `%8x` with a leading space. -/
theorem sprintf8x_small (n : Nat) (h : n < 16 ^ 7) : (sprintf8x n).head? = some ' ' := by
  have hl : (hexDigits n).length ≤ 7 := by
    have := toDigitsCore_length_le 6 (n + 1) n [] h
    simpa using this
  unfold sprintf8x
  obtain ⟨k, hk⟩ : ∃ k, 8 - (hexDigits n).length = k + 1 := ⟨7 - (hexDigits n).length, by omega⟩
  rw [hk, List.replicate_succ]
  rfl

theorem run_dotdot (rooted : Bool) (st : CleanState) :
    run rooted ['.', '.'] st =
      if st.dotdot < st.out.length then
        ⟨st.out.take (backtrackLoop st.out st.dotdot (st.out.length - 1)), st.dotdot⟩
      else if rooted = false then ⟨appendDotDot st.out, (appendDotDot st.out).length⟩
      else st := by
  rw [run_cons]
  simp [run_nil]

theorem stackRep_step (rooted : Bool) (M : List Str) (st : CleanState) (e : Str)
    (he : ∀ c ∈ e, c ≠ '/') (h : StackRep rooted M st) :
    StackRep rooted (cleanStep rooted M e) (run rooted e st) := by
  unfold cleanStep
  by_cases h1 : e = [] ∨ e = ['.']
  · rw [if_pos h1]
    rcases h1 with h1 | h1
    · rw [h1, run_nil]; exact h
    · rw [h1, run_dot]; exact h
  rw [if_neg h1]
  obtain ⟨k, es, hM, hes, hk, hout, hdd⟩ := h
  have hne := dots_ne_nil_of_mem (k := k) hes
  by_cases h2 : e = ['.', '.']
  · rw [if_pos h2, h2, run_dotdot]
    by_cases h4 : st.dotdot < st.out.length
    · rw [if_pos h4]
      have hes_ne : es ≠ [] := by
        intro h0
        rw [hout, hdd, hM, h0] at h4
        simp at h4
      obtain ⟨es', x, rfl⟩ : ∃ es' x, es = es' ++ [x] := by
        rcases List.eq_nil_or_concat es with h | ⟨B', x, h⟩
        · exact absurd h hes_ne
        · exact ⟨B', x, by simpa using h⟩
      have hes' : ∀ y ∈ es', NormalSeg y := fun y hy => hes y (by simp [hy])
      have hx : NormalSeg x := hes x (by simp)
      have hMne : M ≠ [] := by rw [hM]; simp
      have hlast : M.getLast? ≠ some ['.', '.'] := by
        rw [hM, ← List.append_assoc, List.getLast?_concat]
        intro h0
        exact hx.2.2.2 (Option.some.inj h0)
      have hdrop : M.dropLast = List.replicate k ['.', '.'] ++ es' := by
        rw [hM, ← List.append_assoc, List.dropLast_concat]
      rw [if_neg hMne, if_neg hlast, hdrop]
      refine ⟨k, es', rfl, hes', hk, ?_, hdd⟩
      show st.out.take (backtrackLoop st.out st.dotdot (st.out.length - 1)) = _
      rw [hout, hdd, hM, ← List.append_assoc]
      apply backtrack_rep rooted _ _ x (dots_ne_nil_of_mem hes') _ hx.1 hx.2.1
      intro hr
      rw [hk hr]; rfl
    · rw [if_neg h4]
      have hes_nil : es = [] := by
        by_contra h0
        have := rep_length_lt rooted (List.replicate k ['.', '.']) es
          (fun x hx => by rw [(List.mem_replicate.mp hx).2]; simp) (fun x hx => (hes x hx).1) h0
        rw [← hM, ← hout, ← hdd] at this
        exact h4 this
      subst hes_nil
      rw [List.append_nil] at hM
      have hstack : (if M = [] then (if rooted = true then [] else [['.', '.']])
          else if M.getLast? = some ['.', '.'] then M ++ [['.', '.']] else M.dropLast) =
          if rooted = true then [] else List.replicate (k + 1) ['.', '.'] := by
        cases k with
        | zero =>
          have : M = [] := by rw [hM]; rfl
          rw [if_pos this]
          rfl
        | succ k =>
          have hk0 : rooted ≠ true := fun hr => by have := hk hr; omega
          have hMne : M ≠ [] := by rw [hM]; simp [List.replicate_succ]
          have hlast : M.getLast? = some ['.', '.'] := by
            rw [hM, List.replicate_succ', List.getLast?_concat]
          rw [if_neg hMne, if_pos hlast, if_neg hk0, hM, ← List.replicate_succ']
      rw [hstack]
      by_cases h5 : rooted = false
      · rw [if_pos h5]
        subst h5
        simp only [Bool.false_eq_true, if_false]
        refine ⟨k + 1, [], by simp, by simp, by simp, ?_, ?_⟩
        · show appendDotDot st.out = _
          rw [appendDotDot_eq, hout, hM, List.replicate_succ',
            rep_snoc false (fun x hx => by rw [(List.mem_replicate.mp hx).2]; simp)]
        · show (appendDotDot st.out).length = _
          rw [appendDotDot_eq, hout, hM, List.replicate_succ',
            rep_snoc false (fun x hx => by rw [(List.mem_replicate.mp hx).2]; simp)]
      · rw [if_neg h5]
        have hr : rooted = true := by simpa using h5
        have hk0 := hk hr
        subst hk0
        rw [if_pos hr]
        refine ⟨0, [], by simp, by simp, by simp, ?_, hdd⟩
        rw [hout, hM]; rfl
  · rw [if_neg h2]
    have hseg : NormalSeg e := ⟨fun h0 => h1 (Or.inl h0), he, fun h0 => h1 (Or.inr h0), h2⟩
    rw [run_normalSeg rooted e hseg]
    refine ⟨k, es ++ [e], by rw [hM, List.append_assoc], ?_, hk, ?_, hdd⟩
    · intro x hx
      rcases List.mem_append.mp hx with h | h
      · exact hes x h
      · rw [List.mem_singleton.mp h]; exact hseg
    · show appendElem rooted st.out e = _
      rw [hout, rep_snoc rooted (by rw [hM]; exact hne)]

theorem stackRep_foldl (rooted : Bool) :
    ∀ (segs : List Str) (M : List Str) (st : CleanState), (∀ e ∈ segs, ∀ c ∈ e, c ≠ '/') →
      StackRep rooted M st →
      StackRep rooted (segs.foldl (cleanStep rooted) M)
        (segs.foldl (fun st e => run rooted e st) st) := by
  intro segs
  induction segs with
  | nil => intro M st _ h; exact h
  | cons e segs ih =>
    intro M st hs h
    rw [List.foldl_cons, List.foldl_cons]
    exact ih _ _ (fun x hx => hs x (List.mem_cons_of_mem _ hx))
      (stackRep_step rooted M st e (hs e (List.mem_cons_self _ _)) h)

theorem segments_ne_nil (s : Str) : segments s ≠ [] := by
  unfold segments List.splitOn
  exact List.splitOnP_ne_nil _ _

theorem slashJoin_segments_tail : ∀ (s : Str), (slashJoin (segments s)).tail = s := by
  intro s
  induction s with
  | nil => rfl
  | cons c t ih =>
    have hne := segments_ne_nil t
    unfold segments List.splitOn at *
    rw [List.splitOnP_cons]
    by_cases hc : (c == '/') = true
    · rw [if_pos hc]
      have : c = '/' := by simpa using hc
      subst this
      cases hs : List.splitOnP (fun x => x == '/') t with
      | nil => exact absurd hs hne
      | cons e es =>
        rw [hs] at ih
        simp only [slashJoin, List.nil_append, List.tail_cons] at ih ⊢
        simp only [List.cons_append, List.tail_cons] at ih ⊢
        rw [ih]
        try rfl
    · rw [if_neg hc]
      cases hs : List.splitOnP (fun x => x == '/') t with
      | nil => exact absurd hs hne
      | cons e es =>
        rw [hs] at ih
        simp only [slashJoin, List.tail_cons, List.modifyHead_cons, List.cons_append] at ih ⊢
        rw [ih]

theorem not_mem_of_mem_splitOnP (p : Char → Bool) :
    ∀ (xs : Str) (seg : Str), seg ∈ xs.splitOnP p → ∀ c ∈ seg, ¬ p c = true := by
  intro xs
  induction xs with
  | nil =>
    intro seg hseg c hc
    simp at hseg
    rw [hseg] at hc
    simp at hc
  | cons x xs ih =>
    intro seg hseg c hc
    rw [List.splitOnP_cons] at hseg
    by_cases hp : p x = true
    · rw [if_pos hp] at hseg
      rcases List.mem_cons.mp hseg with h | h
      · rw [h] at hc; simp at hc
      · exact ih seg h c hc
    · rw [if_neg hp] at hseg
      cases hs : List.splitOnP p xs with
      | nil => rw [hs] at hseg; simp at hseg
      | cons hd tl =>
        rw [hs] at hseg ih
        simp only [List.modifyHead_cons] at hseg
        rcases List.mem_cons.mp hseg with h | h
        · rw [h] at hc
          rcases List.mem_cons.mp hc with h2 | h2
          · rw [h2]; exact hp
          · exact ih hd (List.mem_cons_self _ _) c h2
        · exact ih seg (List.mem_cons_of_mem _ h) c hc

theorem segments_no_sep (s : Str) : ∀ e ∈ segments s, ∀ c ∈ e, c ≠ '/' := by
  intro e he c hc h0
  have := not_mem_of_mem_splitOnP (fun x => x == '/') s e he c hc
  simp [h0] at this

theorem run_segments (rooted : Bool) (s : Str) (st : CleanState) :
    run rooted s st = (segments s).foldl (fun st e => run rooted e st) st := by
  rw [← run_slashJoin_tail, slashJoin_segments_tail]

theorem intercalate_eq (M : List Str) : ['/'].intercalate M = (slashJoin M).tail := by
  induction M with
  | nil => rfl
  | cons e M ih =>
    cases M with
    | nil => simp [List.intercalate, slashJoin]
    | cons e' M' =>
      simp [List.intercalate, slashJoin] at ih ⊢
      exact ih

theorem stackRep_init (rooted : Bool) : StackRep rooted [] (cleanInit rooted) := by
  refine ⟨0, [], rfl, by simp, fun _ => rfl, ?_, ?_⟩ <;> cases rooted <;> simp [cleanInit, rep, slashJoin]

theorem stackRep_elems {rooted : Bool} {M : List Str} {st : CleanState}
    (h : StackRep rooted M st) : ∀ e ∈ M, e ≠ [] := by
  obtain ⟨k, es, hM, hes, _, _, _⟩ := h
  rw [hM]
  exact dots_ne_nil_of_mem hes

theorem out_rooted (M : List Str) :
    (if (rep true M).length = 0 then ['.'] else rep true M) = '/' :: (slashJoin M).tail := by
  cases M with
  | nil => simp [rep, slashJoin]
  | cons e M => simp [rep, slashJoin]

theorem out_unrooted (M : List Str) (hne : ∀ e ∈ M, e ≠ []) :
    (if (rep false M).length = 0 then ['.'] else rep false M) =
      if M = [] then ['.'] else (slashJoin M).tail := by
  cases M with
  | nil => simp [rep, slashJoin]
  | cons e M =>
    have := hne e (List.mem_cons_self _ _)
    simp [rep, slashJoin, this]

/-- The loop of `path.Clean` computes the lexically cleaned form. -/
theorem Clean_eq_specClean (s : Str) : Clean s = specClean s := by
  cases s with
  | nil => rfl
  | cons c t =>
    by_cases hc : c = '/'
    · subst hc
      have hrun : run true t (cleanInit true) = run true ('/' :: t) (cleanInit true) := by
        rw [run_cons, if_pos rfl]
      rw [Clean_rooted, hrun, run_segments]
      have h := stackRep_foldl true (segments ('/' :: t)) [] _ (segments_no_sep _)
        (stackRep_init true)
      obtain ⟨k, es, hM, hes, hk, hout, hdd⟩ := h
      rw [hout, out_rooted]
      unfold specClean
      simp only [List.head?_cons, if_true, intercalate_eq, decide_True]
    · have hh : (c :: t).head? ≠ some '/' := by simpa using hc
      rw [Clean_unrooted _ (List.cons_ne_nil _ _) hh, run_segments]
      have h := stackRep_foldl false (segments (c :: t)) [] _ (segments_no_sep _)
        (stackRep_init false)
      have hne := stackRep_elems h
      obtain ⟨k, es, hM, hes, hk, hout, hdd⟩ := h
      rw [hout, out_unrooted _ hne]
      unfold specClean
      have hd : decide ((c :: t).head? = some '/') = false := by simpa using hc
      simp only [intercalate_eq, hd, if_neg hh]

theorem Clean_of_canon {rooted : Bool} {k : Nat} {es : List Str} {p : Str}
    (h : Canon rooted k es p) : Clean p = p := by
  obtain ⟨c, t, hp, hc⟩ := canon_head h
  have hrun := run_canon h
  by_cases h1 : c = '/'
  · have hr : rooted = true := by rw [← hc]; simp [h1]
    subst hr
    subst h1
    rw [hp] at hrun ⊢
    simp only [if_true, List.tail_cons] at hrun
    rw [Clean_rooted, hrun]
    simp only
    rw [← hp, h.2.2]
    simp only [List.length_eq_zero]
  · have hr : rooted = false := by rw [← hc]; simp [h1]
    subst hr
    rw [hp] at hrun ⊢
    simp only [Bool.false_eq_true, if_false] at hrun
    rw [Clean_unrooted _ (List.cons_ne_nil _ _) (by simpa using h1), hrun]
    simp only
    rw [← hp, h.2.2]
    simp only [List.length_eq_zero]

/-- Cleaning a cleaned path changes nothing. -/
theorem Clean_idem (s : Str) : Clean (Clean s) = Clean s := by
  obtain ⟨rooted, k, es, h⟩ := Clean_canon s
  exact Clean_of_canon h

theorem Clean_rooted_head (t : Str) : ∃ u, Clean ('/' :: t) = '/' :: u := by
  rw [Clean_rooted]
  obtain ⟨k, es, hes, hk, hout, hdd⟩ := cleanInv_run true t _ (cleanInv_init true)
  rw [hout, out_rooted]
  exact ⟨_, rfl⟩

theorem Clean_slash_rooted (t : Str) : Clean ('/' :: '/' :: t) = Clean ('/' :: t) := by
  rw [Clean_rooted, Clean_rooted, run_cons, if_pos rfl]

theorem Proc.cwd_rooted (s : Proc) : ∃ u, s.cwd = '/' :: u := Clean_rooted_head _

theorem Proc.cwd_clean (s : Proc) : Clean s.cwd = s.cwd := Clean_idem _

theorem Proc.resolve_rooted (s : Proc) (p : Str) : ∃ u, s.resolve p = '/' :: u := by
  unfold Proc.resolve
  by_cases h : p.head? = some '/'
  · rw [if_pos h]
    cases p with
    | nil => simp at h
    | cons c t =>
      simp at h
      subst h
      exact Clean_rooted_head _
  · rw [if_neg h]
    obtain ⟨u, hu⟩ := s.cwd_rooted
    rw [hu]
    exact Clean_rooted_head _

theorem Proc.resolve_clean (s : Proc) (p : Str) : Clean (s.resolve p) = s.resolve p := by
  unfold Proc.resolve
  split_ifs <;> exact Clean_idem _

/-- Entering a directory makes it the working directory. -/
theorem Proc.cwd_enter (s t : Proc) (p : Str) :
    Proc.cwd { t with wd := s.resolve p } = s.resolve p := by
  obtain ⟨u, hu⟩ := s.resolve_rooted p
  show Clean ('/' :: s.resolve p) = s.resolve p
  have h := s.resolve_clean p
  rw [hu] at h ⊢
  rw [Clean_slash_rooted, h]

/-- The working directory resolves to itself. -/
theorem Proc.resolve_cwd (s t : Proc) : t.resolve s.cwd = s.cwd := by
  obtain ⟨u, hu⟩ := s.cwd_rooted
  unfold Proc.resolve
  rw [if_pos (by rw [hu]; rfl), s.cwd_clean]

theorem procOS_chdir_ok (s : Proc) (p : Str) (s1 : Proc) (h : procOS.chdir s p = .ok s1) :
    s1 = { s with wd := s.resolve p } ∧ p ≠ [] ∧ s.resolve p ∈ s.dirs := by
  simp only [procOS] at h
  by_cases hc : p ≠ [] ∧ s.resolve p ∈ s.dirs
  · rw [if_pos hc] at h
    injection h with h
    exact ⟨h.symm, hc⟩
  · rw [if_neg hc] at h
    cases h

theorem procOS_chdir_cwd (s t : Proc) :
    procOS.chdir t s.cwd =
      if s.cwd ∈ t.dirs then .ok { t with wd := s.cwd } else .error "no such file or directory" := by
  obtain ⟨u, hu⟩ := s.cwd_rooted
  have hne : s.cwd ≠ [] := by rw [hu]; simp
  simp only [procOS, Proc.resolve_cwd]
  by_cases h : s.cwd ∈ t.dirs
  · rw [if_pos ⟨hne, h⟩, if_pos h]
  · rw [if_neg (fun hc => h hc.2), if_neg h]

theorem current_procOS (s : Proc) (h : (procOS.getwd s).2 = none) :
    (Current procOS s).filePath = s.cwd ∧ s.cwd ∈ s.dirs := by
  simp only [procOS] at h
  by_cases hc : s.cwd ∈ s.dirs
  · refine ⟨?_, hc⟩
    show Clean (procOS.getwd s).1 = s.cwd
    simp only [procOS, if_pos hc]
    exact s.cwd_clean
  · rw [if_neg hc] at h
    simp at h

/-- The matcher steps over bytes after a star, and it does not check the
pattern beyond the chunk that failed. -/
theorem Match_examples :
    Match ("*??".toList) ("€".toList) = (true, none) ∧
    Match ("a*[".toList) ("b".toList) = (false, none) ∧
    Match ("a[".toList) ("x".toList) = (false, some ErrBadPattern) ∧
    Match ("a?b".toList) ("a/b".toList) = (false, none) := by
  refine ⟨by decide, by decide, by decide, by decide⟩

/-! ## The claims -/

/-- C1: for every string `s`, `New(s).String()` is the lexically cleaned form
of `s` as the specification words it (`specClean`: empty and `.` elements
dropped, each `..` resolved against the element before it, the elements left
joined by single separators), and the loop of `path.Clean` finishes within
`len(s)` rounds; the result is non-empty, has no two adjacent separators, has
no `.` segment unless it is `.` itself, and has no trailing separator unless
it is the root `/`; `New("./")` is `.`, `New("demo/b/c/./")` is `demo/b/c`,
`New("../x")` is `../x`, `New("a/b/../c")` is `a/c` and `New("/../a//b/")` is
`/a/b`; and `Raw(s).String()` is `s`. -/
theorem new_string_is_cleaned (s : Str) :
    (New s).String = specClean s ∧
    (∀ fuel, s.length ≤ fuel → cleanFuel fuel s = (New s).String) ∧
    (New s).String ≠ [] ∧
    ¬ (['/', '/'] <:+: (New s).String) ∧
    (['.'] ∈ segments (New s).String → (New s).String = ['.']) ∧
    ((New s).String.getLast? = some '/' → (New s).String = ['/']) ∧
    (New ("./".toList)).String = ".".toList ∧
    (New ("demo/b/c/./".toList)).String = "demo/b/c".toList ∧
    (New ("../x".toList)).String = "../x".toList ∧
    (New ("a/b/../c".toList)).String = "a/c".toList ∧
    (New ("/../a//b/".toList)).String = "/a/b".toList ∧
    (Raw s).String = s := by
  obtain ⟨rooted, k, es, h⟩ := Clean_canon s
  refine ⟨Clean_eq_specClean s, fun fuel hf => cleanFuel_eq_Clean fuel s hf, canon_ne_nil h,
    no_double_of_chain (canon_chain h).1, canon_segments h, (canon_chain h).2,
    by decide, by decide, by decide, by decide, by decide, rfl⟩

/-- C2: for a Pathname `p` with a non-empty path and every segment `s`,
`p.Append(s).String()` is the lexically cleaned form, as the specification
words it (`specClean`), of `p.String() + "/" + s`, so a leading separator of
the segment changes nothing, `p.Append("/" + s)` is `p.Append(s)`;
`New("/").Append("/bbb/ccc")` is `/bbb/ccc`, `New("/").Append("bbb")` is
`/bbb`, and `New("a/b").Append("../c")` is `a/c`. -/
theorem append_is_cleaned_join (p : Pathname) (s : Str) (hp : p.String ≠ []) :
    (p.Append s).String = specClean (p.String ++ '/' :: s) ∧
    p.Append ('/' :: s) = p.Append s ∧
    (New ("/".toList)).Append ("/bbb/ccc".toList) = ⟨"/bbb/ccc".toList⟩ ∧
    (New ("/".toList)).Append ("bbb".toList) = ⟨"/bbb".toList⟩ ∧
    (New ("a/b".toList)).Append ("../c".toList) = ⟨"a/c".toList⟩ := by
  have hp' : p.filePath ≠ [] := hp
  refine ⟨(Join_of_ne_nil _ _ hp').trans (Clean_eq_specClean _), ?_, by decide, by decide,
    by decide⟩
  show Raw (Join p.filePath ('/' :: s)) = Raw (Join p.filePath s)
  rw [Join_of_ne_nil _ _ hp', Join_of_ne_nil _ _ hp', Clean_double_slash _ _ hp']

/-- Witness of C2 at `New("demo/b")` and the segment `c`. -/
theorem append_is_cleaned_join_witness :
    ((New ("demo/b".toList)).Append ("c".toList)).String = "demo/b/c".toList ∧
    (New ("demo/b".toList)).Append ("/c".toList) = (New ("demo/b".toList)).Append ("c".toList) :=
  have h := append_is_cleaned_join (New ("demo/b".toList)) ("c".toList) (by decide)
  ⟨h.1.trans (by decide), h.2.1⟩

/-- C3: for every Pathname `New(s)` and every name `n` that is non-empty,
contains no separator and is neither `.` nor `..`, `Parent` and `Basename`
undo `Append`: `New(s).Append(n).Parent()` is `New(s)` and
`New(s).Append(n).Basename()` is `n`. -/
theorem parent_basename_undo_append (s n : Str) (hne : n ≠ []) (hsep : ∀ c ∈ n, c ≠ '/')
    (hdot : n ≠ ".".toList) (hdotdot : n ≠ "..".toList) :
    ((New s).Append n).Parent = New s ∧ ((New s).Append n).Basename = n := by
  obtain ⟨rooted, k, es, h⟩ := Clean_canon s
  have hn : NormalSeg n := ⟨hne, hsep, hdot, hdotdot⟩
  have hj : Join (Clean s) n = Clean (Clean s ++ '/' :: n) := Join_of_ne_nil _ _ (canon_ne_nil h)
  have := Dir_Base_canon_elem h n hn
  constructor
  · show Raw (Dir (Join (Clean s) n)) = ⟨Clean s⟩
    rw [hj, this.1]
    rfl
  · show Base (Join (Clean s) n) = n
    rw [hj, this.2]

/-- Witness of C3 at `New("demo/b")` and a name of the kind `AppendRandom` makes. -/
theorem parent_basename_undo_append_witness :
    ((New ("demo/b".toList)).Append ("1f3a9c2e".toList)).Parent = New ("demo/b".toList) ∧
    ((New ("demo/b".toList)).Append ("1f3a9c2e".toList)).Basename = "1f3a9c2e".toList :=
  parent_basename_undo_append ("demo/b".toList) ("1f3a9c2e".toList)
    (by decide) (by decide) (by decide) (by decide)

/-- C4, counterexample: on `Raw("a.b/")` the final component `Basename()` is
`a.b`, whose part from the last dot is `.b`, yet `Extension()` is empty; so the
extension is not the part of the basename from its last dot for every Pathname. -/
theorem extension_raw_trailing_separator :
    (Raw ("a.b/".toList)).Basename = "a.b".toList ∧
    fromLastDot (Raw ("a.b/".toList)).Basename = ".b".toList ∧
    (Raw ("a.b/".toList)).Extension = [] ∧
    ¬ (∀ p : Pathname, p.Extension = fromLastDot p.Basename ∧
        (p.Extension = [] ↔ '.' ∉ p.Basename)) := by
  refine ⟨by decide, by decide, by decide, ?_⟩
  intro h
  have := (h (Raw ("a.b/".toList))).1
  revert this
  decide

/-- C4, amended: for every Pathname whose path is non-empty and does not end in
a separator, and for every Pathname built by `New`, `Extension()` is the part
of `Basename()` from its last `.` onward, the dot included, and it is empty
exactly when `Basename()` contains no `.`; `New("demo.123").Extension()` is
`.123` and `New("/demo").Extension()` is empty. -/
theorem extension_is_from_last_dot (p : Pathname)
    (h : (p.String ≠ [] ∧ p.String.getLast? ≠ some '/') ∨ ∃ s, p = New s) :
    p.Extension = fromLastDot p.Basename ∧
    (p.Extension = [] ↔ '.' ∉ p.Basename) ∧
    (New ("demo.123".toList)).Extension = ".123".toList ∧
    (New ("/demo".toList)).Extension = [] := by
  have key : p.Extension = fromLastDot p.Basename := by
    rcases h with ⟨h1, h2⟩ | ⟨s, rfl⟩
    · exact Ext_eq_fromLastDot_Base p.filePath h1 h2
    · obtain ⟨rooted, k, es, hc⟩ := Clean_canon s
      show Ext (Clean s) = fromLastDot (Base (Clean s))
      by_cases hl : (Clean s).getLast? = some '/'
      · rw [(canon_chain hc).2 hl]
        decide
      · exact Ext_eq_fromLastDot_Base _ (canon_ne_nil hc) hl
  refine ⟨key, ?_, by decide, by decide⟩
  rw [key]
  exact fromLastDot_eq_nil_iff _

/-- Witness of the amended C4 at `Raw("/abc/efg/demo.123")`. -/
theorem extension_is_from_last_dot_witness :
    (Raw ("/abc/efg/demo.123".toList)).Extension = ".123".toList :=
  (extension_is_from_last_dot (Raw ("/abc/efg/demo.123".toList))
    (Or.inl ⟨by decide, by decide⟩)).1.trans (by decide)

/-- C5: in every state, `CopyFileTo(target)` returns an error and leaves the
state as it was when the source is a directory (`source is dir (not a file)`),
when the source exists but is neither regular nor a directory (`source not a
regular file`), and when the target exists (`target already exist` for a
regular source); the two source checks do not look at the target, so they come
first, and the three messages differ. -/
theorem copyFileTo_refuses {σ : Type} (os : OS σ) (o toPath : Pathname) (s : σ) :
    (∀ fi, os.stat s o.filePath = .ok fi → fi.IsDir = true →
      CopyFileTo os o toPath s = (some "source is dir (not a file)", s)) ∧
    (∀ fi, os.stat s o.filePath = .ok fi → fi.IsRegular = false → fi.IsDir = false →
      CopyFileTo os o toPath s = (some "source not a regular file", s)) ∧
    (∀ fi, os.stat s o.filePath = .ok fi → fi.IsRegular = true → Exist os toPath s = true →
      CopyFileTo os o toPath s = (some "target already exist", s)) ∧
    (IsDirectory os o s = true ∨ (∃ fi, os.stat s o.filePath = .ok fi ∧ fi.IsRegular = false) ∨
        Exist os toPath s = true →
      ∃ err, CopyFileTo os o toPath s = (some err, s)) ∧
    ("source is dir (not a file)" : Msg) ≠ "source not a regular file" ∧
    ("source is dir (not a file)" : Msg) ≠ "target already exist" ∧
    ("source not a regular file" : Msg) ≠ "target already exist" := by
  refine ⟨fun fi hs hd => copyFileTo_source_dir os o toPath s fi hs hd,
    fun fi hs hr hd => copyFileTo_source_irregular os o toPath s fi hs hr hd,
    fun fi hs hr ht => copyFileTo_target_exists os o toPath s fi hs hr ht,
    ?_, by decide, by decide, by decide⟩
  intro h
  cases hs : os.stat s o.filePath with
  | error e => exact ⟨e, by simp [CopyFileTo, hs]⟩
  | ok fi =>
    by_cases hd : fi.IsDir = true
    · exact ⟨_, copyFileTo_source_dir os o toPath s fi hs hd⟩
    · have hd' : fi.IsDir = false := by simpa using hd
      by_cases hr : fi.IsRegular = true
      · rcases h with h | ⟨fi', h1, h2⟩ | h
        · simp [IsDirectory, hs, hd'] at h
        · rw [hs] at h1
          cases h1
          rw [hr] at h2
          exact absurd h2 (by simp)
        · exact ⟨_, copyFileTo_target_exists os o toPath s fi hs hr h⟩
      · have hr' : fi.IsRegular = false := by simpa using hr
        exact ⟨_, copyFileTo_source_irregular os o toPath s fi hs hr' hd'⟩

/-- C10: in every state and for both builds, `CopyTo(target)` returns no error
only if the source is a regular file and the target does not exist; when the
target is a directory or the source is a directory it returns an error and
leaves the state as it was. -/
theorem copyTo_never_copies_directory {σ : Type} (pf : Platform) (os : OS σ)
    (o toPath : Pathname) (s : σ) :
    (∀ s', CopyTo pf os o toPath s = (none, s') →
      (∃ fi, os.stat s o.filePath = .ok fi ∧ fi.IsRegular = true) ∧ Exist os toPath s = false) ∧
    (IsDirectory os toPath s = true → ∃ err, CopyTo pf os o toPath s = (some err, s)) ∧
    (IsDirectory os o s = true → ∃ err, CopyTo pf os o toPath s = (some err, s)) := by
  refine ⟨?_, copyTo_target_dir pf os o toPath s, copyTo_source_dir pf os o toPath s⟩
  intro s' h
  cases ht : IsDirectory os toPath s with
  | true =>
    obtain ⟨err, he⟩ := copyTo_target_dir pf os o toPath s ht
    rw [he] at h
    simp at h
  | false =>
    unfold CopyTo at h
    rw [ht] at h
    simp only [Bool.false_eq_true, if_false] at h
    exact copyFileTo_ok os o toPath s s' h

/-- Witness of C5 on the small system: copying the directory `/a`, the device
`/dev`, and the file `/a/f` onto the existing `/b`. -/
theorem copyFileTo_refuses_witness :
    CopyFileTo simOS ⟨"/a".toList⟩ ⟨"/b".toList⟩ sim0 = (some "source is dir (not a file)", sim0) ∧
    CopyFileTo simOS ⟨"/dev".toList⟩ ⟨"/b".toList⟩ sim0 = (some "source not a regular file", sim0) ∧
    CopyFileTo simOS ⟨"/a/f".toList⟩ ⟨"/b".toList⟩ sim0 = (some "target already exist", sim0) :=
  have h := copyFileTo_refuses simOS
  ⟨(h ⟨"/a".toList⟩ ⟨"/b".toList⟩ sim0).1 ⟨ModeDir ||| 0o755⟩ rfl (by decide),
   (h ⟨"/dev".toList⟩ ⟨"/b".toList⟩ sim0).2.1 ⟨ModeDevice ||| 0o600⟩ rfl (by decide)
     (by decide),
   (h ⟨"/a/f".toList⟩ ⟨"/b".toList⟩ sim0).2.2.1 ⟨0o644⟩ rfl (by decide) (by decide)⟩

/-- Witness of C10 on the small system: copying the directory `/a` to the new
path `/c`, and the file `/a/f` into the directory `/b`, both fail. -/
theorem copyTo_never_copies_directory_witness :
    (∃ err, CopyTo Platform.unix simOS ⟨"/a".toList⟩ ⟨"/c".toList⟩ sim0 = (some err, sim0)) ∧
    (∃ err, CopyTo Platform.unix simOS ⟨"/a/f".toList⟩ ⟨"/b".toList⟩ sim0 = (some err, sim0)) :=
  ⟨(copyTo_never_copies_directory Platform.unix simOS ⟨"/a".toList⟩ ⟨"/c".toList⟩ sim0).2.2
      (by decide),
   (copyTo_never_copies_directory Platform.unix simOS ⟨"/a/f".toList⟩ ⟨"/b".toList⟩ sim0).2.1
      (by decide)⟩

/-- C8, the defect: when the source is a directory, the target does not exist
and the copy command exits successfully, the Unix build returns no error, and
the Windows build, which runs the finished command a second time, returns
`exec: already started`. -/
theorem copyDirTo_windows_reruns_command {σ : Type} (os : OS σ) (o toPath : Pathname)
    (s s1 s2 : σ) (out1 out2 : Msg)
    (hsrc : IsDirectory os o s = true) (htgt : Exist os toPath s = false)
    (hcp : os.spawn s ["cp".toList, "-r".toList, o.filePath, toPath.filePath] =
      (.exited none out1, s1))
    (hxcopy : os.spawn s ["C:\\Windows\\System32\\cmd.exe".toList, "/C".toList, "xcopy".toList,
        o.filePath, toPath.filePath, "/E/H/C/I".toList] = (.exited none out2, s2)) :
    CopyDirToUnix os o toPath s = (none, s1) ∧
    CopyDirToWindows os o toPath s = (some "exec: already started", s2) := by
  constructor
  · unfold CopyDirToUnix
    rw [cmd_run_fresh os _ s s1 out1 hcp]
    simp [hsrc, htgt]
  · unfold CopyDirToWindows
    rw [cmd_run_fresh os _ s s2 out2 hxcopy]
    simp [hsrc, htgt, cmd_run_started]

/-- Witness of the defect of C8 on the small system: copying the directory `/a`
to the new path `/c`. -/
theorem copyDirTo_windows_reruns_command_witness :
    (CopyDirToUnix simOS ⟨"/a".toList⟩ ⟨"/c".toList⟩ sim0).1 = none ∧
    (CopyDirToWindows simOS ⟨"/a".toList⟩ ⟨"/c".toList⟩ sim0).1 = some "exec: already started" :=
  have h := copyDirTo_windows_reruns_command simOS ⟨"/a".toList⟩ ⟨"/c".toList⟩ sim0
    { sim0 with files := ("/c".toList, ⟨ModeDir ||| 0o755⟩) :: sim0.files }
    { sim0 with files := ("/c".toList, ⟨ModeDir ||| 0o755⟩) :: sim0.files } "" ""
    (by decide) (by decide) (by decide) (by decide)
  ⟨by rw [h.1], by rw [h.2]⟩

/-- C7, counterexample: the working directory after `ChdirWithin` is not always
the one in effect before the call.  With the working directory `/a`, the
change to `/b` succeeds, the directory `/a` is removed during the block, the
change back fails, and `ChdirWithin` returns that error with the working
directory `/b`.  And from a working directory that has been removed, so that
`os.Getwd` fails, `ChdirWithin` to `/b` returns no error and leaves the
working directory `/b`.  With the relative target `t` the working directory
during the block is `/a/t`, the directory the target names. -/
theorem chdirWithin_restore_can_fail :
    (∃ s1, procOS.chdir proc0 "/b".toList = .ok s1) ∧
    (ChdirWithin procOS ⟨"/b".toList⟩ removeDirA proc0).1 = some "no such file or directory" ∧
    proc0.cwd = "/a".toList ∧
    (ChdirWithin procOS ⟨"/b".toList⟩ removeDirA proc0).2.1.cwd = "/b".toList ∧
    procOS.getwd procGone = ([], some "no such file or directory") ∧
    procGone.cwd = "/gone".toList ∧
    (ChdirWithin procOS ⟨"/b".toList⟩ (fun _ t => t) procGone).1 = none ∧
    (ChdirWithin procOS ⟨"/b".toList⟩ (fun _ t => t) procGone).2.1.cwd = "/b".toList ∧
    ((ChdirWithin procOS ⟨"t".toList⟩ (fun _ t => t) proc0).2.2.map (fun c => c.2.cwd)) =
      ["/a/t".toList] ∧
    ¬ (∀ (o : Pathname) (block : Pathname → Proc → Proc) (s : Proc),
        (∃ s1, procOS.chdir s o.filePath = .ok s1) →
        (ChdirWithin procOS o block s).2.1.cwd = s.cwd) := by
  refine ⟨⟨_, rfl⟩, by decide, by decide, by decide, by decide, by decide, by decide, by decide,
    by decide, ?_⟩
  intro h
  have := h ⟨"/b".toList⟩ removeDirA proc0 ⟨_, rfl⟩
  revert this
  decide

/-- C7, amended: for every state of the process, every target and every
block: if the change to the target fails, `ChdirWithin` returns that error,
does not call the block and leaves the state as it was; otherwise the block is
called exactly once, with the receiver, in the state the change produced,
whose working directory is the directory the target names (the cleaned target
when it is absolute) in an unchanged tree; and when `os.Getwd` succeeded
before the call, `ChdirWithin` then changes back to the directory in effect
before the call: if that directory still exists after the block,
`ChdirWithin` returns no error, the working directory, also as `os.Getwd`
reports it, is the one in effect before the call, and the tree is as the
block left it; if it does not, `ChdirWithin` returns the error of that change
and the state is as the block left it. -/
theorem chdirWithin_scoped (o : Pathname) (block : Pathname → Proc → Proc) (s : Proc) :
    (∀ err, procOS.chdir s o.filePath = .error err →
      ChdirWithin procOS o block s = (some err, s, [])) ∧
    (∀ s1, procOS.chdir s o.filePath = .ok s1 →
      (ChdirWithin procOS o block s).2.2 = [(o, s1)] ∧
      s1.cwd = s.resolve o.filePath ∧
      (o.filePath.head? = some '/' → s1.cwd = Clean o.filePath) ∧
      s1.dirs = s.dirs ∧
      ((procOS.getwd s).2 = none →
        (s.cwd ∈ (block o s1).dirs →
          (ChdirWithin procOS o block s).1 = none ∧
          (ChdirWithin procOS o block s).2.1.cwd = s.cwd ∧
          procOS.getwd (ChdirWithin procOS o block s).2.1 = procOS.getwd s ∧
          (ChdirWithin procOS o block s).2.1.dirs = (block o s1).dirs) ∧
        (s.cwd ∉ (block o s1).dirs →
          ChdirWithin procOS o block s =
            (some "no such file or directory", block o s1, [(o, s1)])))) := by
  constructor
  · intro err h
    simp [ChdirWithin, h]
  · intro s1 h
    obtain ⟨hs1, hne, hmem⟩ := procOS_chdir_ok s _ s1 h
    have hcwd1 : s1.cwd = s.resolve o.filePath := by rw [hs1]; exact Proc.cwd_enter s s _
    refine ⟨?_, hcwd1, ?_, by rw [hs1], ?_⟩
    · simp only [ChdirWithin, h]
      cases procOS.chdir (block o s1) (Current procOS s).filePath <;> rfl
    · intro habs
      rw [hcwd1, Proc.resolve, if_pos habs]
    · intro hg
      obtain ⟨hcur, hin⟩ := current_procOS s hg
      have hback := procOS_chdir_cwd s (block o s1)
      constructor
      · intro hstill
        rw [if_pos hstill] at hback
        have hres : ChdirWithin procOS o block s =
            (none, { block o s1 with wd := s.cwd }, [(o, s1)]) := by
          simp [ChdirWithin, h, hcur, hback]
        have hfin : Proc.cwd { block o s1 with wd := s.cwd } = s.cwd := by
          have := Proc.cwd_enter s (block o s1) s.cwd
          rwa [Proc.resolve_cwd] at this
        rw [hres]
        refine ⟨rfl, hfin, ?_, rfl⟩
        show (if Proc.cwd { block o s1 with wd := s.cwd } ∈ (block o s1).dirs then _ else _) =
          (if s.cwd ∈ s.dirs then _ else _)
        rw [hfin, if_pos hstill, if_pos hin]
      · intro hgone
        rw [if_neg hgone] at hback
        simp [ChdirWithin, h, hcur, hback]

/-- Witness of the amended C7: from `/a`, `ChdirWithin` to the missing
directory `/123/gjfo/adfle` returns the error of the change, calls no block and
leaves the state as it was; `ChdirWithin` to the relative target `t` runs the
block in `/a/t` and ends in `/a` again without error; and when `/a` is removed
during the block of a `ChdirWithin` to `/b`, the error of the change back is
returned and the state is as the block left it. -/
theorem chdirWithin_scoped_witness :
    ChdirWithin procOS ⟨"/123/gjfo/adfle".toList⟩ (fun _ t => t) proc0 =
      (some "no such file or directory", proc0, []) ∧
    (ChdirWithin procOS ⟨"t".toList⟩ (fun _ t => t) proc0).2.2 =
      [(⟨"t".toList⟩, { proc0 with wd := "/a/t".toList })] ∧
    (ChdirWithin procOS ⟨"t".toList⟩ (fun _ t => t) proc0).1 = none ∧
    (ChdirWithin procOS ⟨"t".toList⟩ (fun _ t => t) proc0).2.1.cwd = "/a".toList ∧
    ChdirWithin procOS ⟨"/b".toList⟩ removeDirA proc0 =
      (some "no such file or directory", removeDirA ⟨"/b".toList⟩ { proc0 with wd := "/b".toList },
        [(⟨"/b".toList⟩, { proc0 with wd := "/b".toList })]) :=
  have h0 := (chdirWithin_scoped ⟨"/123/gjfo/adfle".toList⟩ (fun _ t => t) proc0).1
    "no such file or directory" rfl
  have h := (chdirWithin_scoped ⟨"t".toList⟩ (fun _ t => t) proc0).2
    { proc0 with wd := "/a/t".toList } rfl
  have h2 := (h.2.2.2.2 (by decide)).1 (by decide)
  have h3 := ((chdirWithin_scoped ⟨"/b".toList⟩ removeDirA proc0).2
    { proc0 with wd := "/b".toList } rfl).2.2.2.2 (by decide)
  ⟨h0, h.1, h2.1, h2.2.1.trans (by decide), h3.2 (by decide)⟩

/-- C9, the defect: when `rand.Int()` returns 255, `AppendRandom` under
`New("demo/b")` makes the name `      ff`, six spaces before the two digits, and
the `Basename` of the path it returns is that name: it is not made of
hexadecimal digits only.  Every value below `16 ^ 7` gives a name that begins
with a space; from `16 ^ 7` on the name is made of hexadecimal digits only. -/
theorem appendRandom_pads_with_spaces :
    sprintf8x 255 = "      ff".toList ∧
    AppendRandom simOS sim0 (New ("demo/b".toList)) (fun _ => 255) 1 0 =
      some ⟨"demo/b/      ff".toList⟩ ∧
    (Pathname.mk ("demo/b/      ff".toList)).Basename = "      ff".toList ∧
    ¬ (∀ c ∈ (Pathname.mk ("demo/b/      ff".toList)).Basename, isHexDigit c = true) ∧
    (∀ n, n < 16 ^ 7 → (sprintf8x n).head? = some ' ') ∧
    (∀ n, 16 ^ 7 ≤ n → ∀ c ∈ sprintf8x n, isHexDigit c = true) := by
  refine ⟨by decide, by decide, by decide, by decide, sprintf8x_small, ?_⟩
  intro n hn c hc
  rw [sprintf8x_large n hn] at hc
  exact hexDigits_hex n c hc

/-- C6: in every state whose directory listings give ordinary names (non-empty,
without separator, neither `.` nor `..`), every path `base.Glob(pattern)`
returns has exactly as many separator-delimited segments as the cleaned join
of the base path and the pattern, and each segment matches the pattern
segment at its place as the specification words shell patterns (`PatMatch`,
on the bytes of the two segments: `*` stands for bytes other than the
separator, `?` and a class for one character other than the separator, a byte
that begins no encoding of a character counting as a character): no wildcard
crosses a separator.  A star alone matches exactly the names without
separator, and a pattern segment without metacharacters is matched by itself
and by nothing else.  The loops of the matcher finish within the rounds they
are given.  With the files `1.txt`, `sub/2` and `sub2/sub22/3.txt` under the
base, `Glob("*")` is `[1.txt, sub, sub2]`, `Glob("*.txt")` is `[1.txt]`,
`Glob("*/*")` is `[sub/2, sub2/sub22]` and `Glob("*/*/*.txt")` is
`[sub2/sub22/3.txt]`. -/
theorem glob_stays_within_segments {σ : Type} (os : OS σ) (s : σ)
    (hnames : ∀ dir, ∀ n ∈ os.readDirNames s dir, NormalSeg n)
    (base : Pathname) (pattern : Str) :
    (∀ r ∈ Glob os s base pattern,
      (segments r.String).length = (segments (Join base.String pattern)).length ∧
      List.Forall₂ SegMatch (segments (Join base.String pattern)) (segments r.String)) ∧
    (∀ n, PatMatch [byteStar] n ↔ ∀ b ∈ n, b ≠ Separator) ∧
    (∀ ps x, hasMeta ps = false → (SegMatch ps x ↔ x = ps)) ∧
    (∀ fuel pat name, (utf8 pat).length ≤ fuel →
      matchLoop fuel (utf8 pat) (utf8 name) = Match pat name) ∧
    (∀ fuel chunk t, chunk.length ≤ fuel →
      matchChunkLoop fuel chunk t false = matchChunk chunk t) ∧
    Glob simOS simTree (New (".".toList)) ("*".toList) =
      [⟨"1.txt".toList⟩, ⟨"sub".toList⟩, ⟨"sub2".toList⟩] ∧
    Glob simOS simTree (New (".".toList)) ("*.txt".toList) = [⟨"1.txt".toList⟩] ∧
    Glob simOS simTree (New (".".toList)) ("*/*".toList) =
      [⟨"sub/2".toList⟩, ⟨"sub2/sub22".toList⟩] ∧
    Glob simOS simTree (New (".".toList)) ("*/*/*.txt".toList) =
      [⟨"sub2/sub22/3.txt".toList⟩] := by
  refine ⟨?_, patMatch_star_iff, segMatch_literal_iff, matchLoop_eq_Match,
    fun fuel chunk t h => matchChunkLoop_eq fuel chunk t false h,
    by decide, by decide, by decide, by decide⟩
  intro r hr
  simp only [Glob, List.mem_map] at hr
  obtain ⟨x, hx, rfl⟩ := hr
  have := filepathGlob_segments os s hnames 10000 _ (Join_canon_or_nil base.filePath pattern) x hx
  exact ⟨this.length_eq.symm, this⟩

/-- Witness of C6 on the tree of the glob test: `sub2/sub22` is returned for
`*/*` under the base `.`, and its two segments are matched by `*` and `*`. -/
theorem glob_stays_within_segments_witness :
    (segments (Pathname.mk ("sub2/sub22".toList)).String).length = 2 ∧
    List.Forall₂ SegMatch (segments (Join (New (".".toList)).String ("*/*".toList)))
      (segments (Pathname.mk ("sub2/sub22".toList)).String) :=
  have h := (glob_stays_within_segments simOS simTree simTree_names (New (".".toList))
    ("*/*".toList)).1 ⟨"sub2/sub22".toList⟩ (by decide)
  ⟨h.1.trans (by decide), h.2⟩

end Pathname
